import Mathlib

/-!
# A verification development for the persist / compute-controller core

This file embeds, in Lean 4, the data model and operations of the
repository's persist shard runtime (compare-and-append, batch validation,
snapshots, ShardId string form), the multi-shard transaction commit loop,
and the compute-instance controller (dataflow creation, peeks, subscribes,
frontier tracking), and proves the stated properties about them.

Time is embedded as `Nat`, frontiers (antichains over a totally ordered
time domain) as `Option Nat` where `none` is the empty (maximal) antichain,
machine integers as `Nat`/`Int`, and fallible operations as `Except`.
-/

/-! ## Frontiers

An `Antichain<T>` over the totally ordered timestamp types used by the
code (`u64`, mz timestamps) is either empty or a single element.  We embed
it as `Option Nat`: `none` is the empty antichain (the maximal frontier,
"closed"), `some t` is the singleton `{t}`. -/

/-- A frontier: `none` is the empty antichain, `some t` the singleton. -/
abbrev Frontier := Option Nat

/-- `PartialOrder::less_equal` on antichains: `f ≤ g` iff every element of
`g` is beyond some element of `f`.  The empty antichain is maximal. -/
def fle : Frontier → Frontier → Bool
  | _, none => true
  | none, some _ => false
  | some a, some b => decide (a ≤ b)

/-- `PartialOrder::less_than` on antichains: strict order. -/
def flt (f g : Frontier) : Bool := fle f g && !(fle g f)

/-- `Antichain::less_equal(&t)`: the time `t` is at or beyond the
frontier.  False for the empty antichain. -/
def felemLe : Frontier → Nat → Bool
  | none, _ => false
  | some a, t => decide (a ≤ t)

/-- Join (least upper bound) of two frontiers. -/
def fjoin : Frontier → Frontier → Frontier
  | none, _ => none
  | _, none => none
  | some a, some b => some (max a b)

/-- The minimum frontier `Antichain::from_elem(T::minimum())`. -/
def fminimum : Frontier := some 0

/-- Whether a frontier is the empty antichain. -/
def fIsEmpty : Frontier → Bool
  | none => true
  | some _ => false

theorem fle_refl (f : Frontier) : fle f f = true := by
  cases f <;> simp [fle]

theorem fjoin_comm (f g : Frontier) : fjoin f g = fjoin g f := by
  cases f <;> cases g <;> simp [fjoin, Nat.max_comm]

/-! ## The persist shard model

Modelled from the spec: the shard runtime (`WriteHandle`, `ReadHandle`,
`Machine::compare_and_append`) of the persist crate is not part of the
sampled sources — only its public declarations and its tests are — so the
state machine below is built from the spec's compare-and-append contract
(§4.3, §4.5) and pinned against the repository's own tests
(`compare_and_append`, `append_with_invalid_upper`, `invalid_usage`,
`sanity_check`, `regression_blocking_reads`). -/

/-- One `(key, value, time, diff)` update. -/
structure Update where
  key : String
  val : String
  time : Nat
  diff : Int
deriving DecidableEq, Repr

/-- Modelled from the spec: the `InvalidUsage` error taxonomy (§7),
restricted to the variants exercised here. -/
inductive InvalidUsage where
  | updateNotBeyondLower (ts : Nat) (lower : Frontier)
  | updateBeyondUpper (ts : Nat) (expectedUpper : Frontier)
  | invalidBounds (lower upper : Frontier)
  | invalidEmptyTimeInterval (lower upper : Frontier)
  | invalidBatchBounds (batchLower batchUpper appendLower appendUpper : Frontier)
deriving DecidableEq, Repr

/-- The `UpperMismatch` error carried by a failed compare-and-append. -/
structure UpperMismatch where
  expected : Frontier
  current : Frontier
deriving DecidableEq, Repr

/-- Modelled from the spec: durable shard state — the write frontier
`upper` and the appended trace of updates (§3 `State<T>`). -/
structure Shard where
  upper : Frontier
  trace : List Update
deriving DecidableEq, Repr

/-- A freshly created shard: upper at the minimum frontier, empty trace. -/
def Shard.new : Shard := { upper := fminimum, trace := [] }

/-- Modelled from the spec: a `WriteHandle` remembers a local cached copy
of the shard upper, which may be stale (§4.5). -/
structure WriteHandle where
  upper : Frontier
deriving DecidableEq, Repr

/-- A batch of updates together with its own `[lower, upper)` bounds. -/
structure Batch where
  lower : Frontier
  upper : Frontier
  updates : List Update
deriving DecidableEq, Repr

/-- Modelled from the spec: per-update validation when building a batch.
Every update time `t` must satisfy `lower ≤ t` (else
`UpdateNotBeyondLower`) and `t < upper` (else `UpdateBeyondUpper`);
the first offending update is reported. -/
def validateUpdates (updates : List Update) (lower upper : Frontier) :
    Option InvalidUsage :=
  match updates with
  | [] => none
  | u :: rest =>
    if felemLe lower u.time = false then some (.updateNotBeyondLower u.time lower)
    else if felemLe upper u.time = true then some (.updateBeyondUpper u.time upper)
    else validateUpdates rest lower upper

/-- Modelled from the spec: building a batch from updates and bounds
(`WriteHandle::batch` / the batch builder): validate every update, then
require `lower ≤ upper` (else `InvalidBounds`). -/
def mkBatch (updates : List Update) (lower upper : Frontier) :
    Except InvalidUsage Batch :=
  match validateUpdates updates lower upper with
  | some e => .error e
  | none =>
    if fle lower upper = false then .error (.invalidBounds lower upper)
    else .ok { lower := lower, upper := upper, updates := updates }

/-- Result of an append: either an `InvalidUsage` (surfaced, never
retried) or the inner compare-and-append outcome. -/
abbrev AppendResult := Except InvalidUsage (Except UpperMismatch Unit)

/-- Modelled from the spec: `WriteHandle::compare_and_append_batch`
(§4.3 compare-and-append contract, §4.5).  Checks, in order:
`lower ≤ upper` (`InvalidBounds`), non-degenerate interval for non-empty
batches (`InvalidEmptyTimeInterval`), that the batch's own bounds equal
the append bounds (`InvalidBatchBounds`); then performs the
compare-and-append: on `expected_upper ≠ current upper` it returns
`UpperMismatch` with the current upper, leaves the shard unchanged and
refreshes the handle's cached upper; on success the upper becomes
`new_upper` and the batch is appended to the trace. -/
def compareAndAppendBatch (sh : Shard) (w : WriteHandle) (b : Batch)
    (expectedUpper newUpper : Frontier) :
    Shard × WriteHandle × AppendResult :=
  if fle expectedUpper newUpper = false then
    (sh, w, .error (.invalidBounds expectedUpper newUpper))
  else if expectedUpper = newUpper ∧ b.updates ≠ [] then
    (sh, w, .error (.invalidEmptyTimeInterval expectedUpper newUpper))
  else if b.lower = expectedUpper ∧ b.upper = newUpper then
    (if expectedUpper = sh.upper then
      ({ upper := newUpper, trace := sh.trace ++ b.updates },
        { upper := newUpper }, .ok (.ok ()))
    else
      (sh, { upper := sh.upper },
        .ok (.error { expected := expectedUpper, current := sh.upper })))
  else
    (sh, w, .error (.invalidBatchBounds b.lower b.upper expectedUpper newUpper))

/-- Modelled from the spec: `WriteHandle::append` /
`WriteHandle::compare_and_append` over raw updates: build a batch with
the given bounds, then compare-and-append it. -/
def append (sh : Shard) (w : WriteHandle) (updates : List Update)
    (expectedUpper newUpper : Frontier) :
    Shard × WriteHandle × AppendResult :=
  match mkBatch updates expectedUpper newUpper with
  | .error e => (sh, w, .error e)
  | .ok b => compareAndAppendBatch sh w b expectedUpper newUpper

/-- Modelled from the spec: `ReadHandle::snapshot(as_of)` followed by
fetching.  It does not complete (`none`) while the shard upper is not
beyond `as_of`; once `upper > as_of` it returns exactly the updates at
times `≤ as_of`, with their times advanced (joined) to `as_of`
(§4.5, testable property 3). -/
def snapshotAndFetch (sh : Shard) (asOf : Nat) : Option (List Update) :=
  if felemLe sh.upper asOf then none
  else some ((sh.trace.filter (fun u => u.time ≤ asOf)).map
    (fun u => { u with time := max u.time asOf }))

/-! ### Helper lemmas about the shard model -/

theorem felemLe_mono {f g : Frontier} {t : Nat} (hfg : fle f g = true)
    (h : felemLe g t = true) : felemLe f t = true := by
  cases f <;> cases g <;> simp_all [fle, felemLe] <;> omega

theorem felemLe_trans {f : Frontier} {t t' : Nat} (h : felemLe f t = true)
    (htt : t ≤ t') : felemLe f t' = true := by
  cases f <;> simp_all [felemLe] <;> omega

theorem validateUpdates_none_iff (updates : List Update) (lower upper : Frontier) :
    validateUpdates updates lower upper = none ↔
      ∀ u ∈ updates, felemLe lower u.time = true ∧ ¬ felemLe upper u.time = true := by
  induction updates with
  | nil => simp [validateUpdates]
  | cons u rest ih =>
    simp only [validateUpdates]
    by_cases h1 : felemLe lower u.time = true
    · by_cases h2 : felemLe upper u.time = true
      · simp [h1, h2]
      · simp [h1, h2, ih]
    · simp [Bool.eq_false_iff.mpr h1, h1]

theorem validateUpdates_some_spec (updates : List Update) (lower upper : Frontier)
    (e : InvalidUsage) (h : validateUpdates updates lower upper = some e) :
    (∃ ts, e = .updateNotBeyondLower ts lower ∧ ¬ felemLe lower ts = true) ∨
    (∃ ts, e = .updateBeyondUpper ts upper ∧ felemLe upper ts = true) := by
  induction updates with
  | nil => simp [validateUpdates] at h
  | cons u rest ih =>
    simp only [validateUpdates] at h
    by_cases h1 : felemLe lower u.time = true
    · rw [if_neg (by simp [h1])] at h
      by_cases h2 : felemLe upper u.time = true
      · rw [if_pos h2] at h
        injection h with h
        exact .inr ⟨u.time, h.symm, h2⟩
      · rw [if_neg h2] at h
        exact ih h
    · rw [if_pos (Bool.eq_false_iff.mpr h1)] at h
      injection h with h
      exact .inl ⟨u.time, h.symm, h1⟩

/-- Inversion for a successfully built batch. -/
theorem mkBatch_ok_inv {updates : List Update} {lower upper : Frontier} {b : Batch}
    (h : mkBatch updates lower upper = .ok b) :
    validateUpdates updates lower upper = none ∧ fle lower upper = true ∧
      b = { lower := lower, upper := upper, updates := updates } := by
  unfold mkBatch at h
  split at h
  next e heq => simp at h
  next heq =>
    split at h
    next hff => simp at h
    next hff =>
      injection h with h
      exact ⟨heq, by simpa using hff, h.symm⟩

/-- Full case analysis of an `append` call that did not hit `InvalidUsage`. -/
theorem append_ok_inv (sh : Shard) (w : WriteHandle) (updates : List Update)
    (expected newUpper : Frontier) (sh' : Shard) (w' : WriteHandle)
    (r : Except UpperMismatch Unit)
    (h : append sh w updates expected newUpper = (sh', w', .ok r)) :
    validateUpdates updates expected newUpper = none ∧
    fle expected newUpper = true ∧
    ((expected ≠ sh.upper ∧ sh' = sh ∧ w' = { upper := sh.upper } ∧
        r = .error { expected := expected, current := sh.upper }) ∨
      (expected = sh.upper ∧
        sh' = { upper := newUpper, trace := sh.trace ++ updates } ∧
        w' = { upper := newUpper } ∧ r = .ok ())) := by
  unfold append at h
  split at h
  next e heq => simp at h
  next b heq =>
    obtain ⟨hv, hb, rfl⟩ := mkBatch_ok_inv heq
    refine ⟨hv, hb, ?_⟩
    unfold compareAndAppendBatch at h
    rw [if_neg (by simp [hb])] at h
    have hemp : ¬(expected = newUpper ∧ updates ≠ []) := by
      rintro ⟨hequ, hne⟩
      cases updates with
      | nil => exact hne rfl
      | cons u rest =>
        have hu := (validateUpdates_none_iff _ _ _).mp hv u (by simp)
        rw [hequ] at hu
        exact hu.2 hu.1
    rw [if_neg (by simpa using hemp)] at h
    rw [if_pos ⟨rfl, rfl⟩] at h
    split at h
    next hme =>
      simp only [Prod.mk.injEq] at h
      refine .inr ⟨hme, h.1.symm, h.2.1.symm, ?_⟩
      have h22 := h.2.2
      injection h22 with h22
      exact h22.symm
    next hme =>
      simp only [Prod.mk.injEq] at h
      refine .inl ⟨hme, h.1.symm, h.2.1.symm, ?_⟩
      have h22 := h.2.2
      injection h22 with h22
      exact h22.symm

/-- An `append` that returns `InvalidUsage` leaves both the shard and the
handle untouched. -/
theorem append_error_state (sh : Shard) (w : WriteHandle) (updates : List Update)
    (lower upper : Frontier) (sh' : Shard) (w' : WriteHandle) (e : InvalidUsage)
    (h : append sh w updates lower upper = (sh', w', .error e)) :
    sh' = sh ∧ w' = w := by
  unfold append at h
  split at h
  next e0 heq =>
    simp only [Prod.mk.injEq] at h
    exact ⟨h.1.symm, h.2.1.symm⟩
  next b heq =>
    obtain ⟨hv, hb, rfl⟩ := mkBatch_ok_inv heq
    unfold compareAndAppendBatch at h
    rw [if_neg (by simp [hb])] at h
    split at h
    next hemp =>
      simp only [Prod.mk.injEq] at h
      exact ⟨h.1.symm, h.2.1.symm⟩
    next hemp =>
      rw [if_pos ⟨rfl, rfl⟩] at h
      split at h
      next hme => simp at h
      next hme =>
        simp only [Prod.mk.injEq] at h
        exact absurd h.2.2 (by simp)

/-! ### Claim theorems for the shard model -/

/-- Claim C1: a compare-and-append (or append) whose `expected_upper` does
not equal the shard's current upper returns `Err(UpperMismatch)` carrying
the shard's actual current upper, leaves the shard's contents and upper
unchanged, and refreshes the calling handle's locally cached upper to that
current upper; when `expected_upper` equals the current upper the call
succeeds and the shard's upper becomes `new_upper`. -/
theorem c1_compare_and_append_upper_mismatch
    (sh : Shard) (w : WriteHandle) (updates : List Update)
    (expected newUpper : Frontier) (sh' : Shard) (w' : WriteHandle)
    (r : Except UpperMismatch Unit)
    (h : append sh w updates expected newUpper = (sh', w', .ok r)) :
    (expected ≠ sh.upper →
      r = .error { expected := expected, current := sh.upper } ∧
        sh' = sh ∧ w'.upper = sh.upper) ∧
    (expected = sh.upper →
      r = .ok () ∧ sh'.upper = newUpper ∧ sh'.trace = sh.trace ++ updates ∧
        w'.upper = newUpper) := by
  obtain ⟨-, -, hcase⟩ := append_ok_inv sh w updates expected newUpper sh' w' r h
  constructor
  · intro hne
    rcases hcase with ⟨-, hsh, hw, hr⟩ | ⟨heq, -, -, -⟩
    · exact ⟨hr, hsh, by rw [hw]⟩
    · exact absurd heq hne
  · intro heq
    rcases hcase with ⟨hne, -, -, -⟩ | ⟨-, hsh, hw, hr⟩
    · exact absurd heq hne
    · exact ⟨hr, by rw [hsh], by rw [hsh], by rw [hw]⟩

/-- Witness for C1: a concrete mismatching append. -/
theorem c1_compare_and_append_upper_mismatch_witness :
    append { upper := some 3, trace := [] } { upper := some 0 } []
        (some 0) (some 5) =
      ({ upper := some 3, trace := [] }, { upper := some 3 },
        .ok (.error { expected := some 0, current := some 3 })) ∧
    ((Except.error { expected := some 0, current := some 3 } :
        Except UpperMismatch Unit)
        = .error { expected := some 0, current := some 3 } ∧
      ({ upper := some 3, trace := [] } : Shard)
        = { upper := some 3, trace := [] } ∧
      ({ upper := some 3 } : WriteHandle).upper = some 3) :=
  ⟨by rfl,
    (c1_compare_and_append_upper_mismatch { upper := some 3, trace := [] }
      { upper := some 0 } [] (some 0) (some 5) { upper := some 3, trace := [] }
      { upper := some 3 } (.error { expected := some 0, current := some 3 })
      (by rfl)).1 (by decide)⟩

/-- Claim C3: for every append of a batch with bounds `[lower, upper)`:
every update time `t` must satisfy `lower ≤ t < upper`, otherwise the call
returns `InvalidUsage` (`UpdateNotBeyondLower` when `t < lower`,
`UpdateBeyondUpper` when `t ≥ upper`); `lower` strictly greater than
`upper` returns `InvalidBounds`; appending a non-empty batch over a
degenerate interval `[a,a)` returns `InvalidEmptyTimeInterval`; appending
a batch under bounds differing from the batch's own bounds returns
`InvalidBatchBounds`; such errors are surfaced to the caller with the
state untouched, never retried internally. -/
theorem c3_invalid_usage_contract (sh : Shard) (w : WriteHandle)
    (updates : List Update) (lower upper : Frontier) :
    ((∃ u ∈ updates, ¬ felemLe lower u.time = true ∨ felemLe upper u.time = true) →
      ∃ ts,
        (¬ felemLe lower ts = true ∧
          append sh w updates lower upper =
            (sh, w, .error (.updateNotBeyondLower ts lower))) ∨
        (felemLe upper ts = true ∧
          append sh w updates lower upper =
            (sh, w, .error (.updateBeyondUpper ts upper)))) ∧
    ((∀ u ∈ updates, felemLe lower u.time = true ∧ ¬ felemLe upper u.time = true) →
      ¬ fle lower upper = true →
      append sh w updates lower upper = (sh, w, .error (.invalidBounds lower upper))) ∧
    (∀ b : Batch, b.updates ≠ [] → ∀ f : Frontier,
      compareAndAppendBatch sh w b f f =
        (sh, w, .error (.invalidEmptyTimeInterval f f))) ∧
    (∀ (b : Batch) (al au : Frontier), fle al au = true → (al = au → b.updates = []) →
      (b.lower ≠ al ∨ b.upper ≠ au) →
      compareAndAppendBatch sh w b al au =
        (sh, w, .error (.invalidBatchBounds b.lower b.upper al au))) ∧
    (∀ sh' w' e, append sh w updates lower upper = (sh', w', .error e) →
      sh' = sh ∧ w' = w) := by
  refine ⟨?_, ?_, ?_, ?_, ?_⟩
  · intro hex
    cases hv : validateUpdates updates lower upper with
    | none =>
      obtain ⟨u, hu, hviol⟩ := hex
      have := (validateUpdates_none_iff updates lower upper).mp hv u hu
      rcases hviol with h1 | h2
      · exact absurd this.1 h1
      · exact absurd h2 this.2
    | some e =>
      have happ : append sh w updates lower upper = (sh, w, .error e) := by
        unfold append mkBatch
        rw [hv]
      rcases validateUpdates_some_spec updates lower upper e hv with
        ⟨ts, rfl, hts⟩ | ⟨ts, rfl, hts⟩
      · exact ⟨ts, .inl ⟨hts, happ⟩⟩
      · exact ⟨ts, .inr ⟨hts, happ⟩⟩
  · intro hok hnb
    unfold append mkBatch
    rw [(validateUpdates_none_iff updates lower upper).mpr hok]
    rw [if_pos (Bool.eq_false_iff.mpr hnb)]
  · intro b hbne f
    unfold compareAndAppendBatch
    rw [if_neg (by simp [fle_refl])]
    rw [if_pos ⟨rfl, hbne⟩]
  · intro b al au hle hdeg hneq
    unfold compareAndAppendBatch
    rw [if_neg (by simp [hle])]
    rw [if_neg (by rintro ⟨h1, h2⟩; exact h2 (hdeg h1))]
    rw [if_neg (by rintro ⟨h1, h2⟩; rcases hneq with hn | hn; exacts [hn h1, hn h2])]
  · intro sh' w' e h
    exact append_error_state sh w updates lower upper sh' w' e h

/-- Witness for C3: a non-empty batch over a degenerate interval. -/
theorem c3_invalid_usage_contract_witness :
    (({ lower := some 3, upper := some 4,
        updates := [{ key := "k", val := "v", time := 3, diff := 1 }] } : Batch).updates
      ≠ []) ∧
    compareAndAppendBatch { upper := some 3, trace := [] } { upper := some 3 }
        { lower := some 3, upper := some 4,
          updates := [{ key := "k", val := "v", time := 3, diff := 1 }] }
        (some 3) (some 3) =
      ({ upper := some 3, trace := [] }, { upper := some 3 },
        .error (.invalidEmptyTimeInterval (some 3) (some 3))) :=
  ⟨by decide,
    (c3_invalid_usage_contract { upper := some 3, trace := [] } { upper := some 3 }
      [] none none).2.2.1
      { lower := some 3, upper := some 4,
        updates := [{ key := "k", val := "v", time := 3, diff := 1 }] }
      (by decide) (some 3)⟩

/-- Claim C4: `snapshot(as_of)` does not complete while the shard's upper
is not beyond `as_of`; once the upper is beyond `as_of` it completes and
returns exactly the updates at times `≤ as_of` with their times advanced
to `as_of`; and the result is stable across subsequent appends (hence
identical across repeated snapshots at the same `as_of`). -/
theorem c4_snapshot_contract (sh : Shard) (asOf : Nat) :
    (snapshotAndFetch sh asOf = none ↔ felemLe sh.upper asOf = true) ∧
    (∀ r, snapshotAndFetch sh asOf = some r →
      ∀ v : Update, v ∈ r ↔ ∃ u ∈ sh.trace, u.time ≤ asOf ∧
        v = { u with time := asOf }) ∧
    (∀ r updates newUpper sh' w w',
      snapshotAndFetch sh asOf = some r →
      append sh w updates sh.upper newUpper = (sh', w', .ok (.ok ())) →
      snapshotAndFetch sh' asOf = some r) := by
  refine ⟨?_, ?_, ?_⟩
  · unfold snapshotAndFetch
    by_cases hup : felemLe sh.upper asOf = true
    · simp [hup]
    · simp [hup]
  · intro r hr v
    unfold snapshotAndFetch at hr
    by_cases hup : felemLe sh.upper asOf = true
    · rw [if_pos hup] at hr
      exact absurd hr (by simp)
    · rw [if_neg hup] at hr
      injection hr with hr
      subst hr
      simp only [List.mem_map, List.mem_filter]
      constructor
      · rintro ⟨u, ⟨hu, hle⟩, rfl⟩
        have hle' : u.time ≤ asOf := by simpa using hle
        exact ⟨u, hu, hle', by simp [Nat.max_eq_right hle']⟩
      · rintro ⟨u, hu, hle, rfl⟩
        exact ⟨u, ⟨hu, by simpa using hle⟩, by simp [Nat.max_eq_right hle]⟩
  · intro r updates newUpper sh' w w' hr happ
    obtain ⟨hv, hb, hcase⟩ :=
      append_ok_inv sh w updates sh.upper newUpper sh' w' (.ok ()) happ
    rcases hcase with ⟨hne, -, -, -⟩ | ⟨-, rfl, -, -⟩
    · exact absurd rfl hne
    · unfold snapshotAndFetch at hr ⊢
      by_cases hup : felemLe sh.upper asOf = true
      · rw [if_pos hup] at hr
        exact absurd hr (by simp)
      · rw [if_neg hup] at hr
        have hup' : ¬ felemLe newUpper asOf = true :=
          fun hx => hup (felemLe_mono hb hx)
        rw [if_neg (by simpa using hup')]
        have hfilter : updates.filter (fun u => u.time ≤ asOf) = [] := by
          rw [List.filter_eq_nil_iff]
          intro u hu hdec
          have h1 := ((validateUpdates_none_iff updates sh.upper newUpper).mp hv u hu).1
          exact hup (felemLe_trans h1 (by simpa using hdec))
        simp only [List.filter_append, hfilter, List.append_nil]
        exact hr

/-- Witness for C4: a concrete snapshot that stays stable across a
subsequent successful append. -/
theorem c4_snapshot_contract_witness :
    snapshotAndFetch ⟨some 1, [⟨"a", "x", 0, 1⟩]⟩ 0 = some [⟨"a", "x", 0, 1⟩] ∧
    append ⟨some 1, [⟨"a", "x", 0, 1⟩]⟩ ⟨some 1⟩ [⟨"b", "y", 1, 1⟩] (some 1) (some 2) =
      (⟨some 2, [⟨"a", "x", 0, 1⟩, ⟨"b", "y", 1, 1⟩]⟩, ⟨some 2⟩, .ok (.ok ())) ∧
    snapshotAndFetch ⟨some 2, [⟨"a", "x", 0, 1⟩, ⟨"b", "y", 1, 1⟩]⟩ 0 =
      some [⟨"a", "x", 0, 1⟩] :=
  ⟨by rfl, by rfl,
    (c4_snapshot_contract ⟨some 1, [⟨"a", "x", 0, 1⟩]⟩ 0).2.2
      [⟨"a", "x", 0, 1⟩] [⟨"b", "y", 1, 1⟩] (some 2)
      ⟨some 2, [⟨"a", "x", 0, 1⟩, ⟨"b", "y", 1, 1⟩]⟩
      ⟨some 1⟩ ⟨some 2⟩ (by rfl) (by rfl)⟩

/-! ## ShardId string form

Modelled from the spec: `ShardId`'s `Display` writes `s` followed by the
canonical 8-4-4-4-12 lowercase hex UUID, and `FromStr` strips the prefix
and parses the UUID (`parse_id` in the encoding module, which is not under
the sampled sources).  The parser below follows the spec (§6.1) and is
pinned against the repository's `fmt_ids` test, including the exact error
messages of the underlying UUID parser for the simple (32 hex chars) and
hyphenated (36 chars) formats used by the repository. -/

/-- Lowercase hex digit for a nibble. -/
def nibbleChar (n : Nat) : Char :=
  if n < 10 then Char.ofNat (48 + n) else Char.ofNat (87 + n)

/-- Two lowercase hex digits for a byte. -/
def byteHex (b : Nat) : List Char := [nibbleChar (b / 16), nibbleChar (b % 16)]

/-- Hex encoding of a byte string. -/
def bytesHex (bs : List Nat) : List Char := (bs.map byteHex).flatten

/-- The canonical 8-4-4-4-12 hyphenated UUID form of 16 bytes. -/
def uuidHyphenatedChars (bs : List Nat) : List Char :=
  bytesHex (bs.take 4) ++ ('-' :: (bytesHex ((bs.drop 4).take 2) ++ ('-' ::
    (bytesHex ((bs.drop 6).take 2) ++ ('-' :: (bytesHex ((bs.drop 8).take 2) ++
    ('-' :: bytesHex (bs.drop 10))))))))

/-- A `ShardId` is 16 bytes. -/
structure ShardId where
  bytes : List Nat
  len16 : bytes.length = 16
  bytesLt : ∀ b ∈ bytes, b < 256

/-- `Display for ShardId`: `s` followed by the hyphenated UUID. -/
def ShardId.display (s : ShardId) : String := ⟨'s' :: uuidHyphenatedChars s.bytes⟩

/-- The numeric value of a hex digit, if any. -/
def charHexVal (c : Char) : Option Nat :=
  if '0' ≤ c ∧ c ≤ '9' then some (c.toNat - 48)
  else if 'a' ≤ c ∧ c ≤ 'f' then some (c.toNat - 87)
  else if 'A' ≤ c ∧ c ≤ 'F' then some (c.toNat - 55)
  else none

/-- Whether a char is an ASCII hex digit. -/
def isHexDigit (c : Char) : Bool := (charHexVal c).isSome

/-- Decode pairs of hex digits into bytes. -/
def parseHexPairs : List Char → Option (List Nat)
  | [] => some []
  | [_] => none
  | c1 :: c2 :: rest => do
    let h1 ← charHexVal c1
    let h2 ← charHexVal c2
    let bs ← parseHexPairs rest
    some ((16 * h1 + h2) :: bs)

/-- Split a char list at its first hyphen. -/
def splitAtHyphen : List Char → Option (List Char × List Char)
  | [] => none
  | c :: rest =>
    if c = '-' then some ([], rest)
    else (splitAtHyphen rest).map (fun p => (c :: p.1, p.2))

/-- Parse the hyphenated 8-4-4-4-12 UUID format. -/
def parseHyphenated (cs : List Char) : Option (List Nat) := do
  let (g1, r1) ← splitAtHyphen cs
  let (g2, r2) ← splitAtHyphen r1
  let (g3, r3) ← splitAtHyphen r2
  let (g4, g5) ← splitAtHyphen r3
  if g1.length = 8 ∧ g2.length = 4 ∧ g3.length = 4 ∧ g4.length = 4 ∧
      g5.length = 12 ∧ '-' ∉ g5 then
    let b1 ← parseHexPairs g1
    let b2 ← parseHexPairs g2
    let b3 ← parseHexPairs g3
    let b4 ← parseHexPairs g4
    let b5 ← parseHexPairs g5
    some (b1 ++ b2 ++ b3 ++ b4 ++ b5)
  else none

/-- First char that is neither a hyphen nor a hex digit, with its index. -/
def firstBadChar (cs : List Char) (i : Nat) : Option (Char × Nat) :=
  match cs with
  | [] => none
  | c :: rest =>
    if c ≠ '-' ∧ isHexDigit c = false then some (c, i)
    else firstBadChar rest (i + 1)

/-- Modelled from the spec: the UUID parser's error analysis for invalid
input (as pinned by the repository's `fmt_ids` test): an invalid character
is reported with 1-based position and takes priority; otherwise a
hyphen-free input is reported as a simple-format length error; otherwise
the hyphen count or a group length is wrong. -/
def uuidErrorMessage (cs : List Char) : String :=
  match firstBadChar cs 0 with
  | some (c, i) =>
    "invalid character: expected an optional prefix of `urn:uuid:` followed by [0-9a-zA-Z], found `"
      ++ String.mk [c] ++ "` at " ++ toString (i + 1)
  | none =>
    let hyphens := cs.countP (fun c => c = '-')
    if hyphens = 0 then
      "invalid length: expected length 32 for simple format, found " ++ toString cs.length
    else if hyphens ≠ 4 then
      "invalid group count: expected 5, found " ++ toString (hyphens + 1)
    else
      "invalid group length: expected 8-4-4-4-12"

/-- Modelled from the spec: `Uuid::parse_str` restricted to the simple
(length 32) and hyphenated (length 36) formats used by the repository. -/
def uuidTryParse (cs : List Char) : Except String (List Nat) :=
  if cs.length = 32 then
    match parseHexPairs cs with
    | some bs => .ok bs
    | none => .error (uuidErrorMessage cs)
  else if cs.length = 36 then
    match parseHyphenated cs with
    | some bs => .ok bs
    | none => .error (uuidErrorMessage cs)
  else .error (uuidErrorMessage cs)

/-- Modelled from the spec: `parse_id(prefix_char, id_type, encoded)`
strips the one-char prefix (else `incorrect prefix`) and parses the rest
as a UUID, wrapping errors as `invalid {type} {encoded}: {err}`. -/
def parse_id (idPfxChar : Char) (idType : String) (encoded : String) :
    Except String (List Nat) :=
  match encoded.data with
  | [] => .error ("invalid " ++ idType ++ " " ++ encoded ++ ": incorrect prefix")
  | c :: rest =>
    if c = idPfxChar then
      match uuidTryParse rest with
      | .ok bs => .ok bs
      | .error e => .error ("invalid " ++ idType ++ " " ++ encoded ++ ": " ++ e)
    else .error ("invalid " ++ idType ++ " " ++ encoded ++ ": incorrect prefix")

/-- `FromStr for ShardId`: `parse_id('s', "ShardId", s)`. -/
def shardIdFromStr (s : String) : Except String (List Nat) :=
  parse_id 's' "ShardId" s

/-! ### Helper lemmas for the ShardId string form -/

theorem charHexVal_nibbleChar : ∀ n < 16, charHexVal (nibbleChar n) = some n := by
  decide

theorem nibbleChar_isHex : ∀ n < 16, isHexDigit (nibbleChar n) = true := by
  decide

theorem nibbleChar_ne_hyphen : ∀ n < 16, nibbleChar n ≠ '-' := by
  decide

theorem hyphen_not_hex : isHexDigit '-' = false := by decide

theorem byteHex_length (b : Nat) : (byteHex b).length = 2 := rfl

theorem bytesHex_length (bs : List Nat) : (bytesHex bs).length = 2 * bs.length := by
  induction bs with
  | nil => rfl
  | cons b rest ih =>
    simp only [bytesHex, List.map_cons, List.flatten_cons] at ih ⊢
    simp [ih, byteHex]
    omega

theorem mem_byteHex_isNibble {b : Nat} (hb : b < 256) {c : Char}
    (hc : c ∈ byteHex b) : ∃ n, n < 16 ∧ c = nibbleChar n := by
  simp only [byteHex, List.mem_cons, List.mem_singleton] at hc
  rcases hc with rfl | rfl | h
  · exact ⟨b / 16, by omega, rfl⟩
  · exact ⟨b % 16, by omega, rfl⟩
  · simp at h

theorem mem_bytesHex_isNibble {bs : List Nat} (hbs : ∀ b ∈ bs, b < 256) {c : Char}
    (hc : c ∈ bytesHex bs) : ∃ n, n < 16 ∧ c = nibbleChar n := by
  induction bs with
  | nil => simp [bytesHex] at hc
  | cons b rest ih =>
    simp only [bytesHex, List.map_cons, List.flatten_cons, List.mem_append] at hc
    rcases hc with h | h
    · exact mem_byteHex_isNibble (hbs b (by simp)) h
    · exact ih (fun x hx => hbs x (by simp [hx])) h

theorem hyphen_not_mem_bytesHex {bs : List Nat} (hbs : ∀ b ∈ bs, b < 256) :
    '-' ∉ bytesHex bs := by
  intro hmem
  obtain ⟨n, hn, hc⟩ := mem_bytesHex_isNibble hbs hmem
  exact nibbleChar_ne_hyphen n hn hc.symm

theorem bytesHex_allHex {bs : List Nat} (hbs : ∀ b ∈ bs, b < 256) :
    ∀ c ∈ bytesHex bs, isHexDigit c = true := by
  intro c hc
  obtain ⟨n, hn, rfl⟩ := mem_bytesHex_isNibble hbs hc
  exact nibbleChar_isHex n hn

theorem parseHexPairs_bytesHex (bs : List Nat) (hbs : ∀ b ∈ bs, b < 256) :
    parseHexPairs (bytesHex bs) = some bs := by
  induction bs with
  | nil => rfl
  | cons b rest ih =>
    have hb : b < 256 := hbs b (by simp)
    have hdiv : b / 16 < 16 := by omega
    have hmod : b % 16 < 16 := by omega
    have hstep : bytesHex (b :: rest) =
        nibbleChar (b / 16) :: nibbleChar (b % 16) :: bytesHex rest := by
      simp [bytesHex, byteHex]
    rw [hstep]
    simp only [parseHexPairs, charHexVal_nibbleChar _ hdiv, charHexVal_nibbleChar _ hmod]
    rw [ih (fun x hx => hbs x (by simp [hx]))]
    simp [Nat.div_add_mod]

theorem splitAtHyphen_append (g rest : List Char) (hg : '-' ∉ g) :
    splitAtHyphen (g ++ '-' :: rest) = some (g, rest) := by
  induction g with
  | nil => simp [splitAtHyphen]
  | cons c g' ih =>
    have hc : c ≠ '-' := fun h => hg (by simp [h])
    simp only [List.cons_append, splitAtHyphen, List.append_eq, if_neg hc]
    rw [ih (fun h => hg (by simp [h]))]
    rfl

theorem splitAtHyphen_none (cs : List Char) (h : '-' ∉ cs) :
    splitAtHyphen cs = none := by
  induction cs with
  | nil => rfl
  | cons c rest ih =>
    have hc : c ≠ '-' := fun hcc => h (by simp [hcc])
    simp only [splitAtHyphen, if_neg hc]
    rw [ih (fun hr => h (by simp [hr]))]
    rfl

theorem firstBadChar_none (cs : List Char) (h : ∀ c ∈ cs, isHexDigit c = true) :
    ∀ i, firstBadChar cs i = none := by
  induction cs with
  | nil => intro i; rfl
  | cons c rest ih =>
    intro i
    have hc := h c (by simp)
    have hcond : ¬(c ≠ '-' ∧ isHexDigit c = false) := by
      rintro ⟨-, hfalse⟩
      rw [hc] at hfalse
      exact absurd hfalse (by simp)
    simp only [firstBadChar, if_neg hcond]
    exact ih (fun x hx => h x (by simp [hx])) (i + 1)

theorem uuidHyphenatedChars_length (bs : List Nat) (hlen : bs.length = 16) :
    (uuidHyphenatedChars bs).length = 36 := by
  simp [uuidHyphenatedChars, bytesHex_length, List.length_take, List.length_drop, hlen]

theorem parseHyphenated_uuid (bs : List Nat) (hlen : bs.length = 16)
    (hlt : ∀ b ∈ bs, b < 256) :
    parseHyphenated (uuidHyphenatedChars bs) = some bs := by
  have hlt1 : ∀ b ∈ bs.take 4, b < 256 := fun b hb => hlt b (List.take_subset _ _ hb)
  have hlt2 : ∀ b ∈ (bs.drop 4).take 2, b < 256 :=
    fun b hb => hlt b (List.drop_subset _ _ (List.take_subset _ _ hb))
  have hlt3 : ∀ b ∈ (bs.drop 6).take 2, b < 256 :=
    fun b hb => hlt b (List.drop_subset _ _ (List.take_subset _ _ hb))
  have hlt4 : ∀ b ∈ (bs.drop 8).take 2, b < 256 :=
    fun b hb => hlt b (List.drop_subset _ _ (List.take_subset _ _ hb))
  have hlt5 : ∀ b ∈ bs.drop 10, b < 256 := fun b hb => hlt b (List.drop_subset _ _ hb)
  have hg1 : (bytesHex (bs.take 4)).length = 8 := by
    simp [bytesHex_length, List.length_take, hlen]
  have hg2 : (bytesHex ((bs.drop 4).take 2)).length = 4 := by
    simp [bytesHex_length, List.length_take, List.length_drop, hlen]
  have hg3 : (bytesHex ((bs.drop 6).take 2)).length = 4 := by
    simp [bytesHex_length, List.length_take, List.length_drop, hlen]
  have hg4 : (bytesHex ((bs.drop 8).take 2)).length = 4 := by
    simp [bytesHex_length, List.length_take, List.length_drop, hlen]
  have hg5 : (bytesHex (bs.drop 10)).length = 12 := by
    simp [bytesHex_length, List.length_drop, hlen]
  unfold parseHyphenated uuidHyphenatedChars
  rw [splitAtHyphen_append _ _ (hyphen_not_mem_bytesHex hlt1)]
  simp only [Option.bind_eq_bind, Option.some_bind]
  rw [splitAtHyphen_append _ _ (hyphen_not_mem_bytesHex hlt2)]
  simp only [Option.some_bind]
  rw [splitAtHyphen_append _ _ (hyphen_not_mem_bytesHex hlt3)]
  simp only [Option.some_bind]
  rw [splitAtHyphen_append _ _ (hyphen_not_mem_bytesHex hlt4)]
  simp only [Option.some_bind]
  rw [if_pos ⟨hg1, hg2, hg3, hg4, hg5, hyphen_not_mem_bytesHex hlt5⟩]
  rw [parseHexPairs_bytesHex _ hlt1]
  simp only [Option.some_bind]
  rw [parseHexPairs_bytesHex _ hlt2]
  simp only [Option.some_bind]
  rw [parseHexPairs_bytesHex _ hlt3]
  simp only [Option.some_bind]
  rw [parseHexPairs_bytesHex _ hlt4]
  simp only [Option.some_bind]
  rw [parseHexPairs_bytesHex _ hlt5]
  simp only [Option.some_bind, Option.some.injEq]
  have e5 : (bs.drop 8).take 2 ++ bs.drop 10 = bs.drop 8 := by
    have h : (bs.drop 8).drop 2 = bs.drop 10 := by rw [List.drop_drop]
    rw [← h, List.take_append_drop]
  have e4 : (bs.drop 6).take 2 ++ bs.drop 8 = bs.drop 6 := by
    have h : (bs.drop 6).drop 2 = bs.drop 8 := by rw [List.drop_drop]
    rw [← h, List.take_append_drop]
  have e3 : (bs.drop 4).take 2 ++ bs.drop 6 = bs.drop 4 := by
    have h : (bs.drop 4).drop 2 = bs.drop 6 := by rw [List.drop_drop]
    rw [← h, List.take_append_drop]
  have e2 : bs.take 4 ++ bs.drop 4 = bs := List.take_append_drop 4 bs
  simp only [List.append_assoc]
  rw [e5, e4, e3, e2]

theorem parseHyphenated_noHyphen (cs : List Char) (h : '-' ∉ cs) :
    parseHyphenated cs = none := by
  unfold parseHyphenated
  rw [splitAtHyphen_none cs h]
  rfl

theorem uuidErrorMessage_allHex (cs : List Char)
    (hhex : ∀ c ∈ cs, isHexDigit c = true) :
    uuidErrorMessage cs =
      "invalid length: expected length 32 for simple format, found "
        ++ toString cs.length := by
  unfold uuidErrorMessage
  rw [firstBadChar_none cs hhex 0]
  have hcount : cs.countP (fun c => c = '-') = 0 := by
    rw [List.countP_eq_zero]
    intro a ha
    intro hdec
    have ha' : a = '-' := by simpa using hdec
    have := hhex a ha
    rw [ha', hyphen_not_hex] at this
    exact absurd this (by simp)
  simp only [hcount]
  rfl

/-- The display form of a ShardId parses back to its bytes. -/
theorem shardIdFromStr_display (s : ShardId) :
    shardIdFromStr s.display = .ok s.bytes := by
  obtain ⟨bs, hlen, hlt⟩ := s
  show parse_id 's' "ShardId" ⟨'s' :: uuidHyphenatedChars bs⟩ = .ok bs
  unfold parse_id
  show (if 's' = 's' then _ else _) = _
  rw [if_pos rfl]
  unfold uuidTryParse
  rw [if_neg (by rw [uuidHyphenatedChars_length bs hlen]; norm_num)]
  rw [if_pos (uuidHyphenatedChars_length bs hlen)]
  rw [parseHyphenated_uuid bs hlen hlt]

/-! ### Claim theorems for the ShardId string form -/

/-- Claim C9 (amended): parsing a ShardId's display form yields its bytes
back; parsing a string whose first char is not `s` fails with an error
containing `incorrect prefix`; and parsing a string whose UUID part is
hyphen-free hex of the wrong length (such as `s0`) fails with an error
containing `invalid length` — a wrong-length string whose extra characters
are not hex digits is instead reported as an invalid character (see the
counterexample). -/
theorem c9_shard_id_round_trip :
    (∀ s : ShardId, shardIdFromStr s.display = .ok s.bytes) ∧
    (∀ str : String, (∀ c rest, str.data = c :: rest → c ≠ 's') →
      shardIdFromStr str =
        .error ("invalid ShardId " ++ str ++ ": incorrect prefix")) ∧
    (∀ (str : String) (rest : List Char), str.data = 's' :: rest →
      (∀ ch ∈ rest, isHexDigit ch = true) → rest.length ≠ 32 →
      shardIdFromStr str =
        .error ("invalid ShardId " ++ str ++ ": " ++
          ("invalid length: expected length 32 for simple format, found "
            ++ toString rest.length))) := by
  refine ⟨shardIdFromStr_display, ?_, ?_⟩
  · intro str hpfx
    unfold shardIdFromStr parse_id
    split
    next heq => rfl
    next c rest heq =>
      rw [if_neg (hpfx c rest heq)]
      rfl
  · intro str rest hdata hhex hlen32
    have hnohyp : '-' ∉ rest := by
      intro hm
      have hh := hhex '-' hm
      rw [hyphen_not_hex] at hh
      exact absurd hh (by simp)
    unfold shardIdFromStr parse_id
    split
    next heq => rw [hdata] at heq; cases heq
    next c' rest' heq =>
      rw [hdata] at heq
      injection heq with h1 h2
      subst h1
      subst h2
      rw [if_pos rfl]
      unfold uuidTryParse
      rw [if_neg hlen32]
      by_cases h36 : rest.length = 36
      · rw [if_pos h36]
        rw [parseHyphenated_noHyphen rest hnohyp]
        rw [uuidErrorMessage_allHex rest hhex]
        rfl
      · rw [if_neg h36]
        rw [uuidErrorMessage_allHex rest hhex]
        rfl

/-- Witness for C9: round trip of the all-zero ShardId, and the exact
`invalid length` error of the repository's `fmt_ids` test for `s0`. -/
theorem c9_shard_id_round_trip_witness :
    shardIdFromStr (ShardId.display ⟨List.replicate 16 0, by decide, by decide⟩) =
      .ok (List.replicate 16 0) ∧
    shardIdFromStr "s0" =
      .error "invalid ShardId s0: invalid length: expected length 32 for simple format, found 1" :=
  ⟨c9_shard_id_round_trip.1 ⟨List.replicate 16 0, by decide, by decide⟩,
    (c9_shard_id_round_trip.2.2 "s0" ['0'] (by rfl) (by decide) (by decide)).trans
      (by rfl)⟩

set_option maxRecDepth 8192 in
/-- Counterexample for C9 as stated: the repository's own `fmt_ids` test
input `s00000000-0000-0000-0000-000000000000FOO` has the wrong length, yet
its parse error reports an invalid character, not `invalid length`. -/
theorem c9_wrong_length_counterexample :
    "s00000000-0000-0000-0000-000000000000FOO".length ≠ 37 ∧
    shardIdFromStr "s00000000-0000-0000-0000-000000000000FOO" =
      .error "invalid ShardId s00000000-0000-0000-0000-000000000000FOO: invalid character: expected an optional prefix of `urn:uuid:` followed by [0-9a-zA-Z], found `O` at 38" ∧
    ¬ ("invalid length".data <:+:
      ("invalid ShardId s00000000-0000-0000-0000-000000000000FOO: invalid character: expected an optional prefix of `urn:uuid:` followed by [0-9a-zA-Z], found `O` at 38").data) :=
  ⟨by decide, by rfl, by decide⟩

/-! ## Multi-shard transactions: the commit/retry loop

`Txn::commit_at` lives in the `mz_persist_txn` crate, which is not under
the sampled sources; it is modelled from the spec (§4.6 commit protocol).
The retry loop around it is `Transactor::transact` /
`Transactor::unblock_and_read_at` in
`persist-cli/src/maelstrom/txn_list_append_multi.rs`, which is embedded
below. -/

deriving instance DecidableEq for Except

/-- Modelled from the spec: the txns shard — the serialization log of
multi-shard commits.  `upper` is its write frontier (always a concrete
time in this protocol), `committed` the log of `(commit_ts, writes)`. -/
structure TxnsState where
  upper : Nat
  committed : List (Nat × List (Nat × String))
deriving DecidableEq, Repr

/-- Modelled from the spec: `Txn::commit_at(txns, write_ts)` appends the
staged events via compare-and-append at exactly `write_ts`: it succeeds
iff the txns shard upper is `≤ write_ts` (advancing the upper to
`write_ts + 1`); otherwise it returns `Err(current)` with the conflicting
current upper and changes nothing (§4.6 steps 2-4). -/
def commitAt (st : TxnsState) (writes : List (Nat × String)) (ts : Nat) :
    TxnsState × Except Nat Unit :=
  if st.upper ≤ ts then
    ({ upper := ts + 1, committed := st.committed ++ [(ts, writes)] }, .ok ())
  else (st, .error st.upper)

/-- Observable events of the transact loop. -/
inductive TxnEvent where
  | emptyCommit (ts : Nat) (result : Except Nat Unit)
  | readAt (ts : Nat)
  | commitAttempt (ts : Nat) (result : Except Nat Unit)
  | applyWrite (ts : Nat)
deriving DecidableEq, Repr

/-- State carried around `Transactor::transact`'s retry loop. -/
structure LoopState where
  txns : TxnsState
  readTs : Nat
  writeTs : Nat
deriving DecidableEq, Repr

/-- The read-redo stage at the top of the loop: compute
`new_read_ts = write_ts - 1`; when it differs from the current read
timestamp, unblock it with an empty commit (errors ignored: "already
unblocked") and redo the reads there
(`Transactor::unblock_and_read_at`). -/
def unblockAndReadEvents (st : LoopState) : TxnsState × List TxnEvent :=
  let newReadTs := st.writeTs - 1
  if newReadTs ≠ st.readTs then
    ((commitAt st.txns [] newReadTs).1,
      [.emptyCommit newReadTs (commitAt st.txns [] newReadTs).2, .readAt newReadTs])
  else (st.txns, [])

/-- The core retry loop of `Transactor::transact`: redo reads at
`write_ts - 1` when needed, attempt `commit_at(write_ts)`; on success
publish `write_ts` to the oracle (`apply_write`); on `Err(current)` retry
with `write_ts = current`.  Fuel bounds the retries. -/
def transactLoop : Nat → LoopState → List (Nat × String) →
    Option (LoopState × List TxnEvent)
  | 0, _, _ => none
  | fuel + 1, st, writes =>
    match (commitAt (unblockAndReadEvents st).1 writes st.writeTs).2 with
    | .ok _ =>
      some
        ({ txns := (commitAt (unblockAndReadEvents st).1 writes st.writeTs).1,
           readTs := st.writeTs - 1, writeTs := st.writeTs },
          (unblockAndReadEvents st).2 ++
            [.commitAttempt st.writeTs (.ok ()), .applyWrite st.writeTs])
    | .error current =>
      (transactLoop fuel
          { txns := (commitAt (unblockAndReadEvents st).1 writes st.writeTs).1,
            readTs := st.writeTs - 1, writeTs := current } writes).map
        (fun p => (p.1, (unblockAndReadEvents st).2 ++
          .commitAttempt st.writeTs (.error current) :: p.2))

theorem commitAt_error_inv {st : TxnsState} {writes : List (Nat × String)}
    {ts c : Nat} (h : (commitAt st writes ts).2 = .error c) :
    c = st.upper ∧ ts < st.upper ∧ (commitAt st writes ts).1 = st := by
  unfold commitAt at h ⊢
  split at h
  next hle => simp at h
  next hle =>
    simp only at h
    injection h with h
    exact ⟨h.symm, by omega, by rw [if_neg hle]⟩

theorem commitAt_ok_inv {st : TxnsState} {writes : List (Nat × String)}
    {ts : Nat} (h : (commitAt st writes ts).2 = .ok ()) :
    st.upper ≤ ts ∧ (commitAt st writes ts).1 =
      { upper := ts + 1, committed := st.committed ++ [(ts, writes)] } := by
  unfold commitAt at h ⊢
  split at h
  next hle => exact ⟨hle, by rw [if_pos hle]⟩
  next hle => simp at h

/-- Claim C2: a `commit_at(write_ts)` that loses the race returns
`Err(current)` carrying the conflicting current upper of the txns shard
and changes nothing; the transact loop then retries with
`write_ts = current` (a fresh `write_ts ≥ current`), first redoing its
reads at `write_ts - 1` — issuing an empty commit at that timestamp to
unblock the read when the read timestamp changed; and on success it
publishes `write_ts` to the timestamp oracle via `apply_write`. -/
theorem c2_commit_at_retry_loop :
    (∀ (st : TxnsState) (writes : List (Nat × String)) (ts : Nat)
        (st' : TxnsState) (r : Except Nat Unit),
      commitAt st writes ts = (st', r) →
      (∀ c, r = .error c → c = st.upper ∧ ts < st.upper ∧ st' = st) ∧
        (r = .ok () → st.upper ≤ ts ∧ st'.upper = ts + 1 ∧
          st'.committed = st.committed ++ [(ts, writes)])) ∧
    (∀ st : LoopState,
      (st.writeTs - 1 = st.readTs → unblockAndReadEvents st = (st.txns, [])) ∧
      (st.writeTs - 1 ≠ st.readTs → unblockAndReadEvents st =
        ((commitAt st.txns [] (st.writeTs - 1)).1,
          [.emptyCommit (st.writeTs - 1) (commitAt st.txns [] (st.writeTs - 1)).2,
            .readAt (st.writeTs - 1)]))) ∧
    (∀ (fuel : Nat) (st : LoopState) (writes : List (Nat × String)) (c : Nat),
      (commitAt (unblockAndReadEvents st).1 writes st.writeTs).2 = .error c →
      c = (unblockAndReadEvents st).1.upper ∧ st.writeTs < c ∧
      transactLoop (fuel + 1) st writes =
        (transactLoop fuel
            { txns := (unblockAndReadEvents st).1, readTs := st.writeTs - 1,
              writeTs := c } writes).map
          (fun p => (p.1, (unblockAndReadEvents st).2 ++
            .commitAttempt st.writeTs (.error c) :: p.2))) ∧
    (∀ (fuel : Nat) (st : LoopState) (writes : List (Nat × String)),
      (commitAt (unblockAndReadEvents st).1 writes st.writeTs).2 = .ok () →
      transactLoop (fuel + 1) st writes =
        some
          ({ txns := (commitAt (unblockAndReadEvents st).1 writes st.writeTs).1,
             readTs := st.writeTs - 1, writeTs := st.writeTs },
            (unblockAndReadEvents st).2 ++
              [.commitAttempt st.writeTs (.ok ()), .applyWrite st.writeTs])) := by
  refine ⟨?_, ?_, ?_, ?_⟩
  · intro st writes ts st' r h
    constructor
    · intro c hc
      subst hc
      have h2 : (commitAt st writes ts).2 = .error c := by rw [h]
      obtain ⟨hc', hlt, hst⟩ := commitAt_error_inv h2
      have h1 : (commitAt st writes ts).1 = st' := by rw [h]
      exact ⟨hc', hlt, by rw [← h1, hst]⟩
    · intro hr
      subst hr
      have h2 : (commitAt st writes ts).2 = .ok () := by rw [h]
      obtain ⟨hle, hst⟩ := commitAt_ok_inv h2
      have h1 : (commitAt st writes ts).1 = st' := by rw [h]
      rw [← h1, hst]
      exact ⟨hle, rfl, rfl⟩
  · intro st
    constructor
    · intro h
      unfold unblockAndReadEvents
      simp [h]
    · intro h
      unfold unblockAndReadEvents
      simp only [h]
      rw [if_pos h]
  · intro fuel st writes c hfail
    obtain ⟨hc, hlt, hst⟩ := commitAt_error_inv hfail
    refine ⟨hc, by omega, ?_⟩
    conv_lhs => rw [transactLoop]
    rw [hfail, hst]
  · intro fuel st writes hok
    conv_lhs => rw [transactLoop]
    rw [hok]

/-- Witness for C2: a stale writer (expected ts 1, txns upper 3) loses
the race, and the loop retries at the conflicting upper. -/
theorem c2_commit_at_retry_loop_witness :
    commitAt ⟨3, []⟩ [(7, "a")] 1 = (⟨3, []⟩, .error 3) ∧
    (3 = 3 ∧ 1 < 3 ∧ (⟨3, []⟩ : TxnsState) = ⟨3, []⟩) ∧
    ((commitAt (unblockAndReadEvents ⟨⟨3, []⟩, 0, 1⟩).1 [(7, "a")] 1).2 = .error 3 ∧
      (3 = (unblockAndReadEvents ⟨⟨3, []⟩, 0, 1⟩).1.upper ∧ 1 < 3 ∧
        transactLoop 2 ⟨⟨3, []⟩, 0, 1⟩ [(7, "a")] =
          (transactLoop 1 ⟨(unblockAndReadEvents ⟨⟨3, []⟩, 0, 1⟩).1, 0, 3⟩
              [(7, "a")]).map
            (fun p => (p.1, (unblockAndReadEvents ⟨⟨3, []⟩, 0, 1⟩).2 ++
              .commitAttempt 1 (.error 3) :: p.2)))) :=
  ⟨by rfl,
    (c2_commit_at_retry_loop.1 ⟨3, []⟩ [(7, "a")] 1 ⟨3, []⟩ (.error 3) (by rfl)).1 3 rfl,
    by rfl,
    c2_commit_at_retry_loop.2.2.1 1 ⟨⟨3, []⟩, 0, 1⟩ [(7, "a")] 3 (by rfl)⟩

/-! ## The compute-instance controller

Embedded from `compute-client/src/controller/instance.rs`.  `GlobalId`,
`ReplicaId` and peek `Uuid`s are embedded as `Nat`; BTreeMaps as
association lists; `ChangeBatch`/`MutableAntichain` read-capability
accumulators as lists of `(time, diff)` pairs; delivered responses and
sent commands accumulate in lists on the instance state. -/

abbrev GlobalId := Nat
abbrev ReplicaId := Nat
abbrev PeekUuid := Nat

/-- A `ChangeBatch`/`MutableAntichain`: a multiset of `(time, diff)`. -/
abbrev CapMap := List (Nat × Int)

/-- Insert-or-replace into an association list (`BTreeMap::insert`). -/
def aput {α : Type} : List (Nat × α) → Nat → α → List (Nat × α)
  | [], k, v => [(k, v)]
  | (k', v') :: rest, k, v =>
    if k' = k then (k, v) :: rest else (k', v') :: aput rest k v

/-- Remove a key from an association list (`BTreeMap::remove`). -/
def aremove {α : Type} (m : List (Nat × α)) (k : Nat) : List (Nat × α) :=
  m.filter (fun p => p.1 ≠ k)

/-- Update the value at a key in place, when present. -/
def amodify {α : Type} (m : List (Nat × α)) (k : Nat) (f : α → α) : List (Nat × α) :=
  m.map (fun p => if p.1 = k then (k, f p.2) else p)

/-- `ChangeBatch::extend`: push the updates one by one. -/
def cbPush (c : CapMap) (up : CapMap) : CapMap :=
  up.foldl (fun acc x => acc ++ [x]) c

/-- `entry(k).or_default().extend(cb)` on a map of change batches. -/
def aextend (m : List (Nat × CapMap)) (k : Nat) (cb : CapMap) : List (Nat × CapMap) :=
  match m.lookup k with
  | some old => aput m k (cbPush old cb)
  | none => aput m k cb

/-- Net count of a change-batch accumulator at a time. -/
def net (c : CapMap) (t : Nat) : Int :=
  ((c.filter (fun p => p.1 = t)).map Prod.snd).sum

/-- The elements of a frontier as a list. -/
def fElems : Frontier → List Nat
  | none => []
  | some t => [t]

/-- `MutableAntichain::frontier()`: the minimal time with positive net
count (`none` when there is none, i.e. the empty frontier). -/
def capFrontier (c : CapMap) : Frontier :=
  match ((c.map Prod.fst).dedup).filter (fun t => 0 < net c t) with
  | [] => none
  | t :: ts => some (ts.foldl min t)

/-- `ChangeBatch::is_empty`: empty after compaction (all nets zero). -/
def cbIsEmpty (c : CapMap) : Bool :=
  ((c.map Prod.fst).dedup).all (fun t => net c t = 0)

/-- `MutableAntichain::update_iter`: apply the updates and report the
change of the frontier (as retractions of the old frontier and additions
of the new one; empty when the frontier did not move). -/
def updateIter (c : CapMap) (up : CapMap) : CapMap × CapMap :=
  let c' := cbPush c up
  let fOld := capFrontier c
  let fNew := capFrontier c'
  let changes :=
    if fOld = fNew then []
    else (fElems fNew).map (fun t => (t, (1 : Int))) ++
      (fElems fOld).map (fun t => (t, (-1 : Int)))
  (c', changes)

/-- `ReadPolicy` (from `mz_storage_types::read_policy`), restricted to
the `ValidFrom` policy used here.  Modelled from the spec. -/
inductive ReadPolicy where
  | validFrom (f : Frontier)
deriving DecidableEq, Repr

/-- `ReadPolicy::frontier(write_frontier)`. -/
def ReadPolicy.frontier : ReadPolicy → Frontier → Frontier
  | .validFrom f, _ => f

/-- Modelled from the spec: `CollectionState<T>` (§3 compute entities;
declared in `controller.rs`, which is not under the sampled sources). -/
structure CollectionState where
  logCollection : Bool
  readCapabilities : CapMap
  impliedCapability : Frontier
  readPolicy : ReadPolicy
  storageDependencies : List GlobalId
  computeDependencies : List GlobalId
  writeFrontier : Frontier
  replicaWriteFrontiers : List (ReplicaId × Frontier)
deriving DecidableEq, Repr

/-- Modelled from the spec: `CollectionState::new(since, storage_deps,
compute_deps)`: one read capability at `since`, implied capability and
`ValidFrom` read policy at `since`, minimum write frontier. -/
def CollectionState.new (since : Frontier) (storageDeps computeDeps : List GlobalId) :
    CollectionState :=
  { logCollection := false
    readCapabilities := (fElems since).map (fun t => (t, (1 : Int)))
    impliedCapability := since
    readPolicy := .validFrom since
    storageDependencies := storageDeps
    computeDependencies := computeDeps
    writeFrontier := fminimum
    replicaWriteFrontiers := [] }

/-- `CollectionState::read_frontier()`. -/
def CollectionState.readFrontier (c : CollectionState) : Frontier :=
  capFrontier c.readCapabilities

/-- The target of a peek: an arranged index or a persist shard. -/
inductive PeekTarget where
  | index (id : GlobalId)
  | persist (id : GlobalId)
deriving DecidableEq, Repr

/-- `PeekTarget::id()`. -/
def PeekTarget.id : PeekTarget → GlobalId
  | .index i => i
  | .persist i => i

/-- A pending peek (`PendingPeek`), without the telemetry fields. -/
structure PendingPeek where
  target : PeekTarget
  time : Nat
  targetReplica : Option ReplicaId
deriving DecidableEq, Repr

/-- An in-progress subscribe (`ActiveSubscribe`). -/
structure ActiveSubscribe where
  frontier : Frontier
  targetReplica : Option ReplicaId
deriving DecidableEq, Repr

/-- A subscribe batch (`SubscribeBatch`): updates or an error string. -/
structure SubscribeBatch where
  lower : Frontier
  upper : Frontier
  updates : Except String (List (Nat × String × Int))
deriving DecidableEq, Repr

/-- A peek response (`PeekResponse`). -/
inductive PeekResponse where
  | rows (data : List String)
  | error (msg : String)
  | canceled
deriving DecidableEq, Repr

/-- Commands sent to replicas (`ComputeCommand`), restricted to the
variants the embedded operations emit. -/
inductive ComputeCommand where
  | createDataflow (exports : List GlobalId) (asOf : Frontier)
  | allowCompaction (id : GlobalId) (frontier : Frontier)
  | peekCmd (uuid : PeekUuid) (targetId : GlobalId) (timestamp : Nat)
  | cancelPeek (uuid : PeekUuid)
deriving DecidableEq, Repr

/-- Responses surfaced to the controller clients
(`ComputeControllerResponse`). -/
inductive ComputeControllerResponse where
  | peekResponse (uuid : PeekUuid) (r : PeekResponse)
  | subscribeResponse (id : GlobalId) (batch : SubscribeBatch)
  | frontierUpper (id : GlobalId) (upper : Frontier)
deriving DecidableEq, Repr

/-- The state of a compute instance (`Instance<T>`), with the delivered
responses and sent commands accumulated in lists. -/
structure Instance where
  replicas : List ReplicaId
  collections : List (GlobalId × CollectionState)
  peeks : List (PeekUuid × PendingPeek)
  subscribes : List (GlobalId × ActiveSubscribe)
  failedReplicas : List ReplicaId
  responses : List ComputeControllerResponse
  commands : List ComputeCommand
deriving DecidableEq, Repr

/-- Modelled from the spec: the slice of a storage-controller collection
the compute controller reads and writes (read capabilities / implied
capability / write frontier). -/
structure StorageCollection where
  readCapabilities : CapMap
  impliedCapability : Frontier
  writeFrontier : Frontier
deriving DecidableEq, Repr

/-- Modelled from the spec: the storage controller's collection map. -/
structure Storage where
  collections : List (GlobalId × StorageCollection)
deriving DecidableEq, Repr

/-- `Instance::send`: record the command (broadcast to replicas). -/
def Instance.send (i : Instance) (cmd : ComputeCommand) : Instance :=
  { i with commands := i.commands ++ [cmd] }

/-- `Instance::deliver_response`. -/
def Instance.deliverResponse (i : Instance) (r : ComputeControllerResponse) : Instance :=
  { i with responses := i.responses ++ [r] }

/-- Modelled from the spec: `StorageController::update_read_capabilities`
applies the change batches to the storage collections' capabilities. -/
def Storage.updateReadCapabilities (s : Storage) (updates : List (GlobalId × CapMap)) :
    Storage :=
  { collections := updates.foldl (fun cols p =>
      amodify cols p.1 (fun sc =>
        { sc with readCapabilities := cbPush sc.readCapabilities p.2 })) s.collections }

/-- Modelled from the spec: `StorageController::update_write_frontiers`. -/
def Storage.updateWriteFrontiers (s : Storage) (updates : List (GlobalId × Frontier)) :
    Storage :=
  { collections := updates.foldl (fun cols p =>
      amodify cols p.1 (fun sc => { sc with writeFrontier := p.2 })) s.collections }

/-- `ActiveInstance::update_dropped_collections`: remove each listed
collection whose read frontier is empty and whose replica frontiers are
all empty. -/
def updateDroppedCollections (i : Instance) (ids : List GlobalId) : Instance :=
  ids.foldl (fun i id =>
    match i.collections.lookup id with
    | some c =>
      if c.readFrontier = none ∧ c.replicaWriteFrontiers.all (fun p => p.2 = none) then
        { i with collections := aremove i.collections id }
      else i
    | none => i) i

/-- The keys of an association list. -/
def keysOf {α : Type} (m : List (Nat × α)) : List Nat := m.map Prod.fst

/-- `updates.keys().rev().next()`: the maximum key. -/
def maxKey (m : List (GlobalId × CapMap)) : Option GlobalId :=
  m.foldl (fun acc p =>
    match acc with
    | none => some p.1
    | some k => some (max k p.1)) none

/-- The while-loop of `ActiveInstance::update_read_capabilities`:
repeatedly extract the maximum id and its updates; apply them to the
compute collection's capability accumulator; propagate the resulting
frontier changes to its storage dependencies (into `storage_todo`) and
compute dependencies (back into `updates`); record the net change in
`compute_net`.  Ids without a compute collection go to `storage_todo`
when the storage controller knows them, and are dropped (logged)
otherwise.  Fuel bounds the iterations; `none` means exhaustion. -/
def urcLoop : Nat → Instance → List (GlobalId × CapMap) → Storage →
    List (GlobalId × CapMap) → List (GlobalId × CapMap) →
    Option (Instance × List (GlobalId × CapMap) × List (GlobalId × CapMap))
  | 0, i, updates, _, stodo, cnet =>
    if updates.isEmpty then some (i, stodo, cnet) else none
  | fuel + 1, i, updates, storage, stodo, cnet =>
    match maxKey updates with
    | none => some (i, stodo, cnet)
    | some key =>
      let update := (updates.lookup key).getD []
      let updates' := aremove updates key
      match i.collections.lookup key with
      | some coll =>
        let caps' := (updateIter coll.readCapabilities update).1
        let changes := (updateIter coll.readCapabilities update).2
        let colls' := amodify i.collections key
          (fun c => { c with readCapabilities := caps' })
        let i' := { i with collections := colls' }
        let stodo' := coll.storageDependencies.foldl
          (fun m dep => aextend m dep changes) stodo
        let updates'' := coll.computeDependencies.foldl
          (fun m dep => aextend m dep changes) updates'
        urcLoop fuel i' updates'' storage stodo' (cnet ++ [(key, changes)])
      | none =>
        if (storage.collections.lookup key).isSome then
          urcLoop fuel i updates' storage (aextend stodo key update) cnet
        else
          urcLoop fuel i updates' storage stodo cnet

/-- A fuel that exceeds every id mentioned by the instance or the
updates; enough for instances whose dependencies have smaller ids. -/
def urcFuel (i : Instance) (updates : List (GlobalId × CapMap)) : Nat :=
  ((keysOf updates ++ i.collections.map Prod.fst).foldl max 0) + 1

/-- Per-entry body of the `AllowCompaction` pass of
`ActiveInstance::update_read_capabilities`: look up the collection, note
it for cleanup when its read frontier became empty, and send
`AllowCompaction` when the net change is non-empty. -/
def urcSendStep (acc : Instance × List GlobalId) (p : GlobalId × CapMap) :
    Instance × List GlobalId :=
  match acc.1.collections.lookup p.1 with
  | some coll =>
    let frontier := coll.readFrontier
    let acc1 := if frontier = none then (acc.1, acc.2 ++ [p.1]) else acc
    if cbIsEmpty p.2 = false then
      (acc1.1.send (.allowCompaction p.1 frontier), acc1.2)
    else acc1
  | none => acc

/-- `ActiveInstance::update_read_capabilities`: run the loop, then turn
the net compute changes into `AllowCompaction` commands, collect
collections whose read frontier became empty, clean those up, and hand
the storage consequences to the storage controller.  On fuel exhaustion
(unreachable for id-descending dependency graphs) the state is returned
unchanged. -/
def update_read_capabilities (i : Instance) (storage : Storage)
    (updates : List (GlobalId × CapMap)) : Instance × Storage :=
  match urcLoop (urcFuel i updates) i updates storage [] [] with
  | none => (i, storage)
  | some (i', stodo, cnet) =>
    let r := cnet.foldl urcSendStep (i', [])
    let i2 := if r.2 ≠ [] then updateDroppedCollections r.1 r.2 else r.1
    let storage' := if stodo ≠ [] then storage.updateReadCapabilities stodo else storage
    (i2, storage')

/-- Accumulator for `update_write_frontiers`'s first pass. -/
structure UwfAcc where
  inst : Instance
  advanced : List GlobalId
  computeChanges : List (GlobalId × CapMap)
  storageChanges : List (GlobalId × CapMap)
  dropped : List GlobalId

/-- Per-update body of `ActiveInstance::update_write_frontiers`: advance
the collection's write frontier, record the replica's reported frontier,
recompute the implied capability from the read policy, and accumulate
capability changes for the collection and read-hold changes for its
storage dependencies.  Updates naming an absent collection are skipped
(the source panics there). -/
def uwfStep (replicaId : ReplicaId) (acc : UwfAcc) (upd : GlobalId × Frontier) : UwfAcc :=
  match acc.inst.collections.lookup upd.1 with
  | none => acc
  | some coll =>
    let advanced' := if flt coll.writeFrontier upd.2 then acc.advanced ++ [upd.1] else acc.advanced
    let wf' := if flt coll.writeFrontier upd.2 then upd.2 else coll.writeFrontier
    let oldUpper := coll.replicaWriteFrontiers.lookup replicaId
    let rwf' := aput coll.replicaWriteFrontiers replicaId upd.2
    let dropped' := if upd.2 = none then acc.dropped ++ [upd.1] else acc.dropped
    let newRc := coll.readPolicy.frontier wf'
    let swaps : Bool := fle coll.impliedCapability newRc
    let implied' := if swaps then newRc else coll.impliedCapability
    let update : CapMap :=
      if swaps then
        (fElems newRc).map (fun t => (t, (1 : Int))) ++
          (fElems coll.impliedCapability).map (fun t => (t, (-1 : Int)))
      else []
    let computeChanges' :=
      if swaps ∧ cbIsEmpty update = false then aput acc.computeChanges upd.1 update
      else acc.computeChanges
    let storageChanges' := coll.storageDependencies.foldl
      (fun m dep => aextend m dep
        ((match oldUpper with
          | some old => (fElems old).map (fun t => (t, (-1 : Int)))
          | none => []) ++ (fElems upd.2).map (fun t => (t, (1 : Int))))) acc.storageChanges
    let updColl := fun (c : CollectionState) =>
      { c with writeFrontier := wf', replicaWriteFrontiers := rwf',
               impliedCapability := implied' }
    let colls' := amodify acc.inst.collections upd.1 updColl
    { inst := { acc.inst with collections := colls' }
      advanced := advanced'
      computeChanges := computeChanges'
      storageChanges := storageChanges'
      dropped := dropped' }

/-- `ActiveInstance::update_write_frontiers`. -/
def update_write_frontiers (i : Instance) (storage : Storage) (replicaId : ReplicaId)
    (updates : List (GlobalId × Frontier)) : Instance × Storage :=
  let acc := updates.foldl (uwfStep replicaId)
    { inst := i, advanced := [], computeChanges := [], storageChanges := [], dropped := [] }
  let (i1, s1) :=
    if acc.computeChanges ≠ [] then
      update_read_capabilities acc.inst storage acc.computeChanges
    else (acc.inst, storage)
  let s2 := if acc.storageChanges ≠ [] then s1.updateReadCapabilities acc.storageChanges else s1
  let storageUpdates := (acc.advanced.filter
    (fun id => (s2.collections.lookup id).isSome)).filterMap
    (fun id => (i1.collections.lookup id).map (fun c => (id, c.writeFrontier)))
  let s3 := s2.updateWriteFrontiers storageUpdates
  let i2 := if acc.dropped ≠ [] then updateDroppedCollections i1 acc.dropped else i1
  (i2, s3)

/-- Per-collection body of the read-hold release pass of
`ActiveInstance::remove_write_frontiers`. -/
def rwfHoldStep (replicaId : ReplicaId)
    (acc : List (GlobalId × CapMap) × List GlobalId)
    (p : GlobalId × CollectionState) : List (GlobalId × CapMap) × List GlobalId :=
  match p.2.replicaWriteFrontiers.lookup replicaId with
  | some frontier =>
    (p.2.storageDependencies.foldl
      (fun m dep => aextend m dep ((fElems frontier).map (fun t => (t, (-1 : Int))))) acc.1,
      acc.2 ++ [p.1])
  | none => acc

/-- `ActiveInstance::remove_write_frontiers`: drop the replica's entry
from every collection's frontier tracking, release the matching read
holds on storage dependencies, and clean up dropped collections. -/
def remove_write_frontiers (i : Instance) (storage : Storage) (replicaId : ReplicaId) :
    Instance × Storage :=
  let r := i.collections.foldl (rwfHoldStep replicaId) ([], [])
  let i1 := { i with collections := i.collections.map (fun p =>
    (p.1, { p.2 with replicaWriteFrontiers := aremove p.2.replicaWriteFrontiers replicaId })) }
  let s1 := if r.1 ≠ [] then storage.updateReadCapabilities r.1 else storage
  let i2 := if r.2 ≠ [] then updateDroppedCollections i1 r.2 else i1
  (i2, s1)

/-- `ActiveInstance::handle_frontier_upper`: ignore updates for untracked
collections; ignore (log only) a `FrontierUpper` that regresses the
frontier this replica previously reported; otherwise track the new
frontier via `update_write_frontiers`. -/
def handle_frontier_upper (i : Instance) (storage : Storage) (id : GlobalId)
    (newFrontier : Frontier) (replicaId : ReplicaId) : Instance × Storage :=
  match i.collections.lookup id with
  | none => (i, storage)
  | some coll =>
    match coll.replicaWriteFrontiers.lookup replicaId with
    | some oldFrontier =>
      if fle oldFrontier newFrontier = false then (i, storage)
      else update_write_frontiers i storage replicaId [(id, newFrontier)]
    | none => update_write_frontiers i storage replicaId [(id, newFrontier)]

/-- The `FrontierUpper` arm of `ActiveInstance::handle_response`: a
controller response is produced only when the collection's write
frontier actually changed. -/
def handle_response_frontier_upper (i : Instance) (storage : Storage) (id : GlobalId)
    (upper : Frontier) (replicaId : ReplicaId) :
    (Instance × Storage) × Option ComputeControllerResponse :=
  let oldUpper := (i.collections.lookup id).map (fun c => c.writeFrontier)
  let r := handle_frontier_upper i storage id upper replicaId
  let newUpper := (r.1.collections.lookup id).map (fun c => c.writeFrontier)
  match oldUpper, newUpper with
  | some old, some new =>
    (r, if old ≠ new then some (.frontierUpper id upper) else none)
  | _, _ => (r, none)

/-- `ActiveInstance::remove_peek`: forget the peek, send `CancelPeek`
(before releasing the hold), and release its read hold. -/
def remove_peek (i : Instance) (storage : Storage) (uuid : PeekUuid) :
    Instance × Storage :=
  match i.peeks.lookup uuid with
  | none => (i, storage)
  | some peek =>
    let i1 := { i with peeks := aremove i.peeks uuid }
    let i2 := i1.send (.cancelPeek uuid)
    let updates := [(peek.target.id, [(peek.time, (-1 : Int))])]
    match peek.target with
    | .index _ => update_read_capabilities i2 storage updates
    | .persist _ => (i2, storage.updateReadCapabilities updates)

/-- `ActiveInstance::cancel_peek`: if the peek is still pending, enqueue
`PeekResponse::Canceled` and remove the peek; unknown uuids are ignored
(logged). -/
def cancel_peek (i : Instance) (storage : Storage) (uuid : PeekUuid) :
    Instance × Storage :=
  match i.peeks.lookup uuid with
  | none => (i, storage)
  | some _ =>
    let i1 := i.deliverResponse (.peekResponse uuid .canceled)
    remove_peek i1 storage uuid

/-- `ActiveInstance::handle_peek_response`: ignore responses for peeks no
longer tracked, and responses from non-target replicas of targeted peeks;
the first matching response removes the peek and is passed on. -/
def handle_peek_response (i : Instance) (storage : Storage) (uuid : PeekUuid)
    (response : PeekResponse) (replicaId : ReplicaId) :
    (Instance × Storage) × Option ComputeControllerResponse :=
  match i.peeks.lookup uuid with
  | none => ((i, storage), none)
  | some peek =>
    let targetReplica := peek.targetReplica.getD replicaId
    if targetReplica ≠ replicaId then ((i, storage), none)
    else
      let r := remove_peek i storage uuid
      (r, some (.peekResponse uuid response))

/-- The error type of `ActiveInstance::peek`. -/
inductive PeekError where
  | collectionMissing (id : GlobalId)
  | replicaMissing (r : ReplicaId)
  | sinceViolation (id : GlobalId)
deriving DecidableEq, Repr

/-- `ActiveInstance::peek`: resolve the since frontier of the target
(read capabilities for index targets, implied capability for persist
targets), reject timestamps not beyond it (`SinceViolation`) and missing
target replicas (`ReplicaMissing`); otherwise install a `+1` read hold on
`id` at `timestamp`, register the pending peek, and send the `Peek`
command. -/
def peek (i : Instance) (storage : Storage) (id : GlobalId) (uuid : PeekUuid)
    (timestamp : Nat) (targetReplica : Option ReplicaId) (peekTarget : PeekTarget) :
    Except PeekError (Instance × Storage) :=
  let sinceRes : Except PeekError Frontier :=
    match peekTarget with
    | .index _ =>
      match i.collections.lookup id with
      | some c => .ok (capFrontier c.readCapabilities)
      | none => .error (.collectionMissing id)
    | .persist _ =>
      match storage.collections.lookup id with
      | some sc => .ok sc.impliedCapability
      | none => .error (.collectionMissing id)
  match sinceRes with
  | .error e => .error e
  | .ok since =>
    if felemLe since timestamp = false then .error (.sinceViolation id)
    else
      let replicaCheck : Except PeekError Unit :=
        match targetReplica with
        | some target =>
          if target ∈ i.replicas then .ok () else .error (.replicaMissing target)
        | none => .ok ()
      match replicaCheck with
      | .error e => .error e
      | .ok _ =>
        let updates : List (GlobalId × CapMap) := [(id, [(timestamp, (1 : Int))])]
        let r1 :=
          match peekTarget with
          | .index _ => update_read_capabilities i storage updates
          | .persist _ => (i, storage.updateReadCapabilities updates)
        let pending : PendingPeek :=
          { target := peekTarget, time := timestamp, targetReplica := targetReplica }
        let i2 := { r1.1 with peeks := aput r1.1.peeks uuid pending }
        let i3 := i2.send (.peekCmd uuid id timestamp)
        .ok (i3, r1.2)

/-- The error type of `ActiveInstance::remove_replica`. -/
inductive ReplicaMissing where
  | replicaMissing (r : ReplicaId)
deriving DecidableEq, Repr

/-- Per-subscribe body of `ActiveInstance::remove_replica`: drop the
subscribe and deliver the error batch with `lower = upper = frontier`. -/
def rrSubStep (i : Instance) (sid : GlobalId) : Instance :=
  match i.subscribes.lookup sid with
  | some sub =>
    let i' := { i with subscribes := aremove i.subscribes sid }
    i'.deliverResponse (.subscribeResponse sid
      { lower := sub.frontier, upper := sub.frontier,
        updates := .error "target replica failed or was dropped" })
  | none => i

/-- Per-peek error delivery of `ActiveInstance::remove_replica`. -/
def rrPeekErrStep (i : Instance) (u : PeekUuid) : Instance :=
  i.deliverResponse (.peekResponse u (.error "target replica failed or was dropped"))

/-- Per-peek removal of `ActiveInstance::remove_replica`. -/
def rrRemovePeekStep (acc : Instance × Storage) (u : PeekUuid) : Instance × Storage :=
  remove_peek acc.1 acc.2 u

/-- `ActiveInstance::remove_replica`: drop the replica and its frontier
tracking; deliver to every subscribe targeting it a batch with
`lower = upper = frontier` and a "target replica failed or was dropped"
error, removing it from the subscribes map; deliver the same error to
every peek targeting it and remove those peeks. -/
def remove_replica (i : Instance) (storage : Storage) (id : ReplicaId) :
    Except ReplicaMissing (Instance × Storage) :=
  if id ∈ i.replicas then
    let i0 := { i with replicas := i.replicas.erase id,
                       failedReplicas := i.failedReplicas.erase id }
    let (i1, s1) := remove_write_frontiers i0 storage id
    let toDrop := (i1.subscribes.filter (fun p => p.2.targetReplica = some id)).map Prod.fst
    let i2 := toDrop.foldl rrSubStep i1
    let peekUuids := (i2.peeks.filter (fun p => p.2.targetReplica = some id)).map Prod.fst
    let i3 := peekUuids.foldl rrPeekErrStep i2
    let r := peekUuids.foldl rrRemovePeekStep (i3, s1)
    .ok r
  else .error (.replicaMissing id)

/-- A dataflow description, reduced to what `create_dataflow` inspects:
the `as_of`, the imported source/index ids, and the exported index/sink
ids (a sink is either a subscribe sink, `true`, or a persist sink). -/
structure Dataflow where
  asOf : Option Frontier
  sourceImports : List GlobalId
  indexImports : List GlobalId
  indexExports : List GlobalId
  sinkExports : List (GlobalId × Bool)
deriving DecidableEq, Repr

/-- `DataflowDescription::export_ids`: index exports then sink exports. -/
def Dataflow.exportIds (d : Dataflow) : List GlobalId :=
  d.indexExports ++ d.sinkExports.map Prod.fst

/-- `DataflowDescription::subscribe_ids`: sinks with a subscribe
connection. -/
def Dataflow.subscribeIds (d : Dataflow) : List GlobalId :=
  (d.sinkExports.filter (fun p => p.2 = true)).map Prod.fst

/-- The error type of `ActiveInstance::create_dataflow`. -/
inductive DataflowCreationError where
  | collectionMissing (id : GlobalId)
  | missingAsOf
  | sinceViolation (id : GlobalId)
deriving DecidableEq, Repr

/-- Canonicalize a dependency list (sort and dedup). -/
def dedupSort (l : List Nat) : List Nat := (l.insertionSort (· ≤ ·)).dedup

/-- Validate that every source import resolves in the storage controller
and has `since ≤ as_of`; return the storage dependencies and the join of
their sinces (with the minimum frontier). -/
def validateSources (storage : Storage) (asOf : Frontier) :
    List GlobalId → Except DataflowCreationError (List GlobalId × Frontier)
  | [] => .ok ([], fminimum)
  | s :: rest =>
    match storage.collections.lookup s with
    | none => .error (.collectionMissing s)
    | some sc =>
      let since := capFrontier sc.readCapabilities
      if fle since asOf = false then .error (.sinceViolation s)
      else
        match validateSources storage asOf rest with
        | .error e => .error e
        | .ok (deps, j) => .ok (s :: deps, fjoin since j)

/-- Validate that every index import resolves in the instance and has
`since ≤ as_of`; return the compute dependencies and the join of their
sinces (with the minimum frontier). -/
def validateIndexes (i : Instance) (asOf : Frontier) :
    List GlobalId → Except DataflowCreationError (List GlobalId × Frontier)
  | [] => .ok ([], fminimum)
  | ix :: rest =>
    match i.collections.lookup ix with
    | none => .error (.collectionMissing ix)
    | some coll =>
      let since := capFrontier coll.readCapabilities
      if fle since asOf = false then .error (.sinceViolation ix)
      else
        match validateIndexes i asOf rest with
        | .error e => .error e
        | .ok (deps, j) => .ok (ix :: deps, fjoin since j)

/-- Per-export collection installation of `ActiveInstance::create_dataflow`:
`CollectionState::new` for the export. -/
def cdInstallExport (asOf : Frontier) (storageDeps computeDeps : List GlobalId)
    (i : Instance) (e : GlobalId) : Instance :=
  { i with collections := aput i.collections e (CollectionState.new asOf storageDeps computeDeps) }

/-- Per-replica write-frontier initialization of
`ActiveInstance::create_dataflow`. -/
def cdReplicaStep (updates : List (GlobalId × Frontier)) (acc : Instance × Storage)
    (r : ReplicaId) : Instance × Storage :=
  update_write_frontiers acc.1 acc.2 r updates

/-- Per-subscribe tracking installation of
`ActiveInstance::create_dataflow`. -/
def cdSubscribeStep (i : Instance) (sid : GlobalId) : Instance :=
  { i with subscribes := aput i.subscribes sid { frontier := fminimum, targetReplica := none } }

/-- The augmentation re-resolution pass of `ActiveInstance::create_dataflow`:
every listed id must resolve in the storage controller, first failure wins. -/
def allResolveStorage (storage : Storage) : List GlobalId → Except DataflowCreationError Unit
  | [] => .ok ()
  | s :: rest =>
    match storage.collections.lookup s with
    | some _ => allResolveStorage storage rest
    | none => .error (.collectionMissing s)

/-- `ActiveInstance::create_dataflow`: require an `as_of`; validate that
every source and index input resolves and has `since ≤ as_of`; bump the
read capabilities of every input at the `as_of` by the number of exports;
install collection state for each export; initialize every replica's
write frontier for each export to the join of all input sinces; start
tracking subscribes; re-resolve sources and persist sinks for the
augmented dataflow; send the `CreateDataflow` command. -/
def create_dataflow (i : Instance) (storage : Storage) (d : Dataflow) :
    Except DataflowCreationError (Instance × Storage) :=
  match d.asOf with
  | none => .error .missingAsOf
  | some asOf =>
    match validateSources storage asOf d.sourceImports with
    | .error e => .error e
    | .ok (storageDeps0, j1) =>
      match validateIndexes i asOf d.indexImports with
      | .error e => .error e
      | .ok (computeDeps0, j2) =>
        let replicaWriteFrontier := fjoin j1 j2
        let storageDeps := dedupSort storageDeps0
        let computeDeps := dedupSort computeDeps0
        let outputs : Int := (d.sinkExports.length + d.indexExports.length : Nat)
        let changes : CapMap := (fElems asOf).map (fun t => (t, outputs))
        let s1 := storage.updateReadCapabilities (storageDeps.map (fun id => (id, changes)))
        let r2 := update_read_capabilities i s1 (computeDeps.map (fun id => (id, changes)))
        let i2 := d.exportIds.foldl (cdInstallExport asOf storageDeps computeDeps) r2.1
        let updates := d.exportIds.map (fun e => (e, replicaWriteFrontier))
        let r3 := i2.replicas.foldl (cdReplicaStep updates) (i2, r2.2)
        let i4 := d.subscribeIds.foldl cdSubscribeStep r3.1
        match allResolveStorage r3.2 d.sourceImports with
        | .error e => .error e
        | .ok _ =>
          match allResolveStorage r3.2
              ((d.sinkExports.filter (fun p => p.2 = false)).map Prod.fst) with
          | .error e => .error e
          | .ok _ => .ok (i4.send (.createDataflow d.exportIds asOf), r3.2)

/-! ### Association-list lemmas -/

theorem lookup_cons_self {α : Type} (p : Nat × α) (rest : List (Nat × α)) (j : Nat)
    (h : j = p.1) : (p :: rest).lookup j = some p.2 := by
  simp only [List.lookup]
  rw [show (j == p.1) = true by simpa using h]

theorem lookup_cons_ne {α : Type} (p : Nat × α) (rest : List (Nat × α)) (j : Nat)
    (h : j ≠ p.1) : (p :: rest).lookup j = rest.lookup j := by
  simp only [List.lookup]
  rw [show (j == p.1) = false by simpa using h]

theorem lookup_aput_self {α : Type} (m : List (Nat × α)) (k : Nat) (v : α) :
    (aput m k v).lookup k = some v := by
  induction m with
  | nil => simp [aput, List.lookup]
  | cons p rest ih =>
    by_cases h : p.1 = k
    · simp [aput, h, List.lookup]
    · simp only [aput]
      rw [if_neg (by simpa using h)]
      rw [lookup_cons_ne _ _ _ (fun he => h he.symm)]
      exact ih

theorem lookup_aput_ne {α : Type} (m : List (Nat × α)) (k j : Nat) (v : α)
    (h : j ≠ k) : (aput m k v).lookup j = m.lookup j := by
  induction m with
  | nil =>
    simp only [aput]
    rw [lookup_cons_ne _ _ _ (by simpa using h)]
  | cons p rest ih =>
    by_cases hp : p.1 = k
    · simp only [aput, if_pos hp]
      rw [lookup_cons_ne _ _ _ (by simpa using h),
        lookup_cons_ne _ _ _ (by simp only [← hp] at h; simpa using h)]
    · simp only [aput, if_neg hp]
      by_cases hj : j = p.1
      · rw [lookup_cons_self _ _ _ hj, lookup_cons_self _ _ _ hj]
      · rw [lookup_cons_ne _ _ _ hj, lookup_cons_ne _ _ _ hj]
        exact ih

theorem lookup_aremove_self {α : Type} (m : List (Nat × α)) (k : Nat) :
    (aremove m k).lookup k = none := by
  induction m with
  | nil => rfl
  | cons p rest ih =>
    by_cases h : p.1 = k
    · simpa [aremove, List.filter, h] using ih
    · simp only [aremove, List.filter] at ih ⊢
      rw [show (decide ¬p.1 = k) = true by simpa using h]
      rw [lookup_cons_ne _ _ _ (fun he => h he.symm)]
      exact ih

theorem lookup_aremove_ne {α : Type} (m : List (Nat × α)) (k j : Nat) (h : j ≠ k) :
    (aremove m k).lookup j = m.lookup j := by
  induction m with
  | nil => rfl
  | cons p rest ih =>
    by_cases hp : p.1 = k
    · simp only [aremove, List.filter] at ih ⊢
      rw [show (decide ¬p.1 = k) = false by simpa using hp]
      rw [lookup_cons_ne _ _ _ (by rw [hp]; exact h)]
      exact ih
    · simp only [aremove, List.filter] at ih ⊢
      rw [show (decide ¬p.1 = k) = true by simpa using hp]
      by_cases hj : j = p.1
      · rw [lookup_cons_self _ _ _ hj, lookup_cons_self _ _ _ hj]
      · rw [lookup_cons_ne _ _ _ hj, lookup_cons_ne _ _ _ hj]
        exact ih

theorem lookup_some_mem {α : Type} {m : List (Nat × α)} {k : Nat} {v : α}
    (h : m.lookup k = some v) : (k, v) ∈ m := by
  induction m with
  | nil => simp [List.lookup] at h
  | cons p rest ih =>
    by_cases hp : k = p.1
    · rw [lookup_cons_self _ _ _ hp] at h
      injection h with h
      have hkv : (k, v) = p := by
        rw [hp, ← h]
      rw [hkv]
      exact .head _
    · rw [lookup_cons_ne _ _ _ hp] at h
      exact .tail _ (ih h)

theorem mem_keys_of_lookup_some {α : Type} {m : List (Nat × α)} {k : Nat} {v : α}
    (h : m.lookup k = some v) : k ∈ keysOf m := by
  have := lookup_some_mem h
  simp only [keysOf, List.mem_map]
  exact ⟨(k, v), this, rfl⟩

theorem lookup_isSome_of_mem_keys {α : Type} {m : List (Nat × α)} {k : Nat}
    (h : k ∈ keysOf m) : (m.lookup k).isSome := by
  induction m with
  | nil => simp [keysOf] at h
  | cons p rest ih =>
    by_cases hp : k = p.1
    · rw [lookup_cons_self _ _ _ hp]
      rfl
    · rw [lookup_cons_ne _ _ _ hp]
      simp only [keysOf, List.map, List.mem_cons] at h
      rcases h with h | h
      · exact absurd h hp
      · exact ih h

theorem lookup_eq_none_of_not_mem_keys {α : Type} {m : List (Nat × α)} {k : Nat}
    (h : k ∉ keysOf m) : m.lookup k = none := by
  cases hl : m.lookup k with
  | none => rfl
  | some v => exact absurd (mem_keys_of_lookup_some hl) h

theorem lookup_amodify_self {α : Type} (m : List (Nat × α)) (k : Nat) (f : α → α) :
    (amodify m k f).lookup k = (m.lookup k).map f := by
  induction m with
  | nil => rfl
  | cons p rest ih =>
    simp only [amodify, List.map] at ih ⊢
    by_cases hp : p.1 = k
    · rw [if_pos hp, lookup_cons_self (k, f p.2) _ k rfl, lookup_cons_self p rest k hp.symm]
      rfl
    · rw [if_neg hp, lookup_cons_ne _ _ _ (fun he => hp he.symm),
        lookup_cons_ne _ _ _ (fun he => hp he.symm)]
      exact ih

theorem lookup_amodify_ne {α : Type} (m : List (Nat × α)) (k j : Nat) (f : α → α)
    (h : j ≠ k) : (amodify m k f).lookup j = m.lookup j := by
  induction m with
  | nil => rfl
  | cons p rest ih =>
    simp only [amodify, List.map] at ih ⊢
    by_cases hp : p.1 = k
    · rw [if_pos hp, lookup_cons_ne _ _ _ (by simpa using h),
        lookup_cons_ne _ _ _ (by rw [hp]; exact h)]
      exact ih
    · rw [if_neg hp]
      by_cases hj : j = p.1
      · rw [lookup_cons_self _ _ _ hj, lookup_cons_self _ _ _ hj]
      · rw [lookup_cons_ne _ _ _ hj, lookup_cons_ne _ _ _ hj]
        exact ih

theorem cbPush_nil (c : CapMap) : cbPush c [] = c := rfl

theorem cbPush_eq_append (c up : CapMap) : cbPush c up = c ++ up := by
  induction up generalizing c with
  | nil => simp [cbPush]
  | cons x rest ih =>
    have h1 : cbPush c (x :: rest) = cbPush (c ++ [x]) rest := rfl
    rw [h1, ih]
    simp

theorem lookup_aextend_self (m : List (Nat × CapMap)) (k : Nat) (cb : CapMap) :
    (aextend m k cb).lookup k = some (cbPush ((m.lookup k).getD []) cb) := by
  unfold aextend
  cases hl : m.lookup k with
  | some old => simpa using lookup_aput_self m k (cbPush old cb)
  | none =>
    rw [lookup_aput_self, cbPush_eq_append]
    simp [cbPush_eq_append]

theorem lookup_aextend_ne (m : List (Nat × CapMap)) (k j : Nat) (cb : CapMap)
    (h : j ≠ k) : (aextend m k cb).lookup j = m.lookup j := by
  unfold aextend
  cases m.lookup k with
  | some old => exact lookup_aput_ne _ _ _ _ h
  | none => exact lookup_aput_ne _ _ _ _ h

theorem mem_aput {α : Type} {m : List (Nat × α)} {k : Nat} {v : α} {p : Nat × α}
    (h : p ∈ aput m k v) : p ∈ m ∨ p = (k, v) := by
  induction m with
  | nil =>
    simp only [aput, List.mem_singleton] at h
    exact .inr h
  | cons q rest ih =>
    by_cases hq : q.1 = k
    · simp only [aput, if_pos hq, List.mem_cons] at h
      rcases h with h | h
      · exact .inr h
      · exact .inl (.tail _ h)
    · simp only [aput, if_neg hq, List.mem_cons] at h
      rcases h with h | h
      · exact .inl (h ▸ .head _)
      · rcases ih h with h | h
        · exact .inl (.tail _ h)
        · exact .inr h

theorem mem_aremove {α : Type} {m : List (Nat × α)} {k : Nat} {p : Nat × α}
    (h : p ∈ aremove m k) : p ∈ m ∧ p.1 ≠ k := by
  simp only [aremove, List.mem_filter, decide_eq_true_eq] at h
  exact h

theorem mem_keys_aput {α : Type} {m : List (Nat × α)} {k j : Nat} {v : α}
    (h : j ∈ keysOf (aput m k v)) : j ∈ keysOf m ∨ j = k := by
  simp only [keysOf, List.mem_map] at h ⊢
  obtain ⟨p, hp, hj⟩ := h
  rcases mem_aput hp with h | h
  · exact .inl ⟨p, h, hj⟩
  · subst h
    exact .inr hj.symm

theorem mem_keys_aextend {m : List (Nat × CapMap)} {k j : Nat} {cb : CapMap}
    (h : j ∈ keysOf (aextend m k cb)) : j ∈ keysOf m ∨ j = k := by
  unfold aextend at h
  cases hl : m.lookup k with
  | some old =>
    rw [hl] at h
    exact mem_keys_aput h
  | none =>
    rw [hl] at h
    exact mem_keys_aput h

theorem mem_keys_aremove {α : Type} {m : List (Nat × α)} {k j : Nat}
    (h : j ∈ keysOf (aremove m k)) : j ∈ keysOf m ∧ j ≠ k := by
  simp only [keysOf, List.mem_map] at h ⊢
  obtain ⟨p, hp, hj⟩ := h
  obtain ⟨hm, hk⟩ := mem_aremove hp
  exact ⟨⟨p, hm, hj⟩, hj ▸ hk⟩

theorem keys_aput_nodup {α : Type} (m : List (Nat × α)) (k : Nat) (v : α)
    (h : (keysOf m).Nodup) : (keysOf (aput m k v)).Nodup := by
  induction m with
  | nil => simp [aput, keysOf]
  | cons p rest ih =>
    simp only [keysOf, List.map, List.nodup_cons] at h
    by_cases hp : p.1 = k
    · simp only [aput, if_pos hp, keysOf, List.map, List.nodup_cons]
      exact ⟨hp ▸ h.1, h.2⟩
    · simp only [aput, if_neg hp, keysOf, List.map, List.nodup_cons]
      refine ⟨fun hmem => ?_, ih h.2⟩
      rcases mem_keys_aput hmem with hmem | hmem
      · exact h.1 hmem
      · exact hp hmem

theorem keys_aextend_nodup (m : List (Nat × CapMap)) (k : Nat) (cb : CapMap)
    (h : (keysOf m).Nodup) : (keysOf (aextend m k cb)).Nodup := by
  unfold aextend
  cases m.lookup k with
  | some old => exact keys_aput_nodup _ _ _ h
  | none => exact keys_aput_nodup _ _ _ h

theorem keys_aremove_nodup {α : Type} (m : List (Nat × α)) (k : Nat)
    (h : (keysOf m).Nodup) : (keysOf (aremove m k)).Nodup := by
  have hsub : List.Sublist (aremove m k) m := List.filter_sublist m
  exact (hsub.map Prod.fst).nodup h

theorem mem_keys_foldl_aextend {deps : List Nat} {cb : CapMap} :
    ∀ {m : List (Nat × CapMap)} {j : Nat},
    j ∈ keysOf (deps.foldl (fun m d => aextend m d cb) m) → j ∈ keysOf m ∨ j ∈ deps := by
  induction deps with
  | nil => exact fun h => .inl h
  | cons d rest ih =>
    intro m j h
    rcases ih h with h | h
    · rcases mem_keys_aextend h with h | h
      · exact .inl h
      · exact .inr (h ▸ .head _)
    · exact .inr (.tail _ h)

theorem keys_foldl_aextend_nodup (deps : List Nat) (cb : CapMap) :
    ∀ (m : List (Nat × CapMap)), (keysOf m).Nodup →
    (keysOf (deps.foldl (fun m d => aextend m d cb) m)).Nodup := by
  induction deps with
  | nil => exact fun m h => h
  | cons d rest ih => exact fun m h => ih _ (keys_aextend_nodup m d cb h)

theorem mem_aextend_nil {m : List (Nat × CapMap)} {k : Nat} {p : Nat × CapMap}
    (h : p ∈ aextend m k []) : (∃ q ∈ m, q.1 = p.1 ∧ q.2 = p.2) ∨ p.2 = [] := by
  unfold aextend at h
  cases hl : m.lookup k with
  | some old =>
    rw [hl] at h
    rcases mem_aput h with h | h
    · exact .inl ⟨p, h, rfl, rfl⟩
    · subst h
      exact .inl ⟨(k, old), lookup_some_mem hl, rfl, rfl⟩
  | none =>
    rw [hl] at h
    rcases mem_aput h with h | h
    · exact .inl ⟨p, h, rfl, rfl⟩
    · subst h
      exact .inr rfl

theorem mem_foldl_aextend_nil {deps : List Nat} :
    ∀ {m : List (Nat × CapMap)} {p : Nat × CapMap},
    p ∈ deps.foldl (fun m d => aextend m d []) m →
    (∃ q ∈ m, q.1 = p.1 ∧ q.2 = p.2) ∨ p.2 = [] := by
  induction deps with
  | nil => exact fun h => .inl ⟨_, h, rfl, rfl⟩
  | cons d rest ih =>
    intro m p h
    rcases ih h with h | h
    · obtain ⟨q, hq, hq1, hq2⟩ := h
      rcases mem_aextend_nil hq with h | h
      · obtain ⟨q', hq', h1, h2⟩ := h
        exact .inl ⟨q', hq', h1.trans hq1, h2.trans hq2⟩
      · exact .inr (hq2 ▸ h)
    · exact .inr h

theorem lookup_foldl_aextend_nil (deps : List Nat) :
    ∀ (m : List (Nat × CapMap)) (k : Nat),
    (deps.foldl (fun m d => aextend m d []) m).lookup k = m.lookup k ∨
      (m.lookup k = none ∧
        (deps.foldl (fun m d => aextend m d []) m).lookup k = some []) := by
  induction deps with
  | nil => exact fun m k => .inl rfl
  | cons d rest ih =>
    intro m k
    simp only [List.foldl_cons]
    rcases ih (aextend m d []) k with h | h
    · by_cases hd : k = d
      · subst hd
        rw [lookup_aextend_self] at h
        cases hl : m.lookup k with
        | some old =>
          rw [hl] at h
          exact .inl (h.trans rfl)
        | none =>
          rw [hl] at h
          exact .inr ⟨rfl, h.trans rfl⟩
      · rw [lookup_aextend_ne _ _ _ _ hd] at h
        exact .inl h
    · obtain ⟨h1, h2⟩ := h
      by_cases hd : k = d
      · subst hd
        rw [lookup_aextend_self] at h1
        exact absurd h1 (by simp)
      · rw [lookup_aextend_ne _ _ _ _ hd] at h1
        exact .inr ⟨h1, h2⟩

theorem maxKey_fold_spec (m : List (GlobalId × CapMap)) :
    ∀ (acc : Option GlobalId),
    (m.foldl (fun acc p =>
        match acc with
        | none => some p.1
        | some k => some (max k p.1)) acc = none → (m = [] ∧ acc = none)) ∧
    (∀ k, m.foldl (fun acc p =>
        match acc with
        | none => some p.1
        | some k => some (max k p.1)) acc = some k →
      (k ∈ keysOf m ∨ acc = some k) ∧ (∀ j ∈ keysOf m, j ≤ k) ∧
        (∀ a, acc = some a → a ≤ k)) := by
  induction m with
  | nil =>
    intro acc
    refine ⟨fun h => ⟨rfl, h⟩, fun k h => ⟨.inr h, by simp [keysOf], ?_⟩⟩
    intro a ha
    rw [List.foldl_nil] at h
    rw [ha] at h
    injection h with h
    exact le_of_eq h
  | cons p rest ih =>
    intro acc
    simp only [List.foldl_cons]
    cases acc with
    | none =>
      obtain ⟨ihn, ihs⟩ := ih (some p.1)
      constructor
      · intro h
        obtain ⟨-, h2⟩ := ihn h
        exact absurd h2 (by simp)
      · intro k h
        obtain ⟨hmem, hub, hacc⟩ := ihs k h
        have hpk : p.1 ≤ k := hacc p.1 rfl
        refine ⟨.inl ?_, ?_, fun a ha => by simp at ha⟩
        · rcases hmem with hm | hm
          · simp only [keysOf, List.map, List.mem_cons]
            exact .inr (by simpa [keysOf] using hm)
          · injection hm with hm
            simp only [keysOf, List.map, List.mem_cons]
            exact .inl hm.symm
        · intro j hj
          simp only [keysOf, List.map, List.mem_cons] at hj
          rcases hj with hj | hj
          · exact hj ▸ hpk
          · exact hub j (by simpa [keysOf] using hj)
    | some a =>
      obtain ⟨ihn, ihs⟩ := ih (some (max a p.1))
      constructor
      · intro h
        obtain ⟨-, h2⟩ := ihn h
        exact absurd h2 (by simp)
      · intro k h
        obtain ⟨hmem, hub, hacc⟩ := ihs k h
        have hmk : max a p.1 ≤ k := hacc _ rfl
        have hpk : p.1 ≤ k := le_trans (le_max_right a p.1) hmk
        have hak : a ≤ k := le_trans (le_max_left a p.1) hmk
        refine ⟨?_, ?_, ?_⟩
        · rcases hmem with hm | hm
          · refine .inl ?_
            simp only [keysOf, List.map, List.mem_cons]
            exact .inr (by simpa [keysOf] using hm)
          · injection hm with hm
            rcases Nat.le_total a p.1 with hle | hle
            · rw [max_eq_right hle] at hm
              refine .inl ?_
              simp only [keysOf, List.map, List.mem_cons]
              exact .inl hm.symm
            · rw [max_eq_left hle] at hm
              exact .inr (by rw [hm])
        · intro j hj
          simp only [keysOf, List.map, List.mem_cons] at hj
          rcases hj with hj | hj
          · exact hj ▸ hpk
          · exact hub j (by simpa [keysOf] using hj)
        · intro a' ha'
          injection ha' with ha'
          subst ha'
          exact hak

theorem maxKey_eq_none {m : List (GlobalId × CapMap)} (h : maxKey m = none) : m = [] :=
  ((maxKey_fold_spec m none).1 h).1

theorem maxKey_mem {m : List (GlobalId × CapMap)} {k : GlobalId}
    (h : maxKey m = some k) : k ∈ keysOf m := by
  rcases ((maxKey_fold_spec m none).2 k h).1 with hm | hm
  · exact hm
  · simp at hm

theorem maxKey_le {m : List (GlobalId × CapMap)} {k : GlobalId}
    (h : maxKey m = some k) : ∀ j ∈ keysOf m, j ≤ k :=
  ((maxKey_fold_spec m none).2 k h).2.1

theorem net_append (c d : CapMap) (t : Nat) : net (c ++ d) t = net c t + net d t := by
  simp [net, List.filter_append]

theorem net_eq_zero_of_not_mem {c : CapMap} {t : Nat} (h : t ∉ c.map Prod.fst) :
    net c t = 0 := by
  have : c.filter (fun p => p.1 = t) = [] := by
    rw [List.filter_eq_nil_iff]
    intro p hp hpt
    simp only [decide_eq_true_eq] at hpt
    exact h (List.mem_map.mpr ⟨p, hp, hpt⟩)
  simp [net, this]

theorem net_nonneg {c : CapMap} (h : ∀ p ∈ c, 0 ≤ p.2) (t : Nat) : 0 ≤ net c t := by
  apply List.sum_nonneg
  intro x hx
  simp only [List.mem_map] at hx
  obtain ⟨p, hp, hpx⟩ := hx
  exact hpx ▸ h p (List.mem_of_mem_filter hp)

theorem foldl_min_spec (ts : List Nat) : ∀ (t : Nat),
    (ts.foldl min t = t ∨ ts.foldl min t ∈ ts) ∧ (ts.foldl min t ≤ t) ∧
      (∀ x ∈ ts, ts.foldl min t ≤ x) := by
  induction ts with
  | nil => exact fun t => ⟨.inl rfl, le_refl t, by simp⟩
  | cons a rest ih =>
    intro t
    simp only [List.foldl_cons]
    obtain ⟨hmem, hle, hall⟩ := ih (min t a)
    refine ⟨?_, le_trans hle (min_le_left t a), ?_⟩
    · rcases hmem with hm | hm
      · rcases Nat.le_total t a with h | h
        · rw [hm, Nat.min_eq_left h]
          exact .inl rfl
        · rw [hm, Nat.min_eq_right h]
          exact .inr (.head _)
      · exact .inr (.tail _ hm)
    · intro x hx
      simp only [List.mem_cons] at hx
      rcases hx with hx | hx
      · rw [hx]
        exact le_trans hle (min_le_right t a)
      · exact hall x hx

theorem capFrontier_none_iff {c : CapMap} :
    capFrontier c = none ↔ ∀ t, net c t ≤ 0 := by
  constructor
  · intro h t
    by_cases hmem : t ∈ (c.map Prod.fst).dedup
    · unfold capFrontier at h
      rcases hf : ((c.map Prod.fst).dedup).filter (fun t => decide (0 < net c t)) with _ | ⟨x, xs⟩
      · by_contra hpos
        have : t ∈ ((c.map Prod.fst).dedup).filter (fun t => decide (0 < net c t)) := by
          rw [List.mem_filter]
          exact ⟨hmem, by simp; omega⟩
        rw [hf] at this
        simp at this
      · rw [hf] at h
        simp at h
    · rw [net_eq_zero_of_not_mem (fun hm => hmem (List.mem_dedup.mpr hm))]
  · intro h
    unfold capFrontier
    rcases hf : ((c.map Prod.fst).dedup).filter (fun t => decide (0 < net c t)) with _ | ⟨x, xs⟩
    · rfl
    · have hx : x ∈ ((c.map Prod.fst).dedup).filter (fun t => decide (0 < net c t)) := by
        rw [hf]
        exact .head _
      rw [List.mem_filter] at hx
      have := h x
      simp at hx
      omega

theorem capFrontier_some_spec {c : CapMap} {m : Nat} (h : capFrontier c = some m) :
    0 < net c m ∧ ∀ t, 0 < net c t → m ≤ t := by
  unfold capFrontier at h
  rcases hf : ((c.map Prod.fst).dedup).filter (fun t => decide (0 < net c t)) with _ | ⟨x, xs⟩
  · rw [hf] at h
    simp at h
  · rw [hf] at h
    injection h with h
    obtain ⟨hmem, hle, hall⟩ := foldl_min_spec xs x
    constructor
    · have hm : m ∈ x :: xs := by
        rcases hmem with hm | hm
        · rw [← h, hm]
          exact .head _
        · rw [← h]
          exact .tail _ hm
      rw [← hf] at hm
      rw [List.mem_filter] at hm
      simpa using hm.2
    · intro t ht
      have htm : t ∈ c.map Prod.fst := by
        by_contra hmem'
        rw [net_eq_zero_of_not_mem hmem'] at ht
        omega
      have htf : t ∈ ((c.map Prod.fst).dedup).filter (fun t => decide (0 < net c t)) := by
        rw [List.mem_filter]
        exact ⟨List.mem_dedup.mpr htm, by simpa using ht⟩
      rw [hf] at htf
      simp only [List.mem_cons] at htf
      rcases htf with htf | htf
      · rw [htf]
        exact h ▸ hle
      · exact h ▸ hall t htf

theorem capFrontier_eq_some {c : CapMap} {m : Nat}
    (h1 : 0 < net c m) (h2 : ∀ t, 0 < net c t → m ≤ t) : capFrontier c = some m := by
  cases hcf : capFrontier c with
  | none =>
    have := capFrontier_none_iff.mp hcf m
    omega
  | some m' =>
    obtain ⟨hm', hmin⟩ := capFrontier_some_spec hcf
    have h3 := h2 m' hm'
    have h4 := hmin m h1
    congr 1
    omega

theorem capFrontier_cbPush_ge {c cb : CapMap}
    (hpos : ∀ p ∈ cb, 0 ≤ p.2)
    (hge : ∀ p ∈ cb, felemLe (capFrontier c) p.1 = true) :
    capFrontier (cbPush c cb) = capFrontier c := by
  rw [cbPush_eq_append]
  cases hcf : capFrontier c with
  | none =>
    have hcb : cb = [] := by
      cases cb with
      | nil => rfl
      | cons p rest =>
        have := hge p (.head _)
        rw [hcf] at this
        simp [felemLe] at this
    subst hcb
    simpa using hcf
  | some m =>
    obtain ⟨hm, hmin⟩ := capFrontier_some_spec hcf
    apply capFrontier_eq_some
    · rw [net_append]
      have := net_nonneg hpos m
      omega
    · intro t ht
      rw [net_append] at ht
      by_cases hc : 0 < net c t
      · exact hmin t hc
      · have hcb : 0 < net cb t := by omega
        have htm : t ∈ cb.map Prod.fst := by
          by_contra hmem'
          rw [net_eq_zero_of_not_mem hmem'] at hcb
          omega
        obtain ⟨p, hp, hpt⟩ := List.mem_map.mp htm
        have := hge p hp
        rw [hcf, hpt] at this
        simpa [felemLe] using this

theorem cbIsEmpty_iff {c : CapMap} : cbIsEmpty c = true ↔ ∀ t, net c t = 0 := by
  constructor
  · intro h t
    by_cases hmem : t ∈ (c.map Prod.fst).dedup
    · unfold cbIsEmpty at h
      rw [List.all_eq_true] at h
      simpa using h t hmem
    · exact net_eq_zero_of_not_mem (fun hm => hmem (List.mem_dedup.mpr hm))
  · intro h
    unfold cbIsEmpty
    rw [List.all_eq_true]
    intro t _
    simpa using h t

theorem cbIsEmpty_swap (f : Frontier) :
    cbIsEmpty ((fElems f).map (fun t => (t, (1 : Int))) ++
      (fElems f).map (fun t => (t, (-1 : Int)))) = true := by
  cases f with
  | none => rfl
  | some a =>
    rw [cbIsEmpty_iff]
    intro t
    simp only [fElems, List.map]
    rw [show ([(a, (1 : Int))] ++ [(a, (-1 : Int))] : CapMap) = [(a, 1), (a, -1)] from rfl]
    by_cases ht : a = t
    · subst ht
      simp [net, List.filter]
    · simp [net, List.filter, ht]

/-- The capability loop never touches the instance fields other than
`collections`. -/
theorem urcLoop_preserves (fuel : Nat) :
    ∀ (i : Instance) (updates : List (GlobalId × CapMap)) (storage : Storage)
      (stodo cnet : List (GlobalId × CapMap))
      (i' : Instance) (stodo' cnet' : List (GlobalId × CapMap)),
    urcLoop fuel i updates storage stodo cnet = some (i', stodo', cnet') →
    i'.replicas = i.replicas ∧ i'.peeks = i.peeks ∧ i'.subscribes = i.subscribes ∧
      i'.failedReplicas = i.failedReplicas ∧ i'.responses = i.responses ∧
      i'.commands = i.commands := by
  induction fuel with
  | zero =>
    intro i updates storage stodo cnet i' stodo' cnet' h
    simp only [urcLoop] at h
    split at h
    · injection h with h
      simp only [Prod.mk.injEq] at h
      rw [h.1]
      exact ⟨rfl, rfl, rfl, rfl, rfl, rfl⟩
    · exact absurd h (by simp)
  | succ fuel ih =>
    intro i updates storage stodo cnet i' stodo' cnet' h
    simp only [urcLoop] at h
    split at h
    · injection h with h
      simp only [Prod.mk.injEq] at h
      rw [h.1]
      exact ⟨rfl, rfl, rfl, rfl, rfl, rfl⟩
    · split at h
      · obtain ⟨h1, h2, h3, h4, h5, h6⟩ := ih _ _ _ _ _ _ _ _ h
        exact ⟨h1, h2, h3, h4, h5, h6⟩
      · split at h
        · obtain ⟨h1, h2, h3, h4, h5, h6⟩ := ih _ _ _ _ _ _ _ _ h
          exact ⟨h1, h2, h3, h4, h5, h6⟩
        · obtain ⟨h1, h2, h3, h4, h5, h6⟩ := ih _ _ _ _ _ _ _ _ h
          exact ⟨h1, h2, h3, h4, h5, h6⟩

/-- `update_dropped_collections` only touches `collections`. -/
theorem updateDropped_preserves (ids : List GlobalId) :
    ∀ (i : Instance),
    (updateDroppedCollections i ids).replicas = i.replicas ∧
      (updateDroppedCollections i ids).peeks = i.peeks ∧
      (updateDroppedCollections i ids).subscribes = i.subscribes ∧
      (updateDroppedCollections i ids).failedReplicas = i.failedReplicas ∧
      (updateDroppedCollections i ids).responses = i.responses ∧
      (updateDroppedCollections i ids).commands = i.commands := by
  induction ids with
  | nil => exact fun i => ⟨rfl, rfl, rfl, rfl, rfl, rfl⟩
  | cons id rest ih =>
    intro i
    have hstep : updateDroppedCollections i (id :: rest) = updateDroppedCollections
        (match i.collections.lookup id with
          | some c =>
            if c.readFrontier = none ∧ c.replicaWriteFrontiers.all (fun p => p.2 = none) then
              { i with collections := aremove i.collections id }
            else i
          | none => i) rest := rfl
    rw [hstep]
    rcases hl : i.collections.lookup id with _ | c
    · simp only [hl]
      exact ih i
    · simp only [hl]
      by_cases hc : c.readFrontier = none ∧
          c.replicaWriteFrontiers.all (fun p => p.2 = none) = true
      · rw [if_pos hc]
        obtain ⟨h1, h2, h3, h4, h5, h6⟩ := ih { i with collections := aremove i.collections id }
        exact ⟨h1, h2, h3, h4, h5, h6⟩
      · rw [if_neg hc]
        exact ih i

/-- The `AllowCompaction` pass only appends commands and collects ids. -/
theorem urcSendFold_preserves (cnet : List (GlobalId × CapMap)) :
    ∀ (acc : Instance × List GlobalId),
    (cnet.foldl urcSendStep acc).1.replicas = acc.1.replicas ∧
      (cnet.foldl urcSendStep acc).1.collections = acc.1.collections ∧
      (cnet.foldl urcSendStep acc).1.peeks = acc.1.peeks ∧
      (cnet.foldl urcSendStep acc).1.subscribes = acc.1.subscribes ∧
      (cnet.foldl urcSendStep acc).1.failedReplicas = acc.1.failedReplicas ∧
      (cnet.foldl urcSendStep acc).1.responses = acc.1.responses := by
  induction cnet with
  | nil => exact fun acc => ⟨rfl, rfl, rfl, rfl, rfl, rfl⟩
  | cons p rest ih =>
    intro acc
    simp only [List.foldl_cons]
    have hstep : (urcSendStep acc p).1.replicas = acc.1.replicas ∧
        (urcSendStep acc p).1.collections = acc.1.collections ∧
        (urcSendStep acc p).1.peeks = acc.1.peeks ∧
        (urcSendStep acc p).1.subscribes = acc.1.subscribes ∧
        (urcSendStep acc p).1.failedReplicas = acc.1.failedReplicas ∧
        (urcSendStep acc p).1.responses = acc.1.responses := by
      unfold urcSendStep
      rcases acc.1.collections.lookup p.1 with _ | coll
      · exact ⟨rfl, rfl, rfl, rfl, rfl, rfl⟩
      · by_cases hf : coll.readFrontier = none <;>
          by_cases he : cbIsEmpty p.2 = false <;>
          simp [hf, he, Instance.send]
    obtain ⟨h1, h2, h3, h4, h5, h6⟩ := ih (urcSendStep acc p)
    obtain ⟨g1, g2, g3, g4, g5, g6⟩ := hstep
    exact ⟨h1.trans g1, h2.trans g2, h3.trans g3, h4.trans g4, h5.trans g5, h6.trans g6⟩

/-- `update_read_capabilities` preserves everything except collections,
commands, and the storage side. -/
theorem urc_preserves (i : Instance) (storage : Storage)
    (updates : List (GlobalId × CapMap)) :
    (update_read_capabilities i storage updates).1.replicas = i.replicas ∧
      (update_read_capabilities i storage updates).1.peeks = i.peeks ∧
      (update_read_capabilities i storage updates).1.subscribes = i.subscribes ∧
      (update_read_capabilities i storage updates).1.failedReplicas = i.failedReplicas ∧
      (update_read_capabilities i storage updates).1.responses = i.responses := by
  unfold update_read_capabilities
  rcases hl : urcLoop (urcFuel i updates) i updates storage [] [] with _ | ⟨i', stodo, cnet⟩
  · exact ⟨rfl, rfl, rfl, rfl, rfl⟩
  · obtain ⟨p1, p2, p3, p4, p5, p6⟩ := urcLoop_preserves _ _ _ _ _ _ _ _ _ hl
    obtain ⟨f1, f2, f3, f4, f5, f6⟩ := urcSendFold_preserves cnet (i', [])
    simp only
    set r := cnet.foldl urcSendStep (i', []) with hr
    obtain ⟨d1, d2, d3, d4, d5, d6⟩ := updateDropped_preserves r.2 r.1
    by_cases hd : r.2 ≠ []
    · rw [if_pos hd]
      exact ⟨d1.trans (f1.trans p1), d2.trans (f3.trans p2), d3.trans (f4.trans p3),
        d4.trans (f5.trans p4), d5.trans (f6.trans p5)⟩
    · rw [if_neg hd]
      exact ⟨f1.trans p1, f3.trans p2, f4.trans p3, f5.trans p4, f6.trans p5⟩

/-- Dependency ids are strictly smaller than the dependent's id (the
allocation discipline of dataflow ids the controller relies on for the
capability-propagation loop to terminate). -/
def DescDeps (i : Instance) : Prop :=
  ∀ k coll, i.collections.lookup k = some coll → ∀ d ∈ coll.computeDependencies, d < k

/-- Invariant of the capability loop: every pending update either extends
a known compute collection at or beyond its read frontier with
nonnegative diffs, or is an all-zero (empty) change batch. -/
def UrcInv (i : Instance) (updates : List (GlobalId × CapMap)) : Prop :=
  ∀ p ∈ updates,
    (∀ q ∈ p.2, 0 ≤ q.2) ∧
    ((∃ coll, i.collections.lookup p.1 = some coll ∧
        ∀ q ∈ p.2, felemLe (capFrontier coll.readCapabilities) q.1 = true) ∨
      p.2 = [])

theorem map_caps_nil (o : Option CollectionState) :
    o.map (fun c => { c with readCapabilities := cbPush c.readCapabilities [] }) = o := by
  cases o <;> rfl

theorem stodoRel_trans {a b c : List (GlobalId × CapMap)}
    (h1 : ∀ k, b.lookup k = a.lookup k ∨ (a.lookup k = none ∧ b.lookup k = some []))
    (h2 : ∀ k, c.lookup k = b.lookup k ∨ (b.lookup k = none ∧ c.lookup k = some [])) :
    ∀ k, c.lookup k = a.lookup k ∨ (a.lookup k = none ∧ c.lookup k = some []) := by
  intro k
  rcases h2 k with h2 | ⟨h2a, h2b⟩
  · rcases h1 k with h1 | ⟨h1a, h1b⟩
    · exact .inl (h2.trans h1)
    · exact .inr ⟨h1a, h2.trans h1b⟩
  · rcases h1 k with h1 | ⟨h1a, h1b⟩
    · exact .inr ⟨h1.symm.trans h2a, h2b⟩
    · exact absurd (h1b.symm.trans h2a) (by simp)

theorem stodoRel_aextend_nil (stodo : List (GlobalId × CapMap)) (key : GlobalId) :
    ∀ k, (aextend stodo key []).lookup k = stodo.lookup k ∨
      (stodo.lookup k = none ∧ (aextend stodo key []).lookup k = some []) := by
  intro k
  by_cases hk : k = key
  · subst hk
    rw [lookup_aextend_self]
    cases hl : stodo.lookup k with
    | some old => exact .inl rfl
    | none => exact .inr ⟨rfl, rfl⟩
  · rw [lookup_aextend_ne _ _ _ _ hk]
    exact .inl rfl

theorem memRel_trans {a b c : List (GlobalId × CapMap)}
    (h1 : ∀ p ∈ b, (∃ q ∈ a, q.1 = p.1 ∧ q.2 = p.2) ∨ p.2 = ([] : CapMap))
    (h2 : ∀ p ∈ c, (∃ q ∈ b, q.1 = p.1 ∧ q.2 = p.2) ∨ p.2 = ([] : CapMap)) :
    ∀ p ∈ c, (∃ q ∈ a, q.1 = p.1 ∧ q.2 = p.2) ∨ p.2 = ([] : CapMap) := by
  intro p hp
  rcases h2 p hp with ⟨q, hq, hq1, hq2⟩ | h
  · rcases h1 q hq with ⟨q2, hq2m, hq21, hq22⟩ | h
    · exact .inl ⟨q2, hq2m, hq21.trans hq1, hq22.trans hq2⟩
    · exact .inr (hq2 ▸ h)
  · exact .inr h

/-- The capability loop terminates and produces only empty net changes
when every update extends capabilities at or beyond the collection's read
frontier and dependency ids descend: the read frontiers do not move, each
touched collection's accumulator is extended by exactly its pending
change batch, and the storage consequences are all empty batches. -/
theorem urcLoop_empty_changes (fuel : Nat) :
    ∀ (i : Instance) (updates : List (GlobalId × CapMap)) (storage : Storage)
      (stodo cnet : List (GlobalId × CapMap)),
    DescDeps i → (keysOf updates).Nodup → (∀ k ∈ keysOf updates, k < fuel) →
    UrcInv i updates →
    ∃ i' stodo' extra,
      urcLoop fuel i updates storage stodo cnet = some (i', stodo', cnet ++ extra) ∧
      (∀ p ∈ extra, p.2 = ([] : CapMap)) ∧
      (∀ k, stodo'.lookup k = stodo.lookup k ∨
        (stodo.lookup k = none ∧ stodo'.lookup k = some [])) ∧
      (∀ p ∈ stodo', (∃ q ∈ stodo, q.1 = p.1 ∧ q.2 = p.2) ∨ p.2 = ([] : CapMap)) ∧
      (∀ k cb, updates.lookup k = some cb →
        i'.collections.lookup k = (i.collections.lookup k).map
          (fun c => { c with readCapabilities := cbPush c.readCapabilities cb })) ∧
      (∀ k, updates.lookup k = none →
        i'.collections.lookup k = i.collections.lookup k) := by
  induction fuel with
  | zero =>
    intro i updates storage stodo cnet hdesc hnodup hkeys hinv
    have hupd : updates = [] := by
      cases updates with
      | nil => rfl
      | cons p rest => exact absurd (hkeys p.1 (by simp [keysOf])) (by omega)
    subst hupd
    refine ⟨i, stodo, [], ?_, by simp, fun k => .inl rfl,
        fun p hp => .inl ⟨p, hp, rfl, rfl⟩, by simp [List.lookup], fun k _ => rfl⟩
    simp [urcLoop]
  | succ fuel ih =>
    intro i updates storage stodo cnet hdesc hnodup hkeys hinv
    rcases hmk : maxKey updates with _ | key
    · have hupd : updates = [] := maxKey_eq_none hmk
      subst hupd
      refine ⟨i, stodo, [], ?_, by simp, fun k => .inl rfl,
        fun p hp => .inl ⟨p, hp, rfl, rfl⟩, by simp [List.lookup], fun k _ => rfl⟩
      simp [urcLoop, maxKey]
    · have hkey_mem : key ∈ keysOf updates := maxKey_mem hmk
      obtain ⟨cb0, hcb0⟩ : ∃ cb0, updates.lookup key = some cb0 := by
        cases hl : updates.lookup key with
        | none => exact absurd (lookup_isSome_of_mem_keys hkey_mem) (by simp [hl])
        | some v => exact ⟨v, rfl⟩
      have hkey_lt : key < fuel + 1 := hkeys key hkey_mem
      obtain ⟨hpos0, hca0⟩ := hinv (key, cb0) (lookup_some_mem hcb0)
      have hnodup' : (keysOf (aremove updates key)).Nodup := keys_aremove_nodup _ _ hnodup
      have hkeys'lt : ∀ j ∈ keysOf (aremove updates key), j < key := by
        intro j hj
        obtain ⟨hjm, hjk⟩ := mem_keys_aremove hj
        have := maxKey_le hmk j hjm
        omega
      have hkeys' : ∀ j ∈ keysOf (aremove updates key), j < fuel :=
        fun j hj => lt_of_lt_of_le (hkeys'lt j hj) (Nat.lt_succ_iff.mp hkey_lt)
      rcases hlc : i.collections.lookup key with _ | coll
      · -- no compute collection: the pending batch must be empty
        have hcb0nil : cb0 = [] := by
          rcases hca0 with ⟨c2, hc2, -⟩ | h
          · rw [hlc] at hc2
            exact absurd hc2 (by simp)
          · exact h
        subst hcb0nil
        have hinv' : UrcInv i (aremove updates key) := fun p hp => hinv p (mem_aremove hp).1
        by_cases hst : (storage.collections.lookup key).isSome = true
        · obtain ⟨i3, stodo3, extra3, heq3, hextra3, hsrel3, hmrel3, hsome3, hnone3⟩ :=
            ih i (aremove updates key) storage (aextend stodo key []) cnet
              hdesc hnodup' hkeys' hinv'
          refine ⟨i3, stodo3, extra3, ?_, hextra3,
            stodoRel_trans (stodoRel_aextend_nil stodo key) hsrel3,
            memRel_trans (fun p hp => mem_aextend_nil hp) hmrel3, ?_, ?_⟩
          · simp only [urcLoop, hmk, hcb0, hlc, Option.getD_some]
            rw [if_pos hst]
            exact heq3
          · intro k cb hk
            by_cases hkk : k = key
            · rw [hkk] at hk ⊢
              rw [hcb0] at hk
              injection hk with hk
              rw [← hk]
              rw [hnone3 key (lookup_aremove_self _ _), map_caps_nil]
            · have hk' : (aremove updates key).lookup k = some cb := by
                rw [lookup_aremove_ne _ _ _ hkk]
                exact hk
              exact hsome3 k cb hk'
          · intro k hk
            have hkk : k ≠ key := by
              intro he
              rw [he, hcb0] at hk
              exact absurd hk (by simp)
            have hk' : (aremove updates key).lookup k = none := by
              rw [lookup_aremove_ne _ _ _ hkk]
              exact hk
            exact hnone3 k hk'
        · obtain ⟨i3, stodo3, extra3, heq3, hextra3, hsrel3, hmrel3, hsome3, hnone3⟩ :=
            ih i (aremove updates key) storage stodo cnet hdesc hnodup' hkeys' hinv'
          refine ⟨i3, stodo3, extra3, ?_, hextra3, hsrel3, hmrel3, ?_, ?_⟩
          · simp only [urcLoop, hmk, hcb0, hlc, Option.getD_some]
            rw [if_neg hst]
            exact heq3
          · intro k cb hk
            by_cases hkk : k = key
            · rw [hkk] at hk ⊢
              rw [hcb0] at hk
              injection hk with hk
              rw [← hk]
              rw [hnone3 key (lookup_aremove_self _ _), map_caps_nil]
            · have hk' : (aremove updates key).lookup k = some cb := by
                rw [lookup_aremove_ne _ _ _ hkk]
                exact hk
              exact hsome3 k cb hk'
          · intro k hk
            have hkk : k ≠ key := by
              intro he
              rw [he, hcb0] at hk
              exact absurd hk (by simp)
            have hk' : (aremove updates key).lookup k = none := by
              rw [lookup_aremove_ne _ _ _ hkk]
              exact hk
            exact hnone3 k hk'
      · -- compute collection: the frontier does not move
        have hchanges : (updateIter coll.readCapabilities cb0).2 = [] := by
          rcases hca0 with ⟨c2, hc2, hge⟩ | hnil
          · rw [hlc] at hc2
            injection hc2 with hc2
            subst hc2
            simp [updateIter, capFrontier_cbPush_ge hpos0 hge]
          · have hnil' : cb0 = [] := hnil
            subst hnil'
            simp [updateIter, cbPush_nil]
        set i2 : Instance := { i with collections := amodify i.collections key (fun c => { c with readCapabilities := (updateIter coll.readCapabilities cb0).1 }) } with hi2
        have hlook2self : i2.collections.lookup key =
            some { coll with readCapabilities := cbPush coll.readCapabilities cb0 } := by
          rw [hi2]
          show (amodify i.collections key
            (fun c => { c with readCapabilities := (updateIter coll.readCapabilities cb0).1 })).lookup key = _
          rw [lookup_amodify_self, hlc]
          rfl
        have hlook2ne : ∀ j, j ≠ key → i2.collections.lookup j = i.collections.lookup j := by
          intro j hj
          rw [hi2]
          show List.lookup j (amodify i.collections key
            (fun c => { c with readCapabilities := (updateIter coll.readCapabilities cb0).1 })) =
            List.lookup j i.collections
          exact lookup_amodify_ne _ _ _ _ hj
        have hdesc2 : DescDeps i2 := by
          intro k c hk d hd
          by_cases hkk : k = key
          · subst hkk
            rw [hlook2self] at hk
            injection hk with hk
            subst hk
            exact hdesc k coll hlc d hd
          · rw [hlook2ne k hkk] at hk
            exact hdesc k c hk d hd
        have hdeps_lt : ∀ d ∈ coll.computeDependencies, d < key := hdesc key coll hlc
        set updates2 : List (GlobalId × CapMap) := coll.computeDependencies.foldl
          (fun m dep => aextend m dep []) (aremove updates key) with hupd2
        have hnodup2 : (keysOf updates2).Nodup := keys_foldl_aextend_nodup _ _ _ hnodup'
        have hkeys2 : ∀ j ∈ keysOf updates2, j < fuel := by
          intro j hj
          rcases mem_keys_foldl_aextend hj with hj | hj
          · exact hkeys' j hj
          · exact lt_of_lt_of_le (hdeps_lt j hj) (Nat.lt_succ_iff.mp hkey_lt)
        have hinv2 : UrcInv i2 updates2 := by
          intro p hp
          rcases mem_foldl_aextend_nil hp with ⟨q, hq, hq1, hq2⟩ | hp2
          · obtain ⟨hqm, hqk⟩ := mem_aremove hq
            obtain ⟨hqpos, hqca⟩ := hinv q hqm
            refine ⟨by rw [← hq2]; exact hqpos, ?_⟩
            rcases hqca with ⟨c2, hc2, hge2⟩ | hnil
            · refine .inl ⟨c2, ?_, by rw [← hq2]; exact hge2⟩
              rw [← hq1, hlook2ne q.1 hqk]
              exact hc2
            · exact .inr (hq2 ▸ hnil)
          · exact ⟨by rw [hp2]; simp, .inr hp2⟩
        obtain ⟨i3, stodo3, extra3, heq3, hextra3, hsrel3, hmrel3, hsome3, hnone3⟩ :=
          ih i2 updates2 storage
            (coll.storageDependencies.foldl (fun m dep => aextend m dep []) stodo)
            (cnet ++ [(key, [])]) hdesc2 hnodup2 hkeys2 hinv2
        refine ⟨i3, stodo3, (key, []) :: extra3, ?_, ?_,
          stodoRel_trans (lookup_foldl_aextend_nil _ stodo) hsrel3,
          memRel_trans (fun p hp => mem_foldl_aextend_nil hp) hmrel3, ?_, ?_⟩
        · simp only [urcLoop, hmk, hcb0, hlc, Option.getD_some]
          rw [hchanges]
          exact heq3.trans (by rw [List.append_assoc]; rfl)
        · intro p hp
          simp only [List.mem_cons] at hp
          rcases hp with hp | hp
          · rw [hp]
          · exact hextra3 p hp
        · intro k cb hk
          by_cases hkk : k = key
          · rw [hkk] at hk ⊢
            rw [hcb0] at hk
            injection hk with hk
            rw [← hk]
            have hnone_key : updates2.lookup key = none := by
              apply lookup_eq_none_of_not_mem_keys
              intro hmem
              rcases mem_keys_foldl_aextend hmem with hm | hm
              · exact (mem_keys_aremove hm).2 rfl
              · exact absurd (hdeps_lt key hm) (lt_irrefl key)
            rw [hnone3 key hnone_key, hlook2self, hlc]
            rfl
          · rcases lookup_foldl_aextend_nil coll.computeDependencies (aremove updates key) k
              with hrel | ⟨hrel1, hrel2⟩
            · rw [lookup_aremove_ne _ _ _ hkk, hk] at hrel
              rw [hsome3 k cb hrel, hlook2ne k hkk]
            · rw [lookup_aremove_ne _ _ _ hkk, hk] at hrel1
              exact absurd hrel1 (by simp)
        · intro k hk
          have hkk : k ≠ key := by
            intro he
            rw [he, hcb0] at hk
            exact absurd hk (by simp)
          rcases lookup_foldl_aextend_nil coll.computeDependencies (aremove updates key) k
            with hrel | ⟨hrel1, hrel2⟩
          · rw [lookup_aremove_ne _ _ _ hkk, hk] at hrel
            rw [hnone3 k hrel, hlook2ne k hkk]
          · rw [hsome3 k [] hrel2, hlook2ne k hkk, map_caps_nil]

theorem le_foldl_max (l : List Nat) : ∀ (a k : Nat), k ∈ l ∨ k ≤ a → k ≤ l.foldl max a := by
  induction l with
  | nil =>
    intro a k h
    rcases h with h | h
    · simp at h
    · exact h
  | cons x xs ih =>
    intro a k h
    simp only [List.foldl_cons]
    apply ih
    rcases h with h | h
    · rcases List.mem_cons.mp h with h | h
      · exact .inr (h ▸ le_max_right a x)
      · exact .inl h
    · exact .inr (le_trans h (le_max_left a x))

theorem urcFuel_bound (i : Instance) (updates : List (GlobalId × CapMap)) :
    ∀ k ∈ keysOf updates, k < urcFuel i updates := by
  intro k hk
  exact Nat.lt_succ_of_le (le_foldl_max _ 0 k (.inl (List.mem_append_left _ hk)))

theorem urcSendFold_commands (cnet : List (GlobalId × CapMap))
    (hnil : ∀ p ∈ cnet, p.2 = ([] : CapMap)) :
    ∀ (acc : Instance × List GlobalId),
    (cnet.foldl urcSendStep acc).1.commands = acc.1.commands := by
  induction cnet with
  | nil => exact fun acc => rfl
  | cons p rest ih =>
    intro acc
    simp only [List.foldl_cons]
    rw [ih (fun q hq => hnil q (.tail _ hq))]
    have hp : p.2 = [] := hnil p (.head _)
    simp only [urcSendStep, hp]
    rcases hl : acc.1.collections.lookup p.1 with _ | coll
    · rfl
    · dsimp only
      by_cases hf : coll.readFrontier = none
      · rw [if_neg (by decide : ¬cbIsEmpty ([] : CapMap) = false), if_pos hf]
      · rw [if_neg (by decide : ¬cbIsEmpty ([] : CapMap) = false), if_neg hf]

theorem updateDropped_lookup_of_frontier (ids : List GlobalId) :
    ∀ (i : Instance) (k : GlobalId) (c : CollectionState),
    i.collections.lookup k = some c → c.readFrontier ≠ none →
    (updateDroppedCollections i ids).collections.lookup k = some c := by
  induction ids with
  | nil => exact fun i k c h _ => h
  | cons id rest ih =>
    intro i k c h hf
    have hstep : updateDroppedCollections i (id :: rest) = updateDroppedCollections
        (match i.collections.lookup id with
          | some cid =>
            if cid.readFrontier = none ∧ cid.replicaWriteFrontiers.all (fun p => p.2 = none) then
              { i with collections := aremove i.collections id }
            else i
          | none => i) rest := rfl
    rw [hstep]
    rcases hl : i.collections.lookup id with _ | cid
    · simp only [hl]
      exact ih i k c h hf
    · simp only [hl]
      by_cases hc : cid.readFrontier = none ∧
          cid.replicaWriteFrontiers.all (fun p => p.2 = none) = true
      · rw [if_pos hc]
        apply ih
        · show (aremove i.collections id).lookup k = some c
          have hk : k ≠ id := by
            intro he
            rw [he, hl] at h
            injection h with h
            exact hf (h ▸ hc.1)
          rw [lookup_aremove_ne _ _ _ hk]
          exact h
        · exact hf
      · rw [if_neg hc]
        exact ih i k c h hf

theorem map_scaps_nil (o : Option StorageCollection) :
    o.map (fun sc => { sc with readCapabilities := cbPush sc.readCapabilities [] }) = o := by
  cases o <;> rfl

/-- Applying all-empty change batches to storage collections changes no
lookup. -/
theorem storage_urc_nil_fold (updates : List (GlobalId × CapMap))
    (hnil : ∀ p ∈ updates, p.2 = ([] : CapMap)) :
    ∀ (cols : List (GlobalId × StorageCollection)) (k : GlobalId),
    (updates.foldl (fun cols p =>
      amodify cols p.1 (fun sc =>
        { sc with readCapabilities := cbPush sc.readCapabilities p.2 })) cols).lookup k =
      cols.lookup k := by
  induction updates with
  | nil => exact fun cols k => rfl
  | cons p rest ih =>
    intro cols k
    simp only [List.foldl_cons]
    rw [ih (fun q hq => hnil q (.tail _ hq))]
    have hp : p.2 = [] := hnil p (.head _)
    rw [hp]
    by_cases hk : k = p.1
    · subst hk
      rw [lookup_amodify_self, map_scaps_nil]
    · rw [lookup_amodify_ne _ _ _ _ hk]

theorem storage_urc_nil (updates : List (GlobalId × CapMap))
    (hnil : ∀ p ∈ updates, p.2 = ([] : CapMap)) (s : Storage) (k : GlobalId) :
    (s.updateReadCapabilities updates).collections.lookup k = s.collections.lookup k :=
  storage_urc_nil_fold updates hnil s.collections k

/-- `update_read_capabilities` under the loop invariant: commands are
unchanged (no `AllowCompaction`), every updated collection's accumulator
is extended by exactly its change batch (as long as its read frontier
stays nonempty), untouched collections with nonempty frontiers survive,
and the storage controller's collections are untouched. -/
theorem urc_apply (i : Instance) (storage : Storage) (updates : List (GlobalId × CapMap))
    (hdesc : DescDeps i) (hnodup : (keysOf updates).Nodup) (hinv : UrcInv i updates) :
    (update_read_capabilities i storage updates).1.commands = i.commands ∧
    (∀ k cb coll, updates.lookup k = some cb → i.collections.lookup k = some coll →
      capFrontier (cbPush coll.readCapabilities cb) ≠ none →
      (update_read_capabilities i storage updates).1.collections.lookup k =
        some { coll with readCapabilities := cbPush coll.readCapabilities cb }) ∧
    (∀ k coll, updates.lookup k = none → i.collections.lookup k = some coll →
      capFrontier coll.readCapabilities ≠ none →
      (update_read_capabilities i storage updates).1.collections.lookup k = some coll) ∧
    (∀ k, (update_read_capabilities i storage updates).2.collections.lookup k =
      storage.collections.lookup k) := by
  obtain ⟨i', stodo', extra, heq, hextra, hsrel, hmrel, hsome, hnone⟩ :=
    urcLoop_empty_changes (urcFuel i updates) i updates storage [] []
      hdesc hnodup (urcFuel_bound i updates) hinv
  have hstodo_nil : ∀ p ∈ stodo', p.2 = ([] : CapMap) := by
    intro p hp
    rcases hmrel p hp with ⟨q, hq, -, -⟩ | h
    · simp at hq
    · exact h
  unfold update_read_capabilities
  simp only [heq, List.nil_append]
  set r := extra.foldl urcSendStep (i', []) with hr
  have hcmd : r.1.commands = i'.commands := urcSendFold_commands extra hextra (i', [])
  obtain ⟨-, hcols, -, -, -, -⟩ := urcSendFold_preserves extra (i', [])
  have hcols' : r.1.collections = i'.collections := hcols
  obtain ⟨-, -, -, -, -, hicmd⟩ := urcLoop_preserves _ _ _ _ _ _ _ _ _ heq
  refine ⟨?_, ?_, ?_, ?_⟩
  · by_cases hd : r.2 ≠ []
    · rw [if_pos hd]
      exact ((updateDropped_preserves r.2 r.1).2.2.2.2.2).trans (hcmd.trans hicmd)
    · rw [if_neg hd]
      exact hcmd.trans hicmd
  · intro k cb coll hk hcoll hfr
    have hlk : r.1.collections.lookup k =
        some { coll with readCapabilities := cbPush coll.readCapabilities cb } := by
      rw [hcols']
      rw [hsome k cb hk, hcoll]
      rfl
    by_cases hd : r.2 ≠ []
    · rw [if_pos hd]
      exact updateDropped_lookup_of_frontier r.2 r.1 k _ hlk hfr
    · rw [if_neg hd]
      exact hlk
  · intro k coll hk hcoll hfr
    have hlk : r.1.collections.lookup k = some coll := by
      rw [hcols', hnone k hk]
      exact hcoll
    by_cases hd : r.2 ≠ []
    · rw [if_pos hd]
      exact updateDropped_lookup_of_frontier r.2 r.1 k _ hlk hfr
    · rw [if_neg hd]
      exact hlk
  · intro k
    by_cases hs : stodo' ≠ []
    · rw [if_pos hs]
      exact storage_urc_nil stodo' hstodo_nil storage k
    · rw [if_neg hs]

/-- Dropping a tracked peek removes it from the pending-peeks map (the
capability-release step never touches the map). -/
theorem remove_peek_peeks (i : Instance) (storage : Storage) (uuid : PeekUuid)
    (pk : PendingPeek) (h : i.peeks.lookup uuid = some pk) :
    (remove_peek i storage uuid).1.peeks = aremove i.peeks uuid := by
  unfold remove_peek
  simp only [h]
  cases ht : pk.target with
  | index id =>
    simp only [ht]
    exact ((urc_preserves _ _ _).2.1).trans rfl
  | persist id =>
    simp only [ht]
    rfl

/-- Claim C10: at most one controller response per peek uuid — a matching
`PeekResponse` (from the target replica of a targeted peek, from any
replica otherwise) removes the peek and is passed on; a response from a
non-target replica is ignored; an explicit cancellation removes the peek;
and once the uuid is no longer tracked, both `handle_peek_response` and
`cancel_peek` yield no response and leave the state unchanged. -/
theorem c10_at_most_one_peek_response (i : Instance) (storage : Storage)
    (uuid : PeekUuid) (response : PeekResponse) (replicaId : ReplicaId) :
    (∀ pk, i.peeks.lookup uuid = some pk → pk.targetReplica.getD replicaId = replicaId →
      (handle_peek_response i storage uuid response replicaId).1.1.peeks.lookup uuid = none ∧
      (handle_peek_response i storage uuid response replicaId).2 =
        some (.peekResponse uuid response)) ∧
    (∀ pk, i.peeks.lookup uuid = some pk → pk.targetReplica.getD replicaId ≠ replicaId →
      handle_peek_response i storage uuid response replicaId = ((i, storage), none)) ∧
    (∀ pk, i.peeks.lookup uuid = some pk →
      (cancel_peek i storage uuid).1.peeks.lookup uuid = none) ∧
    (i.peeks.lookup uuid = none →
      handle_peek_response i storage uuid response replicaId = ((i, storage), none)) ∧
    (i.peeks.lookup uuid = none → cancel_peek i storage uuid = (i, storage)) := by
  refine ⟨?_, ?_, ?_, ?_, ?_⟩
  · intro pk h htgt
    unfold handle_peek_response
    simp only [h]
    rw [if_neg (by simp [htgt])]
    constructor
    · show (remove_peek i storage uuid).1.peeks.lookup uuid = none
      rw [remove_peek_peeks i storage uuid pk h]
      exact lookup_aremove_self _ _
    · rfl
  · intro pk h htgt
    unfold handle_peek_response
    simp only [h]
    rw [if_pos htgt]
  · intro pk h
    unfold cancel_peek
    simp only [h]
    rw [remove_peek_peeks
      (i.deliverResponse (.peekResponse uuid .canceled)) storage uuid pk h]
    exact lookup_aremove_self _ _
  · intro h
    unfold handle_peek_response
    simp only [h]
  · intro h
    unfold cancel_peek
    simp only [h]

/-- The pending peek of the C10 witness scenario. -/
def c10Peek : PendingPeek := { target := .index 3, time := 4, targetReplica := some 1 }

/-- The instance of the C10 witness scenario: one tracked targeted peek. -/
def c10Inst : Instance :=
  { replicas := [1], collections := [], peeks := [(7, c10Peek)], subscribes := [],
    failedReplicas := [], responses := [], commands := [] }

/-- The empty storage controller of the C10 witness scenario. -/
def c10Storage : Storage := { collections := [] }

/-- Witness for C10: a tracked targeted peek answered by its target is
removed and passed on. -/
theorem c10_at_most_one_peek_response_witness :
    c10Inst.peeks.lookup 7 = some c10Peek ∧
    (handle_peek_response c10Inst c10Storage 7 (.rows ["r"]) 1).1.1.peeks.lookup 7 = none ∧
    (handle_peek_response c10Inst c10Storage 7 (.rows ["r"]) 1).2 =
      some (.peekResponse 7 (.rows ["r"])) := by
  refine ⟨rfl, ?_, ?_⟩
  · exact ((c10_at_most_one_peek_response c10Inst c10Storage 7 (.rows ["r"]) 1).1
      c10Peek rfl rfl).1
  · exact ((c10_at_most_one_peek_response c10Inst c10Storage 7 (.rows ["r"]) 1).1
      c10Peek rfl rfl).2

/-- A collection with a regressed report in its tracking, for exercising
the frontier-regression path. -/
def c6Coll : CollectionState :=
  { CollectionState.new (some 2) [] [] with
    writeFrontier := some 5
    replicaWriteFrontiers := [(1, some 5)] }

/-- An instance tracking `c6Coll` with one healthy replica. -/
def c6Inst : Instance :=
  { replicas := [1], collections := [(5, c6Coll)], peeks := [], subscribes := [],
    failedReplicas := [], responses := [], commands := [] }

/-- An empty storage controller for the C6 scenario. -/
def c6Storage : Storage := { collections := [] }

/-- Claim C6 (amended): a `FrontierUpper` for a tracked collection whose
frontier regresses what the replica previously reported is logged and
ignored — the instance (including its write-frontier tracking, read
capabilities, and failed-replica set) and the storage controller are left
completely unchanged, and no controller response is produced.  (The
controller does not mark the replica failed.) -/
theorem c6_frontier_regression (i : Instance) (storage : Storage) (id : GlobalId)
    (newFrontier : Frontier) (replicaId : ReplicaId) (coll : CollectionState) (old : Frontier)
    (hcoll : i.collections.lookup id = some coll)
    (hold : coll.replicaWriteFrontiers.lookup replicaId = some old)
    (hreg : fle old newFrontier = false) :
    handle_frontier_upper i storage id newFrontier replicaId = (i, storage) ∧
    (handle_response_frontier_upper i storage id newFrontier replicaId).2 = none := by
  have h1 : handle_frontier_upper i storage id newFrontier replicaId = (i, storage) := by
    unfold handle_frontier_upper
    simp only [hcoll, hold]
    rw [if_pos hreg]
  refine ⟨h1, ?_⟩
  unfold handle_response_frontier_upper
  simp only [h1, hcoll, Option.map_some']
  rw [if_neg (fun h => h rfl)]

/-- Witness for C6 (amended): the concrete regression from `some 5` to
`some 3` leaves everything unchanged and yields no response. -/
theorem c6_frontier_regression_witness :
    handle_frontier_upper c6Inst c6Storage 5 (some 3) 1 = (c6Inst, c6Storage) ∧
    (handle_response_frontier_upper c6Inst c6Storage 5 (some 3) 1).2 = none :=
  c6_frontier_regression c6Inst c6Storage 5 (some 3) 1 c6Coll (some 5)
    (by rfl) (by rfl) (by decide)

/-- Counterexample for C6 as stated: in the concrete regression scenario
the update is ignored and the state is unchanged, but the replica is NOT
marked failed — `failedReplicas` stays empty, refuting the claim's
"marks the replica failed" clause. -/
theorem c6_frontier_regression_counterexample :
    (c6Inst.collections.lookup 5 = some c6Coll ∧
      c6Coll.replicaWriteFrontiers.lookup 1 = some (some 5) ∧
      fle (some 5) (some 3) = false) ∧
    (handle_frontier_upper c6Inst c6Storage 5 (some 3) 1).1.failedReplicas = [] ∧
    ¬1 ∈ (handle_frontier_upper c6Inst c6Storage 5 (some 3) 1).1.failedReplicas := by
  refine ⟨⟨rfl, rfl, by decide⟩, ?_, ?_⟩ <;> decide

theorem remove_peek_preserves (i : Instance) (storage : Storage) (u : PeekUuid) :
    (remove_peek i storage u).1.replicas = i.replicas ∧
    (remove_peek i storage u).1.subscribes = i.subscribes ∧
    (remove_peek i storage u).1.failedReplicas = i.failedReplicas ∧
    (remove_peek i storage u).1.responses = i.responses := by
  unfold remove_peek
  rcases i.peeks.lookup u with _ | pk
  · exact ⟨rfl, rfl, rfl, rfl⟩
  · dsimp only
    cases ht : pk.target with
    | index tid =>
      simp only [ht]
      exact ⟨((urc_preserves _ _ _).1).trans rfl, ((urc_preserves _ _ _).2.2.1).trans rfl,
        ((urc_preserves _ _ _).2.2.2.1).trans rfl, ((urc_preserves _ _ _).2.2.2.2).trans rfl⟩
    | persist tid =>
      simp only [ht]
      exact ⟨rfl, rfl, rfl, rfl⟩

theorem remove_peek_peeks_lookup_none (i : Instance) (storage : Storage) (u v : PeekUuid)
    (h : i.peeks.lookup v = none) : (remove_peek i storage u).1.peeks.lookup v = none := by
  rcases hl : i.peeks.lookup u with _ | pk
  · unfold remove_peek
    simp only [hl]
    exact h
  · rw [remove_peek_peeks i storage u pk hl]
    by_cases hv : v = u
    · subst hv
      exact lookup_aremove_self _ _
    · rw [lookup_aremove_ne _ _ _ hv]
      exact h

theorem remove_peek_self_none (i : Instance) (storage : Storage) (u : PeekUuid) :
    (remove_peek i storage u).1.peeks.lookup u = none := by
  rcases hl : i.peeks.lookup u with _ | pk
  · unfold remove_peek
    simp only [hl]
  · rw [remove_peek_peeks i storage u pk hl]
    exact lookup_aremove_self _ _

theorem rrSubStep_subs_lookup_ne (i : Instance) (d sid : GlobalId) (h : sid ≠ d) :
    (rrSubStep i d).subscribes.lookup sid = i.subscribes.lookup sid := by
  unfold rrSubStep
  rcases i.subscribes.lookup d with _ | sub
  · rfl
  · show (aremove i.subscribes d).lookup sid = _
    exact lookup_aremove_ne _ _ _ h

theorem rrSubStep_peeks (i : Instance) (d : GlobalId) : (rrSubStep i d).peeks = i.peeks := by
  unfold rrSubStep
  rcases i.subscribes.lookup d with _ | sub <;> rfl

theorem rrSubFold_peeks (toDrop : List GlobalId) :
    ∀ (i : Instance), (toDrop.foldl rrSubStep i).peeks = i.peeks := by
  induction toDrop with
  | nil => exact fun i => rfl
  | cons d rs ih =>
    intro i
    simp only [List.foldl_cons]
    exact (ih (rrSubStep i d)).trans (rrSubStep_peeks i d)

theorem rrSubFold_none (rest : List GlobalId) :
    ∀ (i : Instance) (sid : GlobalId), i.subscribes.lookup sid = none →
    (rest.foldl rrSubStep i).subscribes.lookup sid = none := by
  induction rest with
  | nil => exact fun i sid h => h
  | cons d rs ih =>
    intro i sid h
    simp only [List.foldl_cons]
    apply ih
    by_cases hd : sid = d
    · subst hd
      unfold rrSubStep
      simp only [h]
    · rw [rrSubStep_subs_lookup_ne i d sid hd]
      exact h

theorem rrSubFold_resp_mono (rest : List GlobalId) :
    ∀ (i : Instance) (x : ComputeControllerResponse), x ∈ i.responses →
    x ∈ (rest.foldl rrSubStep i).responses := by
  induction rest with
  | nil => exact fun i x h => h
  | cons d rs ih =>
    intro i x h
    simp only [List.foldl_cons]
    apply ih
    unfold rrSubStep
    rcases i.subscribes.lookup d with _ | sub
    · exact h
    · show x ∈ i.responses ++ [_]
      exact List.mem_append_left _ h

theorem rrSubFold_removes (toDrop : List GlobalId) :
    ∀ (i : Instance) (sid : GlobalId) (sub : ActiveSubscribe),
    i.subscribes.lookup sid = some sub → sid ∈ toDrop →
    (toDrop.foldl rrSubStep i).subscribes.lookup sid = none ∧
    (ComputeControllerResponse.subscribeResponse sid
      { lower := sub.frontier, upper := sub.frontier,
        updates := .error "target replica failed or was dropped" }) ∈
      (toDrop.foldl rrSubStep i).responses := by
  induction toDrop with
  | nil =>
    intro i sid sub h hmem
    simp at hmem
  | cons d rest ih =>
    intro i sid sub h hmem
    simp only [List.foldl_cons]
    by_cases hd : d = sid
    · subst hd
      have hsubs : (rrSubStep i d).subscribes = aremove i.subscribes d := by
        unfold rrSubStep
        simp only [h]
        rfl
      have hresp : (rrSubStep i d).responses = i.responses ++
          [ComputeControllerResponse.subscribeResponse d
            { lower := sub.frontier, upper := sub.frontier,
              updates := .error "target replica failed or was dropped" }] := by
        unfold rrSubStep
        simp only [h]
        rfl
      constructor
      · apply rrSubFold_none
        rw [hsubs]
        exact lookup_aremove_self _ _
      · apply rrSubFold_resp_mono
        rw [hresp]
        exact List.mem_append_right _ (.head _)
    · have hstep : (rrSubStep i d).subscribes.lookup sid = some sub := by
        rw [rrSubStep_subs_lookup_ne i d sid (fun he => hd he.symm)]
        exact h
      have hmem' : sid ∈ rest := by
        rcases List.mem_cons.mp hmem with hm | hm
        · exact absurd hm.symm hd
        · exact hm
      exact ih (rrSubStep i d) sid sub hstep hmem'

theorem rrPeekErrFold_subs (us : List PeekUuid) :
    ∀ (i : Instance), (us.foldl rrPeekErrStep i).subscribes = i.subscribes := by
  induction us with
  | nil => exact fun i => rfl
  | cons v rs ih =>
    intro i
    simp only [List.foldl_cons]
    exact (ih (rrPeekErrStep i v)).trans rfl

theorem rrPeekErrFold_peeks (us : List PeekUuid) :
    ∀ (i : Instance), (us.foldl rrPeekErrStep i).peeks = i.peeks := by
  induction us with
  | nil => exact fun i => rfl
  | cons v rs ih =>
    intro i
    simp only [List.foldl_cons]
    exact (ih (rrPeekErrStep i v)).trans rfl

theorem rrPeekErrFold_resp_mono (us : List PeekUuid) :
    ∀ (i : Instance) (x : ComputeControllerResponse), x ∈ i.responses →
    x ∈ (us.foldl rrPeekErrStep i).responses := by
  induction us with
  | nil => exact fun i x h => h
  | cons v rs ih =>
    intro i x h
    simp only [List.foldl_cons]
    apply ih
    show x ∈ i.responses ++ [_]
    exact List.mem_append_left _ h

theorem rrPeekErrFold_resp_mem (us : List PeekUuid) :
    ∀ (i : Instance) (u : PeekUuid), u ∈ us →
    (ComputeControllerResponse.peekResponse u
      (.error "target replica failed or was dropped")) ∈
      (us.foldl rrPeekErrStep i).responses := by
  induction us with
  | nil =>
    intro i u h
    simp at h
  | cons v rs ih =>
    intro i u h
    simp only [List.foldl_cons]
    rcases List.mem_cons.mp h with hm | hm
    · subst hm
      apply rrPeekErrFold_resp_mono
      show _ ∈ i.responses ++ [_]
      exact List.mem_append_right _ (.head _)
    · exact ih _ u hm

theorem rrRemovePeekFold_subs (us : List PeekUuid) :
    ∀ (acc : Instance × Storage),
    (us.foldl rrRemovePeekStep acc).1.subscribes = acc.1.subscribes := by
  induction us with
  | nil => exact fun acc => rfl
  | cons v rs ih =>
    intro acc
    simp only [List.foldl_cons]
    exact (ih (rrRemovePeekStep acc v)).trans
      (remove_peek_preserves acc.1 acc.2 v).2.1

theorem rrRemovePeekFold_resp_mono (us : List PeekUuid) :
    ∀ (acc : Instance × Storage) (x : ComputeControllerResponse), x ∈ acc.1.responses →
    x ∈ (us.foldl rrRemovePeekStep acc).1.responses := by
  induction us with
  | nil => exact fun acc x h => h
  | cons v rs ih =>
    intro acc x h
    simp only [List.foldl_cons]
    apply ih
    show x ∈ (remove_peek acc.1 acc.2 v).1.responses
    rw [(remove_peek_preserves acc.1 acc.2 v).2.2.2]
    exact h

theorem rrRemovePeekFold_none (us : List PeekUuid) :
    ∀ (acc : Instance × Storage) (u : PeekUuid), acc.1.peeks.lookup u = none →
    (us.foldl rrRemovePeekStep acc).1.peeks.lookup u = none := by
  induction us with
  | nil => exact fun acc u h => h
  | cons v rs ih =>
    intro acc u h
    simp only [List.foldl_cons]
    exact ih _ u (remove_peek_peeks_lookup_none acc.1 acc.2 v u h)

theorem rrRemovePeekFold_removes (us : List PeekUuid) :
    ∀ (acc : Instance × Storage) (u : PeekUuid), u ∈ us →
    (us.foldl rrRemovePeekStep acc).1.peeks.lookup u = none := by
  induction us with
  | nil =>
    intro acc u h
    simp at h
  | cons v rs ih =>
    intro acc u h
    simp only [List.foldl_cons]
    by_cases hv : u = v
    · subst hv
      exact rrRemovePeekFold_none rs _ u (remove_peek_self_none acc.1 acc.2 u)
    · rcases List.mem_cons.mp h with hm | hm
      · exact absurd hm hv
      · exact ih _ u hm

theorem rwf_preserves (i : Instance) (storage : Storage) (replicaId : ReplicaId) :
    (remove_write_frontiers i storage replicaId).1.replicas = i.replicas ∧
    (remove_write_frontiers i storage replicaId).1.peeks = i.peeks ∧
    (remove_write_frontiers i storage replicaId).1.subscribes = i.subscribes ∧
    (remove_write_frontiers i storage replicaId).1.failedReplicas = i.failedReplicas ∧
    (remove_write_frontiers i storage replicaId).1.responses = i.responses ∧
    (remove_write_frontiers i storage replicaId).1.commands = i.commands := by
  unfold remove_write_frontiers
  dsimp only
  by_cases hd : (i.collections.foldl (rwfHoldStep replicaId) ([], [])).2 ≠ []
  · rw [if_pos hd]
    exact ⟨((updateDropped_preserves _ _).1).trans rfl,
      ((updateDropped_preserves _ _).2.1).trans rfl,
      ((updateDropped_preserves _ _).2.2.1).trans rfl,
      ((updateDropped_preserves _ _).2.2.2.1).trans rfl,
      ((updateDropped_preserves _ _).2.2.2.2.1).trans rfl,
      ((updateDropped_preserves _ _).2.2.2.2.2).trans rfl⟩
  · rw [if_neg hd]
    exact ⟨rfl, rfl, rfl, rfl, rfl, rfl⟩

/-- Claim C8: removing a replica delivers to every subscribe targeting it
a batch with `lower = upper = frontier` and the error "target replica
failed or was dropped", removing the subscribe from the subscribes map;
every peek targeting it receives the same message as a
`PeekResponse::Error` and is removed from the pending peeks. -/
theorem c8_remove_replica (i : Instance) (storage : Storage) (id : ReplicaId)
    (hid : id ∈ i.replicas) :
    ∃ i' s', remove_replica i storage id = .ok (i', s') ∧
    (∀ sid sub, i.subscribes.lookup sid = some sub → sub.targetReplica = some id →
      i'.subscribes.lookup sid = none ∧
      (ComputeControllerResponse.subscribeResponse sid
        { lower := sub.frontier, upper := sub.frontier,
          updates := .error "target replica failed or was dropped" }) ∈ i'.responses) ∧
    (∀ u pk, i.peeks.lookup u = some pk → pk.targetReplica = some id →
      i'.peeks.lookup u = none ∧
      (ComputeControllerResponse.peekResponse u
        (.error "target replica failed or was dropped")) ∈ i'.responses) := by
  unfold remove_replica
  rw [if_pos hid]
  rcases hrw : remove_write_frontiers { i with replicas := i.replicas.erase id, failedReplicas := i.failedReplicas.erase id } storage id with ⟨i1, s1⟩
  simp only [hrw]
  have hsub1 : i1.subscribes = i.subscribes := by
    have hp := (rwf_preserves { i with replicas := i.replicas.erase id, failedReplicas := i.failedReplicas.erase id } storage id).2.2.1
    rw [hrw] at hp
    exact hp.trans rfl
  have hpk1 : i1.peeks = i.peeks := by
    have hp := (rwf_preserves { i with replicas := i.replicas.erase id, failedReplicas := i.failedReplicas.erase id } storage id).2.1
    rw [hrw] at hp
    exact hp.trans rfl
  set toDrop := (i1.subscribes.filter (fun p => p.2.targetReplica = some id)).map Prod.fst
    with htd
  set i2 := toDrop.foldl rrSubStep i1 with hi2
  set peekUuids := (i2.peeks.filter (fun p => p.2.targetReplica = some id)).map Prod.fst
    with hpu
  set i3 := peekUuids.foldl rrPeekErrStep i2 with hi3
  set r := peekUuids.foldl rrRemovePeekStep (i3, s1) with hrr
  have hp2 : i2.peeks = i.peeks := by
    rw [hi2]
    exact (rrSubFold_peeks toDrop i1).trans hpk1
  refine ⟨r.1, r.2, rfl, ?_, ?_⟩
  · intro sid sub hsub htgt
    have hs1 : i1.subscribes.lookup sid = some sub := by
      rw [hsub1]
      exact hsub
    have hmemDrop : sid ∈ toDrop := by
      rw [htd]
      simp only [List.mem_map]
      refine ⟨(sid, sub), ?_, rfl⟩
      rw [List.mem_filter]
      exact ⟨lookup_some_mem hs1, by simp [htgt]⟩
    obtain ⟨hnone2, hresp2⟩ := rrSubFold_removes toDrop i1 sid sub hs1 hmemDrop
    constructor
    · have e1 : r.1.subscribes = i3.subscribes := by
        rw [hrr]
        exact rrRemovePeekFold_subs peekUuids (i3, s1)
      have e2 : i3.subscribes = i2.subscribes := by
        rw [hi3]
        exact rrPeekErrFold_subs peekUuids i2
      rw [e1, e2, hi2]
      exact hnone2
    · have m1 : (ComputeControllerResponse.subscribeResponse sid
          { lower := sub.frontier, upper := sub.frontier,
            updates := .error "target replica failed or was dropped" }) ∈ i3.responses := by
        rw [hi3]
        apply rrPeekErrFold_resp_mono
        rw [hi2]
        exact hresp2
      rw [hrr]
      exact rrRemovePeekFold_resp_mono peekUuids (i3, s1) _ m1
  · intro u pk hpk htgt
    have humem : u ∈ peekUuids := by
      rw [hpu]
      simp only [List.mem_map]
      refine ⟨(u, pk), ?_, rfl⟩
      rw [List.mem_filter]
      refine ⟨?_, by simp [htgt]⟩
      have : i2.peeks.lookup u = some pk := by
        rw [hp2]
        exact hpk
      exact lookup_some_mem this
    constructor
    · rw [hrr]
      exact rrRemovePeekFold_removes peekUuids (i3, s1) u humem
    · have m1 : (ComputeControllerResponse.peekResponse u
          (.error "target replica failed or was dropped")) ∈ i3.responses := by
        rw [hi3]
        exact rrPeekErrFold_resp_mem peekUuids i2 u humem
      rw [hrr]
      exact rrRemovePeekFold_resp_mono peekUuids (i3, s1) _ m1

/-- The targeted subscribe of the C8 witness scenario. -/
def c8Sub : ActiveSubscribe := { frontier := some 4, targetReplica := some 1 }

/-- The targeted pending peek of the C8 witness scenario. -/
def c8Peek : PendingPeek := { target := .persist 3, time := 4, targetReplica := some 1 }

/-- The instance of the C8 witness scenario. -/
def c8Inst : Instance :=
  { replicas := [1, 2], collections := [], peeks := [(9, c8Peek)], subscribes := [(7, c8Sub)],
    failedReplicas := [], responses := [], commands := [] }

/-- Witness for C8: removing replica 1 drops the targeted subscribe and
peek and delivers both error responses. -/
theorem c8_remove_replica_witness :
    (1 ∈ c8Inst.replicas ∧ c8Inst.subscribes.lookup 7 = some c8Sub ∧
      c8Inst.peeks.lookup 9 = some c8Peek) ∧
    ∃ i' s', remove_replica c8Inst { collections := [] } 1 = .ok (i', s') ∧
      i'.subscribes.lookup 7 = none ∧
      (ComputeControllerResponse.subscribeResponse 7
        { lower := some 4, upper := some 4,
          updates := .error "target replica failed or was dropped" }) ∈ i'.responses ∧
      i'.peeks.lookup 9 = none ∧
      (ComputeControllerResponse.peekResponse 9
        (.error "target replica failed or was dropped")) ∈ i'.responses := by
  refine ⟨⟨by decide, rfl, rfl⟩, ?_⟩
  obtain ⟨i', s', heq, hsubs, hpeeks⟩ :=
    c8_remove_replica c8Inst { collections := [] } 1 (by decide)
  obtain ⟨h1, h2⟩ := hsubs 7 c8Sub rfl rfl
  obtain ⟨h3, h4⟩ := hpeeks 9 c8Peek rfl rfl
  exact ⟨i', s', heq, h1, h2, h3, h4⟩

/-- Claim C7: a peek whose timestamp is not at or beyond the target's
since (read-capability frontier for index targets, implied capability for
persist targets) fails with `SinceViolation`; a missing target replica
fails with `ReplicaMissing` for both target kinds; otherwise — the peek
is untargeted, or targeted at an existing replica — it succeeds, installs
a `+1` read-capability hold on the target at the peek timestamp,
registers the pending peek (with its target replica), and sends the
`Peek` command. -/
theorem c7_peek_contract (i : Instance) (storage : Storage) (id : GlobalId)
    (uuid : PeekUuid) (timestamp : Nat) (targetReplica : Option ReplicaId) :
    (∀ coll, i.collections.lookup id = some coll →
      felemLe (capFrontier coll.readCapabilities) timestamp = false →
      peek i storage id uuid timestamp targetReplica (.index id) =
        .error (.sinceViolation id)) ∧
    (∀ sc, storage.collections.lookup id = some sc →
      felemLe sc.impliedCapability timestamp = false →
      peek i storage id uuid timestamp targetReplica (.persist id) =
        .error (.sinceViolation id)) ∧
    (∀ coll t, i.collections.lookup id = some coll →
      felemLe (capFrontier coll.readCapabilities) timestamp = true →
      targetReplica = some t → t ∉ i.replicas →
      peek i storage id uuid timestamp targetReplica (.index id) =
        .error (.replicaMissing t)) ∧
    (∀ sc t, storage.collections.lookup id = some sc →
      felemLe sc.impliedCapability timestamp = true →
      targetReplica = some t → t ∉ i.replicas →
      peek i storage id uuid timestamp targetReplica (.persist id) =
        .error (.replicaMissing t)) ∧
    (∀ coll, DescDeps i → i.collections.lookup id = some coll →
      felemLe (capFrontier coll.readCapabilities) timestamp = true →
      (∀ t, targetReplica = some t → t ∈ i.replicas) →
      ∃ i' s', peek i storage id uuid timestamp targetReplica (.index id) = .ok (i', s') ∧
        i'.peeks.lookup uuid =
          some { target := .index id, time := timestamp, targetReplica := targetReplica } ∧
        i'.collections.lookup id = some { coll with
          readCapabilities := cbPush coll.readCapabilities [(timestamp, 1)] } ∧
        i'.commands = i.commands ++ [.peekCmd uuid id timestamp] ∧
        (∀ k, s'.collections.lookup k = storage.collections.lookup k)) ∧
    (∀ sc, storage.collections.lookup id = some sc →
      felemLe sc.impliedCapability timestamp = true →
      (∀ t, targetReplica = some t → t ∈ i.replicas) →
      ∃ i' s', peek i storage id uuid timestamp targetReplica (.persist id) = .ok (i', s') ∧
        i'.peeks.lookup uuid =
          some { target := .persist id, time := timestamp, targetReplica := targetReplica } ∧
        s'.collections.lookup id = some { sc with
          readCapabilities := cbPush sc.readCapabilities [(timestamp, 1)] } ∧
        i'.commands = i.commands ++ [.peekCmd uuid id timestamp]) := by
  refine ⟨?_, ?_, ?_, ?_, ?_, ?_⟩
  · intro coll hcoll hsv
    unfold peek
    simp only [hcoll]
    rw [if_pos hsv]
  · intro sc hsc hsv
    unfold peek
    simp only [hsc]
    rw [if_pos hsv]
  · intro coll t hcoll hsince htr hnot
    unfold peek
    simp only [hcoll, htr]
    rw [if_neg (by simp [hsince]), if_neg hnot]
  · intro sc t hsc hsince htr hnot
    unfold peek
    simp only [hsc, htr]
    rw [if_neg (by simp [hsince]), if_neg hnot]
  · intro coll hdesc hcoll hsince htr
    have hfr : capFrontier coll.readCapabilities ≠ none := by
      intro h
      rw [h] at hsince
      simp [felemLe] at hsince
    have hpos : ∀ p ∈ ([(timestamp, (1 : Int))] : CapMap), 0 ≤ p.2 := by
      intro p hp
      simp only [List.mem_singleton] at hp
      rw [hp]
      show (0 : Int) ≤ 1
      decide
    have hge : ∀ p ∈ ([(timestamp, (1 : Int))] : CapMap),
        felemLe (capFrontier coll.readCapabilities) p.1 = true := by
      intro p hp
      simp only [List.mem_singleton] at hp
      rw [hp]
      exact hsince
    have hinv : UrcInv i [(id, [(timestamp, (1 : Int))])] := by
      intro p hp
      simp only [List.mem_singleton] at hp
      rw [hp]
      exact ⟨hpos, .inl ⟨coll, hcoll, hge⟩⟩
    obtain ⟨hcmd, hsome, hnone, hstor⟩ :=
      urc_apply i storage [(id, [(timestamp, (1 : Int))])] hdesc (by simp [keysOf]) hinv
    have hext : (update_read_capabilities i storage
        [(id, [(timestamp, (1 : Int))])]).1.collections.lookup id =
        some { coll with readCapabilities := cbPush coll.readCapabilities [(timestamp, 1)] } := by
      apply hsome id [(timestamp, (1 : Int))] coll (lookup_cons_self _ _ _ rfl) hcoll
      rw [capFrontier_cbPush_ge hpos hge]
      exact hfr
    unfold peek
    simp only [hcoll]
    rw [if_neg (by simp [hsince])]
    cases htarget : targetReplica with
    | none =>
      refine ⟨_, _, rfl, ?_, ?_, ?_, ?_⟩
      · exact lookup_aput_self _ _ _
      · exact hext
      · show (update_read_capabilities i storage
          [(id, [(timestamp, (1 : Int))])]).1.commands ++ [ComputeCommand.peekCmd uuid id timestamp] =
          i.commands ++ [ComputeCommand.peekCmd uuid id timestamp]
        rw [hcmd]
      · exact hstor
    | some t =>
      have hmem := htr t htarget
      dsimp only
      rw [if_pos hmem]
      refine ⟨_, _, rfl, ?_, ?_, ?_, ?_⟩
      · exact lookup_aput_self _ _ _
      · exact hext
      · show (update_read_capabilities i storage
          [(id, [(timestamp, (1 : Int))])]).1.commands ++ [ComputeCommand.peekCmd uuid id timestamp] =
          i.commands ++ [ComputeCommand.peekCmd uuid id timestamp]
        rw [hcmd]
      · exact hstor
  · intro sc hsc hsince htr
    unfold peek
    simp only [hsc]
    rw [if_neg (by simp [hsince])]
    cases htarget : targetReplica with
    | none =>
      refine ⟨_, _, rfl, ?_, ?_, ?_⟩
      · exact lookup_aput_self _ _ _
      · show (Storage.updateReadCapabilities storage
          [(id, [(timestamp, (1 : Int))])]).collections.lookup id = _
        unfold Storage.updateReadCapabilities
        simp only [List.foldl_cons, List.foldl_nil]
        rw [lookup_amodify_self, hsc]
        rfl
      · rfl
    | some t =>
      have hmem := htr t htarget
      dsimp only
      rw [if_pos hmem]
      refine ⟨_, _, rfl, ?_, ?_, ?_⟩
      · exact lookup_aput_self _ _ _
      · show (Storage.updateReadCapabilities storage
          [(id, [(timestamp, (1 : Int))])]).collections.lookup id = _
        unfold Storage.updateReadCapabilities
        simp only [List.foldl_cons, List.foldl_nil]
        rw [lookup_amodify_self, hsc]
        rfl
      · rfl

/-- The collection of the C7 witness scenario: since `{2}`. -/
def c7Coll : CollectionState := CollectionState.new (some 2) [] []

/-- The instance of the C7 witness scenario. -/
def c7Inst : Instance :=
  { replicas := [1], collections := [(5, c7Coll)], peeks := [], subscribes := [],
    failedReplicas := [], responses := [], commands := [] }

/-- The persist-backed collection of the C7 witness scenario: implied
capability `{3}`. -/
def c7SC : StorageCollection :=
  { readCapabilities := [(3, 1)], impliedCapability := some 3, writeFrontier := some 3 }

/-- The storage controller of the C7 witness scenario. -/
def c7Storage : Storage := { collections := [(10, c7SC)] }

/-- Witness for C7: peeking index 5 (since `{2}`) at timestamp 1 is a
since violation; a persist peek of collection 10 targeted at the absent
replica 2 is a replica-missing error; an index peek at timestamp 4
targeted at the existing replica 1 succeeds, installs the hold, registers
the peek with its target replica, and sends the command; an untargeted
persist peek of collection 10 succeeds and installs the hold on the
storage collection. -/
theorem c7_peek_contract_witness :
    (c7Inst.collections.lookup 5 = some c7Coll ∧
      felemLe (capFrontier c7Coll.readCapabilities) 1 = false ∧
      peek c7Inst c7Storage 5 11 1 none (.index 5) = .error (.sinceViolation 5)) ∧
    (felemLe c7SC.impliedCapability 4 = true ∧ (2 : ReplicaId) ∉ c7Inst.replicas ∧
      peek c7Inst c7Storage 10 12 4 (some 2) (.persist 10) = .error (.replicaMissing 2)) ∧
    (felemLe (capFrontier c7Coll.readCapabilities) 4 = true ∧
      (1 : ReplicaId) ∈ c7Inst.replicas ∧
      ∃ i' s', peek c7Inst c7Storage 5 11 4 (some 1) (.index 5) = .ok (i', s') ∧
        i'.peeks.lookup 11 = some { target := .index 5, time := 4, targetReplica := some 1 } ∧
        i'.collections.lookup 5 = some { c7Coll with
          readCapabilities := cbPush c7Coll.readCapabilities [(4, 1)] } ∧
        i'.commands = c7Inst.commands ++ [.peekCmd 11 5 4]) ∧
    (∃ i' s', peek c7Inst c7Storage 10 13 4 none (.persist 10) = .ok (i', s') ∧
      i'.peeks.lookup 13 = some { target := .persist 10, time := 4, targetReplica := none } ∧
      s'.collections.lookup 10 = some { c7SC with
        readCapabilities := cbPush c7SC.readCapabilities [(4, 1)] }) := by
  have hdesc : DescDeps c7Inst := by
    intro k coll hk d hd
    have hm := lookup_some_mem hk
    simp only [c7Inst, List.mem_singleton, Prod.mk.injEq] at hm
    rw [hm.2] at hd
    simp [c7Coll, CollectionState.new] at hd
  refine ⟨?_, ?_, ?_, ?_⟩
  · exact ⟨rfl, by decide,
      (c7_peek_contract c7Inst c7Storage 5 11 1 none).1 c7Coll rfl (by decide)⟩
  · exact ⟨by decide, by decide,
      (c7_peek_contract c7Inst c7Storage 10 12 4 (some 2)).2.2.2.1 c7SC 2 rfl
        (by decide) rfl (by decide)⟩
  · refine ⟨by decide, by decide, ?_⟩
    obtain ⟨i', s', heq, hpeeks, hcolls, hcmds, -⟩ :=
      (c7_peek_contract c7Inst c7Storage 5 11 4 (some 1)).2.2.2.2.1 c7Coll hdesc rfl
        (by decide) (fun t ht => by injection ht with h; rw [← h]; decide)
    exact ⟨i', s', heq, hpeeks, hcolls, hcmds⟩
  · obtain ⟨i', s', heq, hpeeks, hsc, -⟩ :=
      (c7_peek_contract c7Inst c7Storage 10 13 4 none).2.2.2.2.2 c7SC rfl
        (by decide) (fun t ht => nomatch ht)
    exact ⟨i', s', heq, hpeeks, hsc⟩

theorem validateSources_error_inv (storage : Storage) (asOf : Frontier) :
    ∀ (l : List GlobalId) (er : DataflowCreationError),
    validateSources storage asOf l = .error er →
    (∃ s ∈ l, storage.collections.lookup s = none ∧ er = .collectionMissing s) ∨
    (∃ s ∈ l, ∃ sc, storage.collections.lookup s = some sc ∧
      fle (capFrontier sc.readCapabilities) asOf = false ∧ er = .sinceViolation s) := by
  intro l
  induction l with
  | nil =>
    intro er h
    simp [validateSources] at h
  | cons s rest ih =>
    intro er h
    unfold validateSources at h
    rcases hl : storage.collections.lookup s with _ | sc
    · simp only [hl] at h
      injection h with h
      exact .inl ⟨s, .head _, hl, by rw [h]⟩
    · simp only [hl] at h
      by_cases hf : fle (capFrontier sc.readCapabilities) asOf = false
      · rw [if_pos hf] at h
        injection h with h
        exact .inr ⟨s, .head _, sc, hl, hf, by rw [h]⟩
      · rw [if_neg hf] at h
        rcases hv : validateSources storage asOf rest with er2 | ok2
        · rw [hv] at h
          injection h with h
          subst h
          rcases ih er2 hv with ⟨s2, hm, h1, h2⟩ | ⟨s2, hm, sc2, h1, h2, h3⟩
          · exact .inl ⟨s2, .tail _ hm, h1, h2⟩
          · exact .inr ⟨s2, .tail _ hm, sc2, h1, h2, h3⟩
        · rw [hv] at h
          rcases ok2 with ⟨deps, j⟩
          exact absurd h (by simp)

theorem validateSources_ok_inv (storage : Storage) (asOf : Frontier) :
    ∀ (l : List GlobalId) (deps : List GlobalId) (j : Frontier),
    validateSources storage asOf l = .ok (deps, j) →
    deps = l ∧ (∀ a, asOf = some a → ∃ jv, j = some jv) ∧
    (∀ s ∈ l, ∃ sc, storage.collections.lookup s = some sc ∧
      fle (capFrontier sc.readCapabilities) asOf = true) := by
  intro l
  induction l with
  | nil =>
    intro deps j h
    unfold validateSources at h
    injection h with h
    simp only [Prod.mk.injEq] at h
    exact ⟨h.1.symm, fun a _ => ⟨0, h.2.symm⟩, by simp⟩
  | cons s rest ih =>
    intro deps j h
    unfold validateSources at h
    rcases hl : storage.collections.lookup s with _ | sc
    · simp only [hl] at h
      exact absurd h (by simp)
    · simp only [hl] at h
      by_cases hf : fle (capFrontier sc.readCapabilities) asOf = false
      · rw [if_pos hf] at h
        exact absurd h (by simp)
      · rw [if_neg hf] at h
        rcases hv : validateSources storage asOf rest with er2 | ⟨deps2, j2⟩
        · rw [hv] at h
          exact absurd h (by simp)
        · rw [hv] at h
          injection h with h
          simp only [Prod.mk.injEq] at h
          obtain ⟨hdeps, hj⟩ := h
          obtain ⟨hdeps2, hsomej, hall⟩ := ih deps2 j2 hv
          refine ⟨by rw [← hdeps, hdeps2], ?_, ?_⟩
          · intro a ha
            obtain ⟨jv2, hjv2⟩ := hsomej a ha
            rcases hcf : capFrontier sc.readCapabilities with _ | m
            · rw [hcf, ha] at hf
              exact absurd (by rfl : fle none (some a) = false) hf
            · exact ⟨max m jv2, by rw [← hj, hcf, hjv2]; rfl⟩
          · intro s2 hs2
            rcases List.mem_cons.mp hs2 with hm | hm
            · exact ⟨sc, hm ▸ hl, by simpa using hf⟩
            · exact hall s2 hm

theorem validateIndexes_error_inv (i : Instance) (asOf : Frontier) :
    ∀ (l : List GlobalId) (er : DataflowCreationError),
    validateIndexes i asOf l = .error er →
    (∃ ix ∈ l, i.collections.lookup ix = none ∧ er = .collectionMissing ix) ∨
    (∃ ix ∈ l, ∃ coll, i.collections.lookup ix = some coll ∧
      fle (capFrontier coll.readCapabilities) asOf = false ∧ er = .sinceViolation ix) := by
  intro l
  induction l with
  | nil =>
    intro er h
    simp [validateIndexes] at h
  | cons ix rest ih =>
    intro er h
    unfold validateIndexes at h
    rcases hl : i.collections.lookup ix with _ | coll
    · simp only [hl] at h
      injection h with h
      exact .inl ⟨ix, .head _, hl, by rw [h]⟩
    · simp only [hl] at h
      by_cases hf : fle (capFrontier coll.readCapabilities) asOf = false
      · rw [if_pos hf] at h
        injection h with h
        exact .inr ⟨ix, .head _, coll, hl, hf, by rw [h]⟩
      · rw [if_neg hf] at h
        rcases hv : validateIndexes i asOf rest with er2 | ok2
        · rw [hv] at h
          injection h with h
          subst h
          rcases ih er2 hv with ⟨s2, hm, h1, h2⟩ | ⟨s2, hm, sc2, h1, h2, h3⟩
          · exact .inl ⟨s2, .tail _ hm, h1, h2⟩
          · exact .inr ⟨s2, .tail _ hm, sc2, h1, h2, h3⟩
        · rw [hv] at h
          rcases ok2 with ⟨deps, j⟩
          exact absurd h (by simp)

theorem validateIndexes_ok_inv (i : Instance) (asOf : Frontier) :
    ∀ (l : List GlobalId) (deps : List GlobalId) (j : Frontier),
    validateIndexes i asOf l = .ok (deps, j) →
    deps = l ∧ (∀ a, asOf = some a → ∃ jv, j = some jv) ∧
    (∀ ix ∈ l, ∃ coll, i.collections.lookup ix = some coll ∧
      fle (capFrontier coll.readCapabilities) asOf = true) := by
  intro l
  induction l with
  | nil =>
    intro deps j h
    unfold validateIndexes at h
    injection h with h
    simp only [Prod.mk.injEq] at h
    exact ⟨h.1.symm, fun a _ => ⟨0, h.2.symm⟩, by simp⟩
  | cons ix rest ih =>
    intro deps j h
    unfold validateIndexes at h
    rcases hl : i.collections.lookup ix with _ | coll
    · simp only [hl] at h
      exact absurd h (by simp)
    · simp only [hl] at h
      by_cases hf : fle (capFrontier coll.readCapabilities) asOf = false
      · rw [if_pos hf] at h
        exact absurd h (by simp)
      · rw [if_neg hf] at h
        rcases hv : validateIndexes i asOf rest with er2 | ⟨deps2, j2⟩
        · rw [hv] at h
          exact absurd h (by simp)
        · rw [hv] at h
          injection h with h
          simp only [Prod.mk.injEq] at h
          obtain ⟨hdeps, hj⟩ := h
          obtain ⟨hdeps2, hsomej, hall⟩ := ih deps2 j2 hv
          refine ⟨by rw [← hdeps, hdeps2], ?_, ?_⟩
          · intro a ha
            obtain ⟨jv2, hjv2⟩ := hsomej a ha
            rcases hcf : capFrontier coll.readCapabilities with _ | m
            · rw [hcf, ha] at hf
              exact absurd (by rfl : fle none (some a) = false) hf
            · exact ⟨max m jv2, by rw [← hj, hcf, hjv2]; rfl⟩
          · intro s2 hs2
            rcases List.mem_cons.mp hs2 with hm | hm
            · exact ⟨coll, hm ▸ hl, by simpa using hf⟩
            · exact hall s2 hm

theorem mem_dedupSort (l : List Nat) (x : Nat) : x ∈ dedupSort l ↔ x ∈ l := by
  unfold dedupSort
  rw [List.mem_dedup]
  exact (List.perm_insertionSort (· ≤ ·) l).mem_iff

theorem nodup_dedupSort (l : List Nat) : (dedupSort l).Nodup := List.nodup_dedup _

theorem keysOf_map_pair {α : Type} (l : List Nat) (v : α) :
    keysOf (l.map (fun id => (id, v))) = l := by
  simp [keysOf, List.map_map]
  exact List.map_id l

theorem lookup_map_pair {α : Type} (l : List Nat) (v : α) :
    ∀ x ∈ l, (l.map (fun id => (id, v))).lookup x = some v := by
  induction l with
  | nil => simp
  | cons y rest ih =>
    intro x hx
    simp only [List.map]
    by_cases hxy : x = y
    · rw [lookup_cons_self _ _ _ hxy]
    · rw [lookup_cons_ne _ _ _ hxy]
      rcases List.mem_cons.mp hx with hm | hm
      · exact absurd hm hxy
      · exact ih x hm

theorem lookup_map_pair_none {α : Type} (l : List Nat) (v : α) :
    ∀ x, x ∉ l → (l.map (fun id => (id, v))).lookup x = none := by
  induction l with
  | nil => intro x _; rfl
  | cons y rest ih =>
    intro x hx
    simp only [List.map]
    rw [lookup_cons_ne _ _ _ (show x ≠ (y, v).1 from fun he => hx (by rw [he]; exact .head _))]
    exact ih x (fun hm => hx (.tail _ hm))

theorem net_zero_of_all_ne {ext : CapMap} {a : Nat} (h : ∀ q ∈ ext, q.1 ≠ a) :
    net ext a = 0 := by
  have : ext.filter (fun p => p.1 = a) = [] := by
    rw [List.filter_eq_nil_iff]
    intro p hp hpa
    simp only [decide_eq_true_eq] at hpa
    exact h p hp hpa
  simp [net, this]

theorem net_single (t : Nat) (v : Int) : net [(t, v)] t = v := by
  simp [net, List.filter]

theorem fle_some_felemLe {f : Frontier} {a : Nat} (h : fle f (some a) = true) :
    felemLe f a = true := by
  cases f with
  | none => simp [fle] at h
  | some m => simpa [fle, felemLe] using h

theorem flt_irrefl (f : Frontier) : flt f f = false := by
  simp [flt, fle_refl]

theorem aputFold_lookup_not_mem (jS : Frontier) (rs : List ReplicaId) :
    ∀ (base : List (ReplicaId × Frontier)) (r : ReplicaId), r ∉ rs →
    ((rs.foldl (fun m x => aput m x jS) base).lookup r) = base.lookup r := by
  induction rs with
  | nil => exact fun base r _ => rfl
  | cons x rest ih =>
    intro base r hr
    simp only [List.foldl_cons]
    rw [ih _ r (fun hm => hr (.tail _ hm))]
    exact lookup_aput_ne _ _ _ _ (fun he => hr (he ▸ .head _))

theorem aputFold_lookup_mem (jS : Frontier) (rs : List ReplicaId) :
    ∀ (base : List (ReplicaId × Frontier)) (r : ReplicaId), r ∈ rs →
    ((rs.foldl (fun m x => aput m x jS) base).lookup r) = some jS := by
  induction rs with
  | nil =>
    intro base r h
    simp at h
  | cons x rest ih =>
    intro base r hr
    simp only [List.foldl_cons]
    by_cases hm : r ∈ rest
    · exact ih _ r hm
    · have hx : r = x := by
        rcases List.mem_cons.mp hr with h | h
        · exact h
        · exact absurd h hm
      rw [aputFold_lookup_not_mem jS rest _ r hm, hx]
      exact lookup_aput_self _ _ _

/-- The write frontier of a fresh export after the given replicas have
reported the initialization frontier. -/
def exportWf (jS : Frontier) (rs : List ReplicaId) : Frontier :=
  if rs = [] then fminimum else if flt fminimum jS then jS else fminimum

/-- The collection state of a fresh export after the write-frontier
initialization pass has run for the given replicas. -/
def exportState (asOf : Frontier) (sd cd : List GlobalId) (jS : Frontier)
    (rs : List ReplicaId) : CollectionState :=
  { CollectionState.new asOf sd cd with
    writeFrontier := exportWf jS rs
    replicaWriteFrontiers := rs.foldl (fun m x => aput m x jS) [] }

theorem exportState_nil (asOf : Frontier) (sd cd : List GlobalId) (jS : Frontier) :
    exportState asOf sd cd jS [] = CollectionState.new asOf sd cd := rfl

theorem exportWf_step (r : ReplicaId) (jS : Frontier) (rs : List ReplicaId) :
    (if flt (exportWf jS rs) jS then jS else exportWf jS rs) = exportWf jS (rs ++ [r]) := by
  have hne : rs ++ [r] ≠ [] := by simp
  by_cases hrs : rs = []
  · subst hrs
    have h1 : exportWf jS [] = fminimum := by simp [exportWf]
    have h2 : exportWf jS ([] ++ [r]) = if flt fminimum jS then jS else fminimum := by
      simp [exportWf]
    rw [h1, h2]
  · simp only [exportWf, if_neg hrs, if_neg hne]
    by_cases hf : flt fminimum jS = true
    · rw [if_pos hf]
      simp [flt_irrefl]
    · rw [if_neg hf]
      rw [if_neg hf]

/-- Effect of `StorageController::update_read_capabilities` at the lookup
level, for a change list with distinct keys. -/
theorem storage_urc_lookup_fold (updates : List (GlobalId × CapMap))
    (hnodup : (keysOf updates).Nodup) :
    ∀ (cols : List (GlobalId × StorageCollection)) (k : GlobalId),
    (updates.foldl (fun cols p =>
      amodify cols p.1 (fun sc =>
        { sc with readCapabilities := cbPush sc.readCapabilities p.2 })) cols).lookup k =
      match updates.lookup k with
      | some cb => (cols.lookup k).map (fun sc =>
          { sc with readCapabilities := cbPush sc.readCapabilities cb })
      | none => cols.lookup k := by
  induction updates with
  | nil => exact fun cols k => rfl
  | cons p rest ih =>
    intro cols k
    simp only [List.foldl_cons]
    simp only [keysOf, List.map, List.nodup_cons] at hnodup
    rw [ih hnodup.2]
    by_cases hk : k = p.1
    · subst hk
      have hnone : rest.lookup p.1 = none :=
        lookup_eq_none_of_not_mem_keys (by simpa [keysOf] using hnodup.1)
      rw [hnone, lookup_cons_self _ _ _ rfl, lookup_amodify_self]
    · rw [lookup_cons_ne _ _ _ hk]
      rcases hr : rest.lookup k with _ | cb
      · exact lookup_amodify_ne _ _ _ _ hk
      · rw [lookup_amodify_ne _ _ _ _ hk]

theorem storage_urc_lookup (updates : List (GlobalId × CapMap))
    (hnodup : (keysOf updates).Nodup) (s : Storage) (k : GlobalId) :
    (s.updateReadCapabilities updates).collections.lookup k =
      match updates.lookup k with
      | some cb => (s.collections.lookup k).map (fun sc =>
          { sc with readCapabilities := cbPush sc.readCapabilities cb })
      | none => s.collections.lookup k :=
  storage_urc_lookup_fold updates hnodup s.collections k

/-- `StorageController::update_write_frontiers` never changes read
capabilities nor the set of tracked collections. -/
theorem storage_uwf_caps_fold (ups : List (GlobalId × Frontier)) :
    ∀ (cols : List (GlobalId × StorageCollection)) (k : GlobalId),
    ((ups.foldl (fun cols p =>
        amodify cols p.1 (fun sc => { sc with writeFrontier := p.2 })) cols).lookup k = none ↔
      cols.lookup k = none) ∧
    (∀ sc, cols.lookup k = some sc →
      ∃ sc', (ups.foldl (fun cols p =>
        amodify cols p.1 (fun sc => { sc with writeFrontier := p.2 })) cols).lookup k = some sc' ∧
        sc'.readCapabilities = sc.readCapabilities) := by
  induction ups with
  | nil =>
    intro cols k
    exact ⟨Iff.rfl, fun sc h => ⟨sc, h, rfl⟩⟩
  | cons p rest ih =>
    intro cols k
    simp only [List.foldl_cons]
    obtain ⟨ihn, ihs⟩ := ih (amodify cols p.1 (fun sc => { sc with writeFrontier := p.2 })) k
    by_cases hk : k = p.1
    · subst hk
      constructor
      · rw [ihn, lookup_amodify_self]
        cases cols.lookup p.1 <;> simp
      · intro sc h
        obtain ⟨sc', h1, h2⟩ := ihs { sc with writeFrontier := p.2 }
          (by rw [lookup_amodify_self, h]; rfl)
        exact ⟨sc', h1, h2⟩
    · constructor
      · rw [ihn, lookup_amodify_ne _ _ _ _ hk]
      · intro sc h
        exact ihs sc (by rw [lookup_amodify_ne _ _ _ _ hk]; exact h)

theorem storage_uwf_caps (ups : List (GlobalId × Frontier)) (s : Storage) (k : GlobalId) :
    ((s.updateWriteFrontiers ups).collections.lookup k = none ↔
      s.collections.lookup k = none) ∧
    (∀ sc, s.collections.lookup k = some sc →
      ∃ sc', (s.updateWriteFrontiers ups).collections.lookup k = some sc' ∧
        sc'.readCapabilities = sc.readCapabilities) :=
  storage_uwf_caps_fold ups s.collections k

theorem allResolve_ok_of_all (storage : Storage) :
    ∀ (l : List GlobalId), (∀ s ∈ l, (storage.collections.lookup s).isSome) →
    allResolveStorage storage l = .ok () := by
  intro l
  induction l with
  | nil => intro _; rfl
  | cons s rest ih =>
    intro h
    unfold allResolveStorage
    rcases hl : storage.collections.lookup s with _ | sc
    · have := h s (.head _)
      rw [hl] at this
      simp at this
    · exact ih (fun x hx => h x (.tail _ hx))

/-- Installing export collection states: the installed entries. -/
theorem cdInstallFold_lookup_ne (asOf : Frontier) (sd cd : List GlobalId)
    (E : List GlobalId) :
    ∀ (i : Instance) (k : GlobalId), k ∉ E →
    (E.foldl (cdInstallExport asOf sd cd) i).collections.lookup k =
      i.collections.lookup k := by
  induction E with
  | nil => exact fun i k _ => rfl
  | cons e rest ih =>
    intro i k hk
    simp only [List.foldl_cons]
    rw [ih _ k (fun hm => hk (.tail _ hm))]
    exact lookup_aput_ne _ _ _ _ (fun he => hk (he ▸ .head _))

theorem cdInstallFold_lookup_mem (asOf : Frontier) (sd cd : List GlobalId)
    (E : List GlobalId) (hE : E.Nodup) :
    ∀ (i : Instance) (e : GlobalId), e ∈ E →
    (E.foldl (cdInstallExport asOf sd cd) i).collections.lookup e =
      some (CollectionState.new asOf sd cd) := by
  induction E with
  | nil =>
    intro i e h
    simp at h
  | cons x rest ih =>
    intro i e he
    simp only [List.nodup_cons] at hE
    simp only [List.foldl_cons]
    by_cases hm : e ∈ rest
    · exact ih hE.2 _ e hm
    · have hx : e = x := by
        rcases List.mem_cons.mp he with h | h
        · exact h
        · exact absurd h hm
      rw [cdInstallFold_lookup_ne asOf sd cd rest _ e hm]
      subst hx
      exact lookup_aput_self _ _ _

theorem cdInstallFold_fields (asOf : Frontier) (sd cd : List GlobalId)
    (E : List GlobalId) :
    ∀ (i : Instance),
    (E.foldl (cdInstallExport asOf sd cd) i).replicas = i.replicas ∧
    (E.foldl (cdInstallExport asOf sd cd) i).peeks = i.peeks ∧
    (E.foldl (cdInstallExport asOf sd cd) i).subscribes = i.subscribes ∧
    (E.foldl (cdInstallExport asOf sd cd) i).failedReplicas = i.failedReplicas ∧
    (E.foldl (cdInstallExport asOf sd cd) i).responses = i.responses ∧
    (E.foldl (cdInstallExport asOf sd cd) i).commands = i.commands := by
  induction E with
  | nil => exact fun i => ⟨rfl, rfl, rfl, rfl, rfl, rfl⟩
  | cons x rest ih =>
    intro i
    simp only [List.foldl_cons]
    obtain ⟨h1, h2, h3, h4, h5, h6⟩ := ih (cdInstallExport asOf sd cd i x)
    exact ⟨h1.trans rfl, h2.trans rfl, h3.trans rfl, h4.trans rfl, h5.trans rfl, h6.trans rfl⟩

theorem cdSubscribeFold_collections (S : List GlobalId) :
    ∀ (i : Instance),
    (S.foldl cdSubscribeStep i).collections = i.collections ∧
    (S.foldl cdSubscribeStep i).commands = i.commands := by
  induction S with
  | nil => exact fun i => ⟨rfl, rfl⟩
  | cons x rest ih =>
    intro i
    simp only [List.foldl_cons]
    obtain ⟨h1, h2⟩ := ih (cdSubscribeStep i x)
    exact ⟨h1.trans rfl, h2.trans rfl⟩

/-- One `update_write_frontiers` step on a fresh export reporting the
initialization frontier: the export's tracking gains this replica, the
write frontier advances accordingly, the implied capability stays at the
`as_of`, no compute capability change is recorded, and one `+1` read hold
at the initialization time is queued per storage dependency. -/
theorem uwfStep_export_spec (r : ReplicaId) (acc : UwfAcc) (e : GlobalId)
    (asOf : Frontier) (sd cd : List GlobalId) (jS : Frontier) (jv : Nat)
    (hj : jS = some jv) (rs : List ReplicaId) (hr : r ∉ rs)
    (hl : acc.inst.collections.lookup e = some (exportState asOf sd cd jS rs)) :
    uwfStep r acc (e, jS) = ⟨{ acc.inst with collections := amodify acc.inst.collections e (fun c => { c with writeFrontier := exportWf jS (rs ++ [r]), replicaWriteFrontiers := (rs ++ [r]).foldl (fun m x => aput m x jS) [], impliedCapability := asOf }) }, (if flt (exportWf jS rs) jS then acc.advanced ++ [e] else acc.advanced), acc.computeChanges, sd.foldl (fun m dep => aextend m dep [(jv, (1 : Int))]) acc.storageChanges, acc.dropped⟩ := by
  subst hj
  have hrwf : aput (rs.foldl (fun m x => aput m x (some jv))
      ([] : List (ReplicaId × Frontier))) r (some jv) =
      (rs ++ [r]).foldl (fun m x => aput m x (some jv)) [] := by
    rw [List.foldl_append]
    rfl
  unfold uwfStep
  simp only [hl]
  simp only [exportState, CollectionState.new, ReadPolicy.frontier]
  simp only [aputFold_lookup_not_mem (some jv) rs [] r hr]
  simp only [fle_refl, List.lookup_nil]
  rw [hrwf]
  simp [fElems]
  constructor
  · rw [exportWf_step r (some jv) rs]
  · intro hfalse
    have hsw := cbIsEmpty_swap asOf
    simp only [fElems] at hsw
    rw [hsw] at hfalse
    exact absurd hfalse (by simp)

theorem mem_aextend_any {m : List (Nat × CapMap)} {k : Nat} {cb : CapMap} {p : Nat × CapMap}
    (h : p ∈ aextend m k cb) :
    p ∈ m ∨ (∃ old, m.lookup k = some old ∧ p = (k, cbPush old cb)) ∨ p = (k, cb) := by
  unfold aextend at h
  cases hl : m.lookup k with
  | some old =>
    rw [hl] at h
    rcases mem_aput h with h | h
    · exact .inl h
    · exact .inr (.inl ⟨old, rfl, h⟩)
  | none =>
    rw [hl] at h
    rcases mem_aput h with h | h
    · exact .inl h
    · exact .inr (.inr h)

theorem storageChanges_fold_pred (jv : Nat) (sd : List GlobalId) :
    ∀ (m : List (GlobalId × CapMap)),
    (∀ p ∈ m, ∀ q ∈ p.2, q.1 = jv ∧ 0 ≤ q.2) →
    ∀ p ∈ sd.foldl (fun m dep => aextend m dep [(jv, (1 : Int))]) m,
      ∀ q ∈ p.2, q.1 = jv ∧ 0 ≤ q.2 := by
  induction sd with
  | nil => exact fun m hm => hm
  | cons d rest ih =>
    intro m hm
    simp only [List.foldl_cons]
    apply ih
    intro p hp q hq
    rcases mem_aextend_any hp with hp | ⟨old, hold, hp⟩ | hp
    · exact hm p hp q hq
    · rw [hp] at hq
      simp only at hq
      rw [cbPush_eq_append] at hq
      rcases List.mem_append.mp hq with hq | hq
      · exact hm (d, old) (lookup_some_mem hold) q hq
      · simp only [List.mem_singleton] at hq
        rw [hq]
        exact ⟨rfl, by show (0 : Int) ≤ 1; decide⟩
    · rw [hp] at hq
      simp only [List.mem_singleton] at hq
      rw [hq]
      exact ⟨rfl, by show (0 : Int) ≤ 1; decide⟩

theorem uwfFold_exports (r : ReplicaId) (asOf : Frontier) (sd cd : List GlobalId)
    (jS : Frontier) (jv : Nat) (hj : jS = some jv) (rs : List ReplicaId) (hr : r ∉ rs) :
    ∀ (E : List GlobalId), E.Nodup → ∀ (acc : UwfAcc),
    (∀ e ∈ E, acc.inst.collections.lookup e = some (exportState asOf sd cd jS rs)) →
    (keysOf acc.storageChanges).Nodup →
    (∀ p ∈ acc.storageChanges, ∀ q ∈ p.2, q.1 = jv ∧ 0 ≤ q.2) →
    (∀ e ∈ E, (E.foldl (fun a e => uwfStep r a (e, jS)) acc).inst.collections.lookup e =
      some (exportState asOf sd cd jS (rs ++ [r]))) ∧
    (∀ k, k ∉ E → (E.foldl (fun a e => uwfStep r a (e, jS)) acc).inst.collections.lookup k =
      acc.inst.collections.lookup k) ∧
    (E.foldl (fun a e => uwfStep r a (e, jS)) acc).inst.peeks = acc.inst.peeks ∧
    (E.foldl (fun a e => uwfStep r a (e, jS)) acc).inst.subscribes = acc.inst.subscribes ∧
    (E.foldl (fun a e => uwfStep r a (e, jS)) acc).inst.responses = acc.inst.responses ∧
    (E.foldl (fun a e => uwfStep r a (e, jS)) acc).inst.replicas = acc.inst.replicas ∧
    (E.foldl (fun a e => uwfStep r a (e, jS)) acc).inst.failedReplicas =
      acc.inst.failedReplicas ∧
    (E.foldl (fun a e => uwfStep r a (e, jS)) acc).inst.commands = acc.inst.commands ∧
    (E.foldl (fun a e => uwfStep r a (e, jS)) acc).computeChanges = acc.computeChanges ∧
    (E.foldl (fun a e => uwfStep r a (e, jS)) acc).dropped = acc.dropped ∧
    (keysOf (E.foldl (fun a e => uwfStep r a (e, jS)) acc).storageChanges).Nodup ∧
    (∀ p ∈ (E.foldl (fun a e => uwfStep r a (e, jS)) acc).storageChanges,
      ∀ q ∈ p.2, q.1 = jv ∧ 0 ≤ q.2) := by
  intro E
  induction E with
  | nil =>
    intro _ acc _ hnd hpred
    exact ⟨by simp, fun k _ => rfl, rfl, rfl, rfl, rfl, rfl, rfl, rfl, rfl, hnd, hpred⟩
  | cons e E' ih =>
    intro hE acc hexp hnd hpred
    simp only [List.nodup_cons] at hE
    have hstep := uwfStep_export_spec r acc e asOf sd cd jS jv hj rs hr (hexp e (.head _))
    simp only [List.foldl_cons]
    have hacc1_e : (uwfStep r acc (e, jS)).inst.collections.lookup e =
        some (exportState asOf sd cd jS (rs ++ [r])) := by
      rw [hstep]
      dsimp only
      rw [lookup_amodify_self, hexp e (.head _)]
      rfl
    have hacc1_ne : ∀ k, k ≠ e → (uwfStep r acc (e, jS)).inst.collections.lookup k =
        acc.inst.collections.lookup k := by
      intro k hk
      rw [hstep]
      dsimp only
      exact lookup_amodify_ne _ _ _ _ hk
    have hacc1_nd : (keysOf (uwfStep r acc (e, jS)).storageChanges).Nodup := by
      rw [hstep]
      exact keys_foldl_aextend_nodup _ _ _ hnd
    have hacc1_pred : ∀ p ∈ (uwfStep r acc (e, jS)).storageChanges,
        ∀ q ∈ p.2, q.1 = jv ∧ 0 ≤ q.2 := by
      rw [hstep]
      exact storageChanges_fold_pred jv sd _ hpred
    obtain ⟨c1, c2, c3, c4, c5, c6, c7, c8, c9, c10, c11, c12⟩ :=
      ih hE.2 (uwfStep r acc (e, jS))
        (fun e' he' => by
          rw [hacc1_ne e' (fun heq => hE.1 (heq ▸ he'))]
          exact hexp e' (.tail _ he'))
        hacc1_nd hacc1_pred
    refine ⟨?_, ?_, ?_, ?_, ?_, ?_, ?_, ?_, ?_, ?_, c11, c12⟩
    · intro e2 he2
      rcases List.mem_cons.mp he2 with hm | hm
      · subst hm
        rw [c2 e2 hE.1]
        exact hacc1_e
      · exact c1 e2 hm
    · intro k hk
      rw [c2 k (fun hm => hk (.tail _ hm)), hacc1_ne k (fun heq => hk (heq ▸ .head _))]
    · rw [c3, hstep]
    · rw [c4, hstep]
    · rw [c5, hstep]
    · rw [c6, hstep]
    · rw [c7, hstep]
    · rw [c8, hstep]
    · rw [c9, hstep]
    · rw [c10, hstep]

theorem uwf_call_exports (i : Instance) (stor : Storage) (r : ReplicaId)
    (E : List GlobalId) (hE : E.Nodup) (asOf : Frontier) (sd cd : List GlobalId)
    (jS : Frontier) (jv : Nat) (hj : jS = some jv) (rs : List ReplicaId) (hr : r ∉ rs)
    (hexp : ∀ e ∈ E, i.collections.lookup e = some (exportState asOf sd cd jS rs)) :
    (∀ e ∈ E, (update_write_frontiers i stor r
        (E.map (fun e => (e, jS)))).1.collections.lookup e =
      some (exportState asOf sd cd jS (rs ++ [r]))) ∧
    (∀ k, k ∉ E → (update_write_frontiers i stor r
        (E.map (fun e => (e, jS)))).1.collections.lookup k = i.collections.lookup k) ∧
    (update_write_frontiers i stor r (E.map (fun e => (e, jS)))).1.peeks = i.peeks ∧
    (update_write_frontiers i stor r (E.map (fun e => (e, jS)))).1.subscribes = i.subscribes ∧
    (update_write_frontiers i stor r (E.map (fun e => (e, jS)))).1.responses = i.responses ∧
    (update_write_frontiers i stor r (E.map (fun e => (e, jS)))).1.replicas = i.replicas ∧
    (update_write_frontiers i stor r (E.map (fun e => (e, jS)))).1.failedReplicas =
      i.failedReplicas ∧
    (update_write_frontiers i stor r (E.map (fun e => (e, jS)))).1.commands = i.commands ∧
    (∀ k sc, stor.collections.lookup k = some sc →
      ∃ sc' ext, (update_write_frontiers i stor r
          (E.map (fun e => (e, jS)))).2.collections.lookup k = some sc' ∧
        sc'.readCapabilities = cbPush sc.readCapabilities ext ∧
        (∀ q ∈ ext, q.1 = jv ∧ 0 ≤ q.2)) ∧
    (∀ k, stor.collections.lookup k = none → (update_write_frontiers i stor r
        (E.map (fun e => (e, jS)))).2.collections.lookup k = none) := by
  obtain ⟨c1, c2, c3, c4, c5, c6, c7, c8, c9, c10, c11, c12⟩ :=
    uwfFold_exports r asOf sd cd jS jv hj rs hr E hE ⟨i, [], [], [], []⟩ hexp
      (by simp [keysOf]) (by simp)
  have hmain : update_write_frontiers i stor r (E.map (fun e => (e, jS))) =
      ((E.foldl (fun a e => uwfStep r a (e, jS)) ⟨i, [], [], [], []⟩).inst,
        (if (E.foldl (fun a e => uwfStep r a (e, jS)) ⟨i, [], [], [], []⟩).storageChanges ≠ []
          then stor.updateReadCapabilities
            (E.foldl (fun a e => uwfStep r a (e, jS)) ⟨i, [], [], [], []⟩).storageChanges
          else stor).updateWriteFrontiers
          (((E.foldl (fun a e => uwfStep r a (e, jS)) ⟨i, [], [], [], []⟩).advanced.filter
            (fun id => (((if (E.foldl (fun a e => uwfStep r a (e, jS))
                ⟨i, [], [], [], []⟩).storageChanges ≠ []
              then stor.updateReadCapabilities (E.foldl (fun a e => uwfStep r a (e, jS))
                ⟨i, [], [], [], []⟩).storageChanges
              else stor).collections.lookup id)).isSome)).filterMap
            (fun id => (((E.foldl (fun a e => uwfStep r a (e, jS))
              ⟨i, [], [], [], []⟩).inst.collections.lookup id)).map
              (fun c => (id, c.writeFrontier))))) := by
    unfold update_write_frontiers
    rw [List.foldl_map]
    dsimp only
    rw [if_neg (show ¬((E.foldl (fun a e => uwfStep r a (e, jS))
      ⟨i, [], [], [], []⟩).computeChanges ≠ []) from fun h => h c9)]
    rw [if_neg (show ¬((E.foldl (fun a e => uwfStep r a (e, jS))
      ⟨i, [], [], [], []⟩).dropped ≠ []) from fun h => h c10)]
  rw [hmain]
  refine ⟨c1, c2, c3, c4, c5, c6, c7, c8, ?_, ?_⟩
  · intro k sc hk
    have hs2 : ∀ k sc, stor.collections.lookup k = some sc →
        ∃ ext, (if (E.foldl (fun a e => uwfStep r a (e, jS))
            ⟨i, [], [], [], []⟩).storageChanges ≠ []
          then stor.updateReadCapabilities
            (E.foldl (fun a e => uwfStep r a (e, jS)) ⟨i, [], [], [], []⟩).storageChanges
          else stor).collections.lookup k =
          some { sc with readCapabilities := cbPush sc.readCapabilities ext } ∧
          (∀ q ∈ ext, q.1 = jv ∧ 0 ≤ q.2) := by
      intro k sc hk
      by_cases hne : (E.foldl (fun a e => uwfStep r a (e, jS))
          ⟨i, [], [], [], []⟩).storageChanges ≠ []
      · rw [if_pos hne]
        rw [storage_urc_lookup _ c11 stor k]
        rcases hl : (E.foldl (fun a e => uwfStep r a (e, jS))
            ⟨i, [], [], [], []⟩).storageChanges.lookup k with _ | cb
        · exact ⟨[], by rw [hk]; rfl, by simp⟩
        · refine ⟨cb, by rw [hk]; rfl, ?_⟩
          exact c12 (k, cb) (lookup_some_mem hl)
      · rw [if_neg hne]
        exact ⟨[], by rw [hk]; rfl, by simp⟩
    obtain ⟨ext, hx, hpred⟩ := hs2 k sc hk
    obtain ⟨-, hcap⟩ := storage_uwf_caps _ _ k
    obtain ⟨sc', h1, h2⟩ := hcap _ hx
    exact ⟨sc', ext, h1, by rw [h2], hpred⟩
  · intro k hk
    have hs2 : (if (E.foldl (fun a e => uwfStep r a (e, jS))
        ⟨i, [], [], [], []⟩).storageChanges ≠ []
      then stor.updateReadCapabilities
        (E.foldl (fun a e => uwfStep r a (e, jS)) ⟨i, [], [], [], []⟩).storageChanges
      else stor).collections.lookup k = none := by
      by_cases hne : (E.foldl (fun a e => uwfStep r a (e, jS))
          ⟨i, [], [], [], []⟩).storageChanges ≠ []
      · rw [if_pos hne]
        rw [storage_urc_lookup _ c11 stor k]
        rcases hl : (E.foldl (fun a e => uwfStep r a (e, jS))
            ⟨i, [], [], [], []⟩).storageChanges.lookup k with _ | cb
        · exact hk
        · rw [hk]
          rfl
      · rw [if_neg hne]
        exact hk
    obtain ⟨hnone, -⟩ := storage_uwf_caps _ _ k
    exact hnone.mpr hs2

/-- The write-frontier initialization pass of `create_dataflow`, folded
over a list of replicas. -/
def replicaFoldRes (E : List GlobalId) (jS : Frontier) (rl : List ReplicaId)
    (acc : Instance × Storage) : Instance × Storage :=
  rl.foldl (cdReplicaStep (E.map (fun e => (e, jS)))) acc

theorem cdReplicaFold (E : List GlobalId) (hE : E.Nodup) (asOf : Frontier)
    (sd cd : List GlobalId) (jS : Frontier) (jv : Nat) (hj : jS = some jv) :
    ∀ (rl : List ReplicaId) (rs : List ReplicaId), rl.Nodup → (∀ x ∈ rl, x ∉ rs) →
    ∀ (acc : Instance × Storage),
    (∀ e ∈ E, acc.1.collections.lookup e = some (exportState asOf sd cd jS rs)) →
    (∀ e ∈ E, (replicaFoldRes E jS rl acc).1.collections.lookup e =
      some (exportState asOf sd cd jS (rs ++ rl))) ∧
    (∀ k, k ∉ E → (replicaFoldRes E jS rl acc).1.collections.lookup k =
      acc.1.collections.lookup k) ∧
    (replicaFoldRes E jS rl acc).1.peeks = acc.1.peeks ∧
    (replicaFoldRes E jS rl acc).1.subscribes = acc.1.subscribes ∧
    (replicaFoldRes E jS rl acc).1.responses = acc.1.responses ∧
    (replicaFoldRes E jS rl acc).1.replicas = acc.1.replicas ∧
    (replicaFoldRes E jS rl acc).1.failedReplicas = acc.1.failedReplicas ∧
    (replicaFoldRes E jS rl acc).1.commands = acc.1.commands ∧
    (∀ k sc, acc.2.collections.lookup k = some sc →
      ∃ sc' ext, (replicaFoldRes E jS rl acc).2.collections.lookup k = some sc' ∧
        sc'.readCapabilities = cbPush sc.readCapabilities ext ∧
        (∀ q ∈ ext, q.1 = jv ∧ 0 ≤ q.2)) ∧
    (∀ k, acc.2.collections.lookup k = none →
      (replicaFoldRes E jS rl acc).2.collections.lookup k = none) := by
  intro rl
  induction rl with
  | nil =>
    intro rs _ _ acc hexp
    refine ⟨?_, fun k _ => rfl, rfl, rfl, rfl, rfl, rfl, rfl, ?_, fun k h => h⟩
    · intro e he
      simp only [List.append_nil]
      exact hexp e he
    · intro k sc hk
      exact ⟨sc, [], hk, rfl, by simp⟩
  | cons r rl' ih =>
    intro rs hnd hdisj acc hexp
    simp only [List.nodup_cons] at hnd
    obtain ⟨s1, s2, s3, s4, s5, s6, s7, s8, s9, s10⟩ :=
      uwf_call_exports acc.1 acc.2 r E hE asOf sd cd jS jv hj rs
        (hdisj r (.head _)) hexp
    have hstep : replicaFoldRes E jS (r :: rl') acc =
        replicaFoldRes E jS rl' (update_write_frontiers acc.1 acc.2 r
          (E.map (fun e => (e, jS)))) := rfl
    rw [hstep]
    have hdisj' : ∀ x ∈ rl', x ∉ rs ++ [r] := by
      intro x hx hm
      rcases List.mem_append.mp hm with hm | hm
      · exact hdisj x (.tail _ hx) hm
      · simp only [List.mem_singleton] at hm
        exact hnd.1 (hm ▸ hx)
    obtain ⟨t1, t2, t3, t4, t5, t6, t7, t8, t9, t10⟩ :=
      ih (rs ++ [r]) hnd.2 hdisj'
        (update_write_frontiers acc.1 acc.2 r (E.map (fun e => (e, jS)))) s1
    have happ : rs ++ r :: rl' = (rs ++ [r]) ++ rl' := by simp
    refine ⟨?_, ?_, t3.trans s3, t4.trans s4, t5.trans s5, t6.trans s6,
      t7.trans s7, t8.trans s8, ?_, ?_⟩
    · intro e he
      rw [happ]
      exact t1 e he
    · intro k hk
      rw [t2 k hk]
      exact s2 k hk
    · intro k sc hk
      obtain ⟨sc1, ext1, h1, h2, h3⟩ := s9 k sc hk
      obtain ⟨sc2, ext2, g1, g2, g3⟩ := t9 k sc1 h1
      refine ⟨sc2, ext1 ++ ext2, g1, ?_, ?_⟩
      · rw [g2, h2]
        simp [cbPush_eq_append]
      · intro q hq
        rcases List.mem_append.mp hq with hq | hq
        · exact h3 q hq
        · exact g3 q hq
    · intro k hk
      exact t10 k (s10 k hk)

/-- The success path of `create_dataflow`: exports get collection state
whose per-replica write frontiers are the join of all input sinces,
compute inputs get their read capabilities bumped at the `as_of` by the
number of exports, and storage inputs get the same net bump at the
`as_of`. -/
theorem cdSuccess (i : Instance) (storage : Storage) (d : Dataflow)
    (sdeps0 : List GlobalId) (j1 : Frontier) (cdeps0 : List GlobalId) (j2 : Frontier)
    (a : Nat)
    (hasOf : d.asOf = some (some a))
    (hvs : validateSources storage (some a) d.sourceImports = .ok (sdeps0, j1))
    (hvi : validateIndexes i (some a) d.indexImports = .ok (cdeps0, j2))
    (hdesc : DescDeps i) (hE : d.exportIds.Nodup) (hrepl : i.replicas.Nodup)
    (hpersist : ∀ p ∈ d.sinkExports, p.2 = false → (storage.collections.lookup p.1).isSome) :
    ∃ i' s', create_dataflow i storage d = .ok (i', s') ∧
      (∀ e ∈ d.exportIds, ∃ ec, i'.collections.lookup e = some ec ∧
        ec.impliedCapability = some a ∧
        ∀ rr ∈ i.replicas, ec.replicaWriteFrontiers.lookup rr = some (fjoin j1 j2)) ∧
      (∀ ix coll, ix ∈ d.indexImports → ix ∉ d.exportIds →
        i.collections.lookup ix = some coll →
        i'.collections.lookup ix = some { coll with
          readCapabilities := cbPush coll.readCapabilities [(a, ((d.sinkExports.length + d.indexExports.length : Nat) : Int))] }) ∧
      (∀ s sc, s ∈ d.sourceImports → storage.collections.lookup s = some sc →
        fjoin j1 j2 ≠ some a →
        ∃ sc', s'.collections.lookup s = some sc' ∧
          net sc'.readCapabilities a = net sc.readCapabilities a +
            ((d.sinkExports.length + d.indexExports.length : Nat) : Int)) := by
  obtain ⟨hsdeps, hj1some, hall_s⟩ :=
    validateSources_ok_inv storage (some a) d.sourceImports sdeps0 j1 hvs
  obtain ⟨hcdeps, hj2some, hall_i⟩ :=
    validateIndexes_ok_inv i (some a) d.indexImports cdeps0 j2 hvi
  obtain ⟨jv1, hjv1⟩ := hj1some a rfl
  obtain ⟨jv2, hjv2⟩ := hj2some a rfl
  have hjS : fjoin j1 j2 = some (max jv1 jv2) := by
    rw [hjv1, hjv2]
    rfl
  set SUPD := (dedupSort sdeps0).map (fun id => (id, (fElems (some a)).map (fun t => (t, ((d.sinkExports.length + d.indexExports.length : Nat) : Int))))) with hSUPD
  set CUPD := (dedupSort cdeps0).map (fun id => (id, (fElems (some a)).map (fun t => (t, ((d.sinkExports.length + d.indexExports.length : Nat) : Int))))) with hCUPD
  set S1 := storage.updateReadCapabilities SUPD with hS1v
  set R2 := update_read_capabilities i S1 CUPD with hR2v
  set I2 := d.exportIds.foldl (cdInstallExport (some a) (dedupSort sdeps0) (dedupSort cdeps0)) R2.1 with hI2v
  set R3 := replicaFoldRes d.exportIds (fjoin j1 j2) I2.replicas (I2, R2.2) with hR3v
  have hnodupS : (keysOf SUPD).Nodup := by
    rw [hSUPD, keysOf_map_pair]
    exact nodup_dedupSort _
  have hnodupC : (keysOf CUPD).Nodup := by
    rw [hCUPD, keysOf_map_pair]
    exact nodup_dedupSort _
  have hinvC : UrcInv i CUPD := by
    rw [hCUPD]
    intro p hp
    simp only [List.mem_map] at hp
    obtain ⟨ix, hix, hpix⟩ := hp
    have hixm : ix ∈ d.indexImports := by
      rw [← hcdeps]
      exact (mem_dedupSort cdeps0 ix).mp hix
    obtain ⟨coll, hcoll, hfle⟩ := hall_i ix hixm
    rw [← hpix]
    refine ⟨?_, .inl ⟨coll, hcoll, ?_⟩⟩
    · intro q hq
      simp only [fElems, List.map, List.mem_singleton] at hq
      rw [hq]
      exact Int.natCast_nonneg _
    · intro q hq
      simp only [fElems, List.map, List.mem_singleton] at hq
      rw [hq]
      exact fle_some_felemLe hfle
  obtain ⟨hcmd2, hsome2, hnone2, hstor2⟩ := urc_apply i S1 CUPD hdesc hnodupC hinvC
  obtain ⟨hp1, hp2, hp3, hp4, hp5⟩ := urc_preserves i S1 CUPD
  obtain ⟨hf1, hf2, hf3, hf4, hf5, hf6⟩ :=
    cdInstallFold_fields (some a) (dedupSort sdeps0) (dedupSort cdeps0) d.exportIds R2.1
  have hreplEq : I2.replicas = i.replicas := by
    rw [hI2v]
    exact hf1.trans hp1
  have hexpI2 : ∀ e ∈ d.exportIds, (I2, R2.2).1.collections.lookup e =
      some (exportState (some a) (dedupSort sdeps0) (dedupSort cdeps0) (fjoin j1 j2) []) := by
    intro e he
    rw [exportState_nil, hI2v]
    exact cdInstallFold_lookup_mem (some a) (dedupSort sdeps0) (dedupSort cdeps0)
      d.exportIds hE R2.1 e he
  obtain ⟨t1, t2, t3, t4, t5, t6, t7, t8, t9, t10⟩ :=
    cdReplicaFold d.exportIds hE (some a) (dedupSort sdeps0) (dedupSort cdeps0)
      (fjoin j1 j2) (max jv1 jv2) hjS I2.replicas []
      (by rw [hreplEq]; exact hrepl) (by simp) (I2, R2.2) hexpI2
  have hS1some : ∀ k sc, storage.collections.lookup k = some sc →
      ∃ sc1, S1.collections.lookup k = some sc1 := by
    intro k sc hsc
    rw [hS1v, storage_urc_lookup SUPD hnodupS storage k]
    rcases SUPD.lookup k with _ | cb
    · exact ⟨sc, hsc⟩
    · exact ⟨_, by rw [hsc]; rfl⟩
  have hR3some : ∀ k sc, storage.collections.lookup k = some sc →
      (R3.2.collections.lookup k).isSome := by
    intro k sc hsc
    obtain ⟨sc1, h1⟩ := hS1some k sc hsc
    have h2 : R2.2.collections.lookup k = some sc1 := by
      rw [hR2v]
      rw [hstor2 k]
      exact h1
    obtain ⟨sc2, ext, h3, -, -⟩ := t9 k sc1 h2
    rw [h3]
    rfl
  have hres1 : allResolveStorage R3.2 d.sourceImports = .ok () := by
    apply allResolve_ok_of_all
    intro s hs
    obtain ⟨sc, hsc, -⟩ := hall_s s hs
    exact hR3some s sc hsc
  have hres2 : allResolveStorage R3.2
      ((d.sinkExports.filter (fun p => p.2 = false)).map Prod.fst) = .ok () := by
    apply allResolve_ok_of_all
    intro x hx
    simp only [List.mem_map] at hx
    obtain ⟨p, hpf, hpx⟩ := hx
    rw [List.mem_filter] at hpf
    have := hpersist p hpf.1 (by simpa using hpf.2)
    rcases hsc : storage.collections.lookup p.1 with _ | sc
    · rw [hsc] at this
      simp at this
    · rw [← hpx]
      exact hR3some p.1 sc hsc
  unfold create_dataflow
  simp only [hasOf, hvs, hvi]
  split
  · next er heq => exact absurd (hres1.symm.trans heq) (by simp)
  · next u heq1 =>
      split
      · next er heq => exact absurd (hres2.symm.trans heq) (by simp)
      · next u2 heq2 =>
          refine ⟨_, _, rfl, ?_, ?_, ?_⟩
          · intro e he
            refine ⟨exportState (some a) (dedupSort sdeps0) (dedupSort cdeps0)
              (fjoin j1 j2) ([] ++ I2.replicas), ?_, rfl, ?_⟩
            · show (List.foldl cdSubscribeStep _ d.subscribeIds).collections.lookup e = _
              rw [(cdSubscribeFold_collections _ _).1]
              exact t1 e he
            · intro rr hrr
              show ((([] : List ReplicaId) ++ I2.replicas).foldl
                (fun m x => aput m x (fjoin j1 j2)) []).lookup rr = some (fjoin j1 j2)
              apply aputFold_lookup_mem
              rw [List.nil_append, hreplEq]
              exact hrr
          · intro ix coll hix hnotE hcoll
            show (List.foldl cdSubscribeStep _ d.subscribeIds).collections.lookup ix = _
            rw [(cdSubscribeFold_collections _ _).1]
            have hstep1 : R3.1.collections.lookup ix = I2.collections.lookup ix := t2 ix hnotE
            have hstep2 : I2.collections.lookup ix = R2.1.collections.lookup ix := by
              rw [hI2v]
              exact cdInstallFold_lookup_ne (some a) (dedupSort sdeps0) (dedupSort cdeps0)
                d.exportIds R2.1 ix hnotE
            obtain ⟨coll2, hcoll2, hfle2⟩ := hall_i ix hix
            rw [hcoll] at hcoll2
            injection hcoll2 with hcoll2
            subst hcoll2
            have hfr : capFrontier coll.readCapabilities ≠ none := by
              intro hnone
              rw [hnone] at hfle2
              simp [fle] at hfle2
            have hpos : ∀ q ∈ ((fElems (some a)).map (fun t =>
                (t, ((d.sinkExports.length + d.indexExports.length : Nat) : Int)))), 0 ≤ q.2 := by
              intro q hq
              simp only [fElems, List.map, List.mem_singleton] at hq
              rw [hq]
              exact Int.natCast_nonneg _
            have hge : ∀ q ∈ ((fElems (some a)).map (fun t =>
                (t, ((d.sinkExports.length + d.indexExports.length : Nat) : Int)))),
                felemLe (capFrontier coll.readCapabilities) q.1 = true := by
              intro q hq
              simp only [fElems, List.map, List.mem_singleton] at hq
              rw [hq]
              exact fle_some_felemLe hfle2
            have hlk : CUPD.lookup ix = some ((fElems (some a)).map (fun t =>
                (t, ((d.sinkExports.length + d.indexExports.length : Nat) : Int)))) := by
              rw [hCUPD]
              apply lookup_map_pair
              rw [mem_dedupSort, hcdeps]
              exact hix
            have hmain := hsome2 ix _ coll hlk hcoll
              (by rw [capFrontier_cbPush_ge hpos hge]; exact hfr)
            exact hstep1.trans (hstep2.trans hmain)
          · intro s sc hs hsc hne
            have hjva : max jv1 jv2 ≠ a := by
              intro he
              rw [← he] at hne
              exact hne hjS
            have hlkS : SUPD.lookup s = some ((fElems (some a)).map (fun t =>
                (t, ((d.sinkExports.length + d.indexExports.length : Nat) : Int)))) := by
              rw [hSUPD]
              apply lookup_map_pair
              rw [mem_dedupSort, hsdeps]
              exact hs
            have h1 : S1.collections.lookup s = some { sc with
                readCapabilities := cbPush sc.readCapabilities ((fElems (some a)).map (fun t => (t, ((d.sinkExports.length + d.indexExports.length : Nat) : Int)))) } := by
              rw [hS1v, storage_urc_lookup SUPD hnodupS storage s, hlkS, hsc]
              rfl
            have h2 : R2.2.collections.lookup s = some { sc with
                readCapabilities := cbPush sc.readCapabilities ((fElems (some a)).map (fun t => (t, ((d.sinkExports.length + d.indexExports.length : Nat) : Int)))) } := by
              rw [hR2v, hstor2 s]
              exact h1
            obtain ⟨sc2, ext, h3, h4, h5⟩ := t9 s _ h2
            refine ⟨sc2, h3, ?_⟩
            rw [h4]
            simp only [cbPush_eq_append]
            rw [List.append_assoc, net_append, net_append]
            have hchg : net ((fElems (some a)).map (fun t =>
                (t, ((d.sinkExports.length + d.indexExports.length : Nat) : Int)))) a =
                ((d.sinkExports.length + d.indexExports.length : Nat) : Int) :=
              net_single a _
            have hext : net ext a = 0 := by
              apply net_zero_of_all_ne
              intro q hq
              rw [(h5 q hq).1]
              exact hjva
            rw [hchg, hext]
            omega

/-- Claim C5: `create_dataflow` returns `MissingAsOf` without an as_of;
a failed source validation surfaces `CollectionMissing` for an
unresolvable source or `SinceViolation(id)` for a source whose since is
not `≤ as_of`, and likewise for index imports; on success every export's
per-replica write frontiers are initialized to the join of all input
sinces (not to the as_of), and every input's read capabilities are bumped
at the as_of by the number of exports. -/
theorem c5_create_dataflow_contract (i : Instance) (storage : Storage) (d : Dataflow) :
    (d.asOf = none → create_dataflow i storage d = .error .missingAsOf) ∧
    (∀ asOf er, d.asOf = some asOf →
      validateSources storage asOf d.sourceImports = .error er →
      create_dataflow i storage d = .error er ∧
      ((∃ s ∈ d.sourceImports, storage.collections.lookup s = none ∧
          er = .collectionMissing s) ∨
        (∃ s ∈ d.sourceImports, ∃ sc, storage.collections.lookup s = some sc ∧
          fle (capFrontier sc.readCapabilities) asOf = false ∧ er = .sinceViolation s))) ∧
    (∀ asOf sv er, d.asOf = some asOf →
      validateSources storage asOf d.sourceImports = .ok sv →
      validateIndexes i asOf d.indexImports = .error er →
      create_dataflow i storage d = .error er ∧
      ((∃ ix ∈ d.indexImports, i.collections.lookup ix = none ∧
          er = .collectionMissing ix) ∨
        (∃ ix ∈ d.indexImports, ∃ coll, i.collections.lookup ix = some coll ∧
          fle (capFrontier coll.readCapabilities) asOf = false ∧
          er = .sinceViolation ix))) ∧
    (∀ sdeps0 j1 cdeps0 j2 a, d.asOf = some (some a) →
      validateSources storage (some a) d.sourceImports = .ok (sdeps0, j1) →
      validateIndexes i (some a) d.indexImports = .ok (cdeps0, j2) →
      DescDeps i → d.exportIds.Nodup → i.replicas.Nodup →
      (∀ p ∈ d.sinkExports, p.2 = false → (storage.collections.lookup p.1).isSome) →
      ∃ i' s', create_dataflow i storage d = .ok (i', s') ∧
        (∀ e ∈ d.exportIds, ∃ ec, i'.collections.lookup e = some ec ∧
          ec.impliedCapability = some a ∧
          ∀ rr ∈ i.replicas, ec.replicaWriteFrontiers.lookup rr = some (fjoin j1 j2)) ∧
        (∀ ix coll, ix ∈ d.indexImports → ix ∉ d.exportIds →
          i.collections.lookup ix = some coll →
          i'.collections.lookup ix = some { coll with
            readCapabilities := cbPush coll.readCapabilities [(a, ((d.sinkExports.length + d.indexExports.length : Nat) : Int))] }) ∧
        (∀ s sc, s ∈ d.sourceImports → storage.collections.lookup s = some sc →
          fjoin j1 j2 ≠ some a →
          ∃ sc', s'.collections.lookup s = some sc' ∧
            net sc'.readCapabilities a = net sc.readCapabilities a +
              ((d.sinkExports.length + d.indexExports.length : Nat) : Int))) := by
  refine ⟨?_, ?_, ?_, ?_⟩
  · intro h
    unfold create_dataflow
    simp only [h]
  · intro asOf er hasOf herr
    constructor
    · unfold create_dataflow
      simp only [hasOf, herr]
    · exact validateSources_error_inv storage asOf d.sourceImports er herr
  · intro asOf sv er hasOf hok herr
    obtain ⟨sd0, jj1⟩ := sv
    constructor
    · unfold create_dataflow
      simp only [hasOf, hok, herr]
    · exact validateIndexes_error_inv i asOf d.indexImports er herr
  · intro sdeps0 j1 cdeps0 j2 a hasOf hvs hvi hdesc hE hrepl hpersist
    exact cdSuccess i storage d sdeps0 j1 cdeps0 j2 a hasOf hvs hvi hdesc hE hrepl hpersist

/-- The index-input collection of the C5 witness scenario: since `{2}`. -/
def c5Coll : CollectionState := CollectionState.new (some 2) [] []

/-- The instance of the C5 witness scenario: two replicas, one index. -/
def c5Inst : Instance :=
  { replicas := [1, 2], collections := [(5, c5Coll)], peeks := [], subscribes := [],
    failedReplicas := [], responses := [], commands := [] }

/-- The storage collection of the C5 witness scenario: since `{1}`. -/
def c5SC : StorageCollection :=
  { readCapabilities := [(1, 1)], impliedCapability := some 1, writeFrontier := some 1 }

/-- The storage controller of the C5 witness scenario. -/
def c5Storage : Storage := { collections := [(10, c5SC)] }

/-- The dataflow of the C5 witness scenario: one source import, one index
import, one index export, one subscribe sink, `as_of = {6}`. -/
def c5Dfl : Dataflow :=
  { asOf := some (some 6), sourceImports := [10], indexImports := [5],
    indexExports := [20], sinkExports := [(21, true)] }

/-- Witness for C5: creating the dataflow initializes both replicas'
write frontiers for export 20 to the join of sinces `{2}` (not the as_of
`{6}`), bumps the index input's capabilities by `(6, 2)` (two exports at
the as_of), and bumps the source's net capability at 6 by 2. -/
theorem c5_create_dataflow_contract_witness :
    ∃ i' s', create_dataflow c5Inst c5Storage c5Dfl = .ok (i', s') ∧
      (∃ ec, i'.collections.lookup 20 = some ec ∧ ec.impliedCapability = some 6 ∧
        ec.replicaWriteFrontiers.lookup 1 = some (some 2) ∧
        ec.replicaWriteFrontiers.lookup 2 = some (some 2)) ∧
      i'.collections.lookup 5 = some { c5Coll with
        readCapabilities := cbPush c5Coll.readCapabilities [(6, 2)] } ∧
      (∃ sc', s'.collections.lookup 10 = some sc' ∧ net sc'.readCapabilities 6 = 2) := by
  have hdesc : DescDeps c5Inst := by
    intro k coll hk e he
    have hm := lookup_some_mem hk
    simp only [c5Inst, List.mem_singleton, Prod.mk.injEq] at hm
    rw [hm.2] at he
    simp [c5Coll, CollectionState.new] at he
  obtain ⟨i', s', heq, hexp, hcomp, hstor⟩ :=
    (c5_create_dataflow_contract c5Inst c5Storage c5Dfl).2.2.2 [10] (some 1) [5] (some 2) 6
      rfl (by decide) (by decide) hdesc (by decide) (by decide) (by decide)
  obtain ⟨ec, hec, himp, hrwf⟩ := hexp 20 (by decide)
  obtain ⟨sc', hsc', hnet⟩ := hstor 10 c5SC (by decide) rfl (by decide)
  refine ⟨i', s', heq, ⟨ec, hec, himp, ?_, ?_⟩, ?_, ⟨sc', hsc', ?_⟩⟩
  · have := hrwf 1 (by decide)
    rw [this]
    rfl
  · have := hrwf 2 (by decide)
    rw [this]
    rfl
  · have := hcomp 5 c5Coll (by decide) (by decide) rfl
    rw [this]
    rfl
  · rw [hnet]
    decide
